import Mathlib

/-!
Monomials, sample sets and univariate polynomials of `carl`
(`src/carl/core/Monomial.h`, `src/carl/cad/SampleSet.h`,
`src/carl/core/UnivariatePolynomial.h`).

A shallow embedding of the class `carl::Monomial` and a verification of its
arithmetic and of its orders; of the class `carl::cad::SampleSet`, its two stores being
sorted lists; and of `negateVariable`, `reverseCoefficients` and the order of pointers
of `carl::UnivariatePolynomial`.

* `exponent` is the C++ type `unsigned`: a natural number below `2^32`, with
  wrap-around arithmetic (`uadd`, `usub`, `umul`).
* A `Monomial*` that may be `nullptr` is an `Option Monomial`.
* Loops over the two sorted exponent vectors are recursive functions over two
  lists; a value the loop updates in place (the total degree) is passed along.
-/

/-- Modelled from the spec: `Variable.h` is not among the sources. A variable is
an opaque handle with a total order given by its identifier; the handle is
represented by that identifier, also as first component of a pair of
`mExponents`. -/
abbrev Variable := Nat

/-- Number of values of the C++ type `unsigned`, which is `exponent`. -/
def expMod : Nat := 4294967296

/-- Addition of two `unsigned` values. -/
def uadd (x y : Nat) : Nat := (x + y) % expMod

/-- Subtraction of two `unsigned` values (wraps around below zero). -/
def usub (x y : Nat) : Nat := (x + expMod - y) % expMod

/-- Multiplication of two `unsigned` values. -/
def umul (x y : Nat) : Nat := (x * y) % expMod

/-- Modelled from the spec: `CompareResult.h` is not among the sources; the three
outcomes of a comparison. -/
inductive CompareResult where
  | LESS
  | EQUAL
  | GREATER
deriving DecidableEq, Repr

/-- The class `Monomial`: the vector `mExponents` of variable-exponent pairs and
the cached total degree `mTotalDegree`. -/
structure Monomial where
  mExponents : List (Nat × Nat)
  mTotalDegree : Nat
deriving DecidableEq, Repr

/-- Sum of the exponents of a list of variable-exponent pairs. -/
def sumExp (l : List (Nat × Nat)) : Nat := (l.map Prod.snd).sum

/-- Exponent stored for `v` in a list of pairs: `std::find` with
`operator==(pair, Variable)`, zero when `v` is not found. -/
def expOf (l : List (Nat × Nat)) (v : Nat) : Nat :=
  match l.find? (fun p => p.1 == v) with
  | none => 0
  | some p => p.2

/-- Strictly increasing variables in a list of variable-exponent pairs. -/
def SortedVars (l : List (Nat × Nat)) : Prop := l.Pairwise (fun p q => p.1 < q.1)

/-- Every exponent of the list is positive. -/
def PosExp (l : List (Nat × Nat)) : Prop := ∀ p ∈ l, 0 < p.2

/-- Every variable of the list is above `w`. -/
def Above (w : Nat) (l : List (Nat × Nat)) : Prop := ∀ p ∈ l, w < p.1

/-- Loop of `operator*=(Variable)`. -/
def mulVarLoop (v : Nat) : List (Nat × Nat) → List (Nat × Nat)
  | [] => [(v, 1)]
  | it :: rest =>
    if it.1 = v then (it.1, uadd it.2 1) :: rest
    else if it.1 > v then (v, 1) :: it :: rest
    else it :: mulVarLoop v rest

/-- Loop of `operator*=(const Monomial&)`: `itleft` walks the left vector,
`itright` the right one; the remainder of the right vector is appended. -/
def mulLoop : List (Nat × Nat) → List (Nat × Nat) → List (Nat × Nat)
  | [], r => r
  | l :: ls, [] => l :: ls
  | l :: ls, r :: rs =>
    if l.1 = r.1 then (l.1, uadd l.2 r.2) :: mulLoop ls rs
    else if l.1 > r.1 then r :: mulLoop (l :: ls) rs
    else l :: mulLoop ls (r :: rs)
termination_by l r => l.length + r.length

/-- Find-and-rebuild of `dividedBy(Variable)`: the pair of `v` is dropped when its
exponent is one and decremented otherwise; `none` when `v` does not occur. -/
def dividedByVarLoop (v : Nat) : List (Nat × Nat) → Option (List (Nat × Nat))
  | [] => none
  | it :: rest =>
    if it.1 = v then
      (if it.2 = 1 then some rest else some ((it.1, usub it.2 1) :: rest))
    else (dividedByVarLoop v rest).map (fun res => it :: res)

/-- Loop of `dividableBy`. -/
def dividableByLoop : List (Nat × Nat) → List (Nat × Nat) → Bool
  | [], r => r.isEmpty
  | _ :: _, [] => true
  | l :: ls, r :: rs =>
    if l.1 = r.1 then
      (if r.2 > l.2 then false else dividableByLoop ls rs)
    else if l.1 > r.1 then false
    else dividableByLoop ls (r :: rs)

/-- Loop of `dividedBy(const Monomial&)`; `none` is the deleted result. -/
def dividedByLoop : List (Nat × Nat) → List (Nat × Nat) → Option (List (Nat × Nat))
  | [], r => if r.isEmpty then some [] else none
  | l :: ls, [] => some (l :: ls)
  | l :: ls, r :: rs =>
    if l.1 = r.1 then
      (if usub l.2 r.2 > l.2 then none
       else if usub l.2 r.2 > 0 then
         (dividedByLoop ls rs).map (fun res => (l.1, usub l.2 r.2) :: res)
       else dividedByLoop ls rs)
    else if l.1 > r.1 then none
    else (dividedByLoop ls (r :: rs)).map (fun res => l :: res)

/-- Loop of `calcLcmAndDivideBy`; `d` is `result->mTotalDegree`. -/
def calcLcmAndDivideByLoop :
    List (Nat × Nat) → List (Nat × Nat) → Nat → List (Nat × Nat) × Nat
  | [], _, d => ([], d)
  | l :: ls, [], d => (l :: ls, d)
  | l :: ls, r :: rs, d =>
    if l.1 = r.1 then
      (if usub (max l.2 r.2) r.2 ≠ 0 then
         ((l.1, usub (max l.2 r.2) r.2) :: (calcLcmAndDivideByLoop ls rs (usub d r.2)).1,
           (calcLcmAndDivideByLoop ls rs (usub d r.2)).2)
       else calcLcmAndDivideByLoop ls rs (usub d l.2))
    else if l.1 > r.1 then calcLcmAndDivideByLoop (l :: ls) rs d
    else (l :: (calcLcmAndDivideByLoop ls (r :: rs) d).1, (calcLcmAndDivideByLoop ls (r :: rs) d).2)
termination_by l r _ => l.length + r.length

/-- Loop of `lcm`; `d` is `result.mTotalDegree`. -/
def lcmLoop :
    List (Nat × Nat) → List (Nat × Nat) → Nat → List (Nat × Nat) × Nat
  | [], r, d => (r, d)
  | l :: ls, [], d => (l :: ls, d)
  | l :: ls, r :: rs, d =>
    if l.1 = r.1 then
      ((l.1, max l.2 r.2) :: (lcmLoop ls rs (usub d (min l.2 r.2))).1,
        (lcmLoop ls rs (usub d (min l.2 r.2))).2)
    else if l.1 > r.1 then (r :: (lcmLoop (l :: ls) rs d).1, (lcmLoop (l :: ls) rs d).2)
    else (l :: (lcmLoop ls (r :: rs) d).1, (lcmLoop ls (r :: rs) d).2)
termination_by l r _ => l.length + r.length

/-- Loop of `pow`; `s` is `expsum`. -/
def powLoop (exp : Nat) : List (Nat × Nat) → Nat → List (Nat × Nat) × Nat
  | [], s => ([], s)
  | it :: rest, s =>
    ((it.1, umul it.2 exp) :: (powLoop exp rest (uadd s (umul it.2 exp))).1,
      (powLoop exp rest (uadd s (umul it.2 exp))).2)

/-- Loop of `dropVariable`; `d` is `m->mTotalDegree`. -/
def dropVariableLoop (v : Nat) : List (Nat × Nat) → Nat → List (Nat × Nat) × Nat
  | [], d => ([], d)
  | it :: rest, d =>
    if it.1 = v then dropVariableLoop v rest (usub d it.2)
    else (it :: (dropVariableLoop v rest d).1, (dropVariableLoop v rest d).2)

/-- Body of `lexicalCompare`. -/
def lexicalCompareLoop : List (Nat × Nat) → List (Nat × Nat) → CompareResult
  | [], [] => CompareResult.EQUAL
  | [], _ :: _ => CompareResult.LESS
  | _ :: _, [] => CompareResult.GREATER
  | l :: ls, r :: rs =>
    if l.1 = r.1 then
      (if l.2 < r.2 then CompareResult.LESS
       else if l.2 > r.2 then CompareResult.GREATER
       else lexicalCompareLoop ls rs)
    else (if l.1 < r.1 then CompareResult.GREATER else CompareResult.LESS)

namespace Monomial

/-- Constructor `Monomial(Variable::Arg v, exponent e = 1)`. -/
def fromVariable (v : Variable) (e : Nat) : Monomial := ⟨[(v, e)], e⟩

/-- Total degree: `tdeg()`. -/
def tdeg (m : Monomial) : Nat := m.mTotalDegree

/-- Number of variables: `nrVariables()`. -/
def nrVariables (m : Monomial) : Nat := m.mExponents.length

/-- Exponent of a variable: `exponentOfVariable(v)`. -/
def exponentOfVariable (m : Monomial) (v : Variable) : Nat := expOf m.mExponents v

/-- Occurrence of a variable: `has(v)`. -/
def has (m : Monomial) (v : Variable) : Bool := (m.mExponents.find? (fun p => p.1 == v)).isSome

/-- Equality of monomials: `operator==(const Monomial&, const Monomial&)`. -/
def eq (lhs rhs : Monomial) : Bool :=
  if lhs.mTotalDegree ≠ rhs.mTotalDegree then false
  else decide (lhs.mExponents = rhs.mExponents)

/-- Product with a variable: `operator*=(Variable::Arg)`. -/
def mulVar (m : Monomial) (v : Variable) : Monomial :=
  ⟨mulVarLoop v m.mExponents, uadd m.mTotalDegree 1⟩

/-- Product of monomials: `operator*=(const Monomial&)` on a copy of `lhs`, which is
`operator*(const Monomial&, const Monomial&)`. -/
def mul (lhs rhs : Monomial) : Monomial :=
  if rhs.mTotalDegree = 0 then lhs
  else ⟨mulLoop lhs.mExponents rhs.mExponents, uadd lhs.mTotalDegree rhs.mTotalDegree⟩

/-- Quotient by a variable: `dividedBy(Variable::Arg)`. -/
def dividedByVar (m : Monomial) (v : Variable) : Option Monomial :=
  (dividedByVarLoop v m.mExponents).map (fun res => ⟨res, usub m.mTotalDegree 1⟩)

/-- Divisibility test: `dividableBy(const Monomial&)`. -/
def dividableBy (a m : Monomial) : Bool :=
  if m.mTotalDegree > a.mTotalDegree then false
  else if m.nrVariables > a.nrVariables then false
  else dividableByLoop a.mExponents m.mExponents

/-- Quotient by a monomial: `dividedBy(const Monomial&)`. -/
def dividedBy (a m : Monomial) : Option Monomial :=
  if m.mTotalDegree > a.mTotalDegree ∨ m.mExponents.length > a.mExponents.length then none
  else (dividedByLoop a.mExponents m.mExponents).map
    (fun res => ⟨res, usub a.mTotalDegree m.mTotalDegree⟩)

/-- One-pass `lcm(a, m) / m`: `calcLcmAndDivideBy(const Monomial&)`. -/
def calcLcmAndDivideBy (a m : Monomial) : Monomial :=
  ⟨(calcLcmAndDivideByLoop a.mExponents m.mExponents a.mTotalDegree).1,
    (calcLcmAndDivideByLoop a.mExponents m.mExponents a.mTotalDegree).2⟩

/-- Separable part: `seperablePart()`. -/
def seperablePart (m : Monomial) : Monomial :=
  ⟨m.mExponents.map (fun it => (it.1, 1)), m.mExponents.length % expMod⟩

/-- Power: `pow(unsigned exp)`. -/
def pow (m : Monomial) (exp : Nat) : Option Monomial :=
  if exp = 0 then none
  else some ⟨(powLoop exp m.mExponents 0).1, (powLoop exp m.mExponents 0).2⟩

/-- Removal of a variable: `dropVariable(v)`. -/
def dropVariable (m : Monomial) (v : Variable) : Option Monomial :=
  if !m.has v then some m
  else if (dropVariableLoop v m.mExponents m.mTotalDegree).2 = 0 then none
  else some ⟨(dropVariableLoop v m.mExponents m.mTotalDegree).1,
    (dropVariableLoop v m.mExponents m.mTotalDegree).2⟩

/-- Least common multiple: `lcm(const Monomial&, const Monomial&)`. -/
def lcm (lhs rhs : Monomial) : Monomial :=
  ⟨(lcmLoop lhs.mExponents rhs.mExponents (uadd lhs.tdeg rhs.tdeg)).1,
    (lcmLoop lhs.mExponents rhs.mExponents (uadd lhs.tdeg rhs.tdeg)).2⟩

/-- The private `lexicalCompare`. -/
def lexicalCompare (lhs rhs : Monomial) : CompareResult :=
  lexicalCompareLoop lhs.mExponents rhs.mExponents

/-- Lexicographic order: `compareLexical(const Monomial&, const Monomial&)`. -/
def compareLexical (lhs rhs : Monomial) : CompareResult := lexicalCompare lhs rhs

/-- Graded lexicographic order: `compareGradedLexical(const Monomial&, const Monomial&)`. -/
def compareGradedLexical (lhs rhs : Monomial) : CompareResult :=
  if lhs.mTotalDegree < rhs.mTotalDegree then CompareResult.LESS
  else if lhs.mTotalDegree > rhs.mTotalDegree then CompareResult.GREATER
  else lexicalCompare lhs rhs

/-- Strict order of monomials: `operator<(const Monomial&, const Monomial&)`. -/
def lt (lhs rhs : Monomial) : Bool :=
  decide (compareGradedLexical lhs rhs = CompareResult.LESS)

/-- Loop of `isConsistent`: `tdeg` and `lastVarIndex` are the two local variables;
`none` is the early `return false`, otherwise the final value of `tdeg`. -/
def isConsistentLoop : List (Nat × Nat) → Nat → Nat → Option Nat
  | [], tdeg, _ => some tdeg
  | ve :: rest, tdeg, lastVarIndex =>
    if ve.2 ≤ 0 then none
    else if ve.1 < lastVarIndex then none
    else isConsistentLoop rest (uadd tdeg ve.2) ve.1

/-- The validity check: `isConsistent()`. -/
def isConsistent (m : Monomial) : Bool :=
  match isConsistentLoop m.mExponents 0 0 with
  | none => false
  | some tdeg => if tdeg ≠ m.mTotalDegree then false else true

/-- Variables of a monomial: the set filled by `gatherVariables`. -/
def gatherVariables (m : Monomial) : Finset Nat := (m.mExponents.map Prod.fst).toFinset

/-- Constant monomial: `isConstant()`. -/
def isConstant (m : Monomial) : Bool := decide (m.mTotalDegree = 0)

/-- Sum, over the variables of either monomial, of the larger of the two exponents:
the total degree of the least common multiple as a number, before it is stored in
an `unsigned`. -/
def lcmDegree (a b : Monomial) : Nat :=
  ∑ v ∈ a.gatherVariables ∪ b.gatherVariables, max (a.exponentOfVariable v) (b.exponentOfVariable v)

/-- The data invariant of a monomial: variables strictly increasing, every exponent
positive, cached total degree equal to the sum of the exponents. The last
conjunct says that the total degree is a value of the type `unsigned`. -/
def Consistent (m : Monomial) : Prop :=
  SortedVars m.mExponents ∧
  PosExp m.mExponents ∧
  m.mTotalDegree = sumExp m.mExponents ∧
  m.mTotalDegree < expMod

instance (m : Monomial) : Decidable m.Consistent := by
  unfold Consistent SortedVars PosExp
  exact inferInstance

end Monomial

/-- Lexicographic comparison of two exponent vectors by their exponents: at the first
variable at which the exponents differ, the left one is the smaller. -/
def LexLess (l r : List (Nat × Nat)) : Prop :=
  ∃ v, (∀ w, w < v → expOf l w = expOf r w) ∧ expOf l v < expOf r v

/-- The requirement `Compare` of the C++ standard library on the order of a
`std::set`: a strict weak order, given as a Boolean function. -/
structure StrictWeakOrder {S : Type} (lt : S → S → Bool) : Prop where
  irrefl : ∀ a, lt a a = false
  trans : ∀ a b c, lt a b = true → lt b c = true → lt a c = true
  incomp : ∀ a b c, lt a c = true → lt a b = true ∨ lt b c = true

/-- Two keys that a `std::set` takes for the same: neither is less than the other. -/
def Equivalent {S : Type} (lt : S → S → Bool) (a b : S) : Prop :=
  lt a b = false ∧ lt b a = false

namespace StdSet

/-- The call `insert(x)` of `std::set<T, Compare>`, the set being the list of its
elements in increasing order: the new list, the position of the element with the key
of `x`, and whether `x` was inserted. -/
def insert {S : Type} (lt : S → S → Bool) (x : S) : List S → List S × Nat × Bool
  | [] => ([x], 0, true)
  | e :: rest =>
    if lt e x then
      (e :: (insert lt x rest).1, (insert lt x rest).2.1 + 1, (insert lt x rest).2.2)
    else if lt x e then (x :: e :: rest, 0, true)
    else (e :: rest, 0, false)

/-- The call `erase(key)` of `std::set<T, Compare>`: the element with the key of `x`,
if there is one, is removed. -/
def eraseKey {S : Type} (lt : S → S → Bool) (x : S) : List S → List S
  | [] => []
  | e :: rest =>
    if lt e x then e :: eraseKey lt x rest
    else if lt x e then e :: rest
    else rest

/-- The call `find(x)` of `std::set<T, Compare>`: the position of the element with the
key of `x`, or `none` for `end()`. -/
def find {S : Type} (lt : S → S → Bool) (x : S) : List S → Option Nat
  | [] => none
  | e :: rest =>
    if lt e x then (find lt x rest).map (fun i => i + 1)
    else if lt x e then none
    else some 0

/-- The range insertion `insert(first, last)` of `std::set<T, Compare>`. -/
def insertRange {S : Type} (lt : S → S → Bool) (range : List S) (l : List S) : List S :=
  range.foldl (fun acc x => (insert lt x acc).1) l

end StdSet

/-- The enumeration `SampleOrdering`; `Default` is `IntRatRoot`. -/
inductive SampleOrdering where
  | IntRatRoot
  | RatRoot
deriving DecidableEq, Repr

/-- Modelled from the spec: `RealAlgebraicNumber.h`, `RealAlgebraicNumberIR.h` and
`RealAlgebraicNumberNR.h` are not among the sources. What the sample set asks of a
sample of type `S`: whether it is numeric (`isNumeric()`), whether its value is an
integer (`carl::isInteger(value())`, asked of a numeric sample only), whether it is a
root (`isRoot()`), and the value order `std::less<RealAlgebraicNumberPtr<Number>>`. -/
structure SampleOps (S : Type) where
  isNumeric : S → Bool
  isInteger : S → Bool
  isRoot : S → Bool
  less : S → S → Bool

namespace SampleComparator

/-- The private `compare(bool l, bool r)`. -/
def compare (l r : Bool) : Bool × Bool :=
  if l && r then (false, false)
  else if l || r then (true, r)
  else (false, false)

/-- The private `compareInt`. -/
def compareInt {S : Type} (ops : SampleOps S) (lhs rhs : S) : Bool × Bool :=
  compare (ops.isNumeric lhs && ops.isInteger lhs) (ops.isNumeric rhs && ops.isInteger rhs)

/-- The private `compareRat`. -/
def compareRat {S : Type} (ops : SampleOps S) (lhs rhs : S) : Bool × Bool :=
  compare (ops.isNumeric lhs) (ops.isNumeric rhs)

/-- The private `compareRoot`. -/
def compareRoot {S : Type} (ops : SampleOps S) (lhs rhs : S) : Bool × Bool :=
  compare (ops.isRoot lhs) (ops.isRoot rhs)

/-- Modelled from the spec: `SampleComparator::operator()` is defined in
`SampleSet.tpp`, which is not among the sources. The cascade of the spec: compare by
the class of integers (for `IntRatRoot` only), then by the class of rationals, then by
the class of roots, and fall back to the value order. A stage decides when the first
component of its result is true. The spec prefers integers over rationals over
roots, and `next()` returns the smallest sample of the priority order: the sample for
which the property holds is the smaller one, which is the second component of the stage
on `rhs` and `lhs`. -/
def call {S : Type} (ops : SampleOps S) (ordering : SampleOrdering) (lhs rhs : S) : Bool :=
  match ordering with
  | SampleOrdering.IntRatRoot =>
    if (compareInt ops rhs lhs).1 then (compareInt ops rhs lhs).2
    else if (compareRat ops rhs lhs).1 then (compareRat ops rhs lhs).2
    else if (compareRoot ops rhs lhs).1 then (compareRoot ops rhs lhs).2
    else ops.less lhs rhs
  | SampleOrdering.RatRoot =>
    if (compareRat ops rhs lhs).1 then (compareRat ops rhs lhs).2
    else if (compareRoot ops rhs lhs).1 then (compareRoot ops rhs lhs).2
    else ops.less lhs rhs

end SampleComparator

/-- The class `SampleSet`: the set `mSamples` in the value order and the set `mQueue`
in the order of the comparator, each as the list of its elements in increasing order,
and the ordering `mQueue.key_comp().ordering()` of the comparator. An iterator into
`mSamples` is a position in the list, `end()` being its length. -/
structure SampleSet (S : Type) where
  mSamples : List S
  mQueue : List S
  ordering : SampleOrdering

namespace SampleSet

variable {S : Type}

/-- Constructor `SampleSet(SampleOrdering ordering = SampleOrdering::Default)`. -/
def init (ordering : SampleOrdering) : SampleSet S := ⟨[], [], ordering⟩

/-- The call `insert(r)`: the new sample set, the iterator and the flag returned;
`less` is the value order and `comp` the comparator of each ordering. -/
def insert (less : S → S → Bool) (comp : SampleOrdering → S → S → Bool)
    (s : SampleSet S) (r : S) : SampleSet S × Nat × Bool :=
  (⟨(StdSet.insert less r s.mSamples).1, (StdSet.insert (comp s.ordering) r s.mQueue).1,
      s.ordering⟩,
    (StdSet.insert less r s.mSamples).2.1, (StdSet.insert less r s.mSamples).2.2)

/-- The call `remove(position)`: the new sample set and the iterator returned, the
position of the next sample; `none` when `position` is not the position of a sample
(not a valid iterator). -/
def remove (comp : SampleOrdering → S → S → Bool) (s : SampleSet S) (position : Nat) :
    Option (SampleSet S × Nat) :=
  match s.mSamples[position]? with
  | none => none
  | some x =>
    some (⟨s.mSamples.eraseIdx position, StdSet.eraseKey (comp s.ordering) x s.mQueue,
      s.ordering⟩, position)

/-- The call `begin()`. -/
def «begin» (_s : SampleSet S) : Nat := 0

/-- The call `end()`. -/
def «end» (s : SampleSet S) : Nat := s.mSamples.length

/-- The call `next()`; `none` when the assertion `!mQueue.empty()` fails. -/
def next (s : SampleSet S) : Option S := s.mQueue.head?

/-- The call `empty()`. -/
def empty (s : SampleSet S) : Bool := s.mQueue.isEmpty

/-- The call `contains(r)`. -/
def contains (less : S → S → Bool) (s : SampleSet S) (r : S) : Bool :=
  (StdSet.find less r s.mSamples).isSome

/-- The body of the private `resetOrdering(ordering)`, the new set being ordered by
`SampleComparator(ordering)`. As the source has it, the declaration `newSet(ordering)`
passes a `SampleOrdering` where `std::set` takes its comparator, and the constructor of
`SampleComparator` is `explicit`: a program that calls `resetOrdering`, and with it
`next(ordering)`, does not compile. -/
def resetOrdering (comp : SampleOrdering → S → S → Bool) (s : SampleSet S)
    (ordering : SampleOrdering) : SampleSet S :=
  if ordering ≠ s.ordering then
    ⟨s.mSamples, StdSet.insertRange (comp ordering) s.mQueue [], ordering⟩
  else s

/-- The body of the call `next(ordering)`: the new sample set and the sample returned;
see `resetOrdering`. -/
def nextWith (comp : SampleOrdering → S → S → Bool) (s : SampleSet S)
    (ordering : SampleOrdering) : SampleSet S × Option S :=
  (resetOrdering comp s ordering, (resetOrdering comp s ordering).next)

end SampleSet

/-- A call that changes a sample set: `insert(r)`, `remove(position)` or
`next(ordering)`. -/
inductive SampleSetCall (S : Type) where
  | insert (r : S)
  | remove (position : Nat)
  | next (ordering : SampleOrdering)

namespace SampleSet

variable {S : Type}

/-- The sample set after one call; `none` when the call is a `remove` at a position
that is not valid. -/
def step (less : S → S → Bool) (comp : SampleOrdering → S → S → Bool) (s : SampleSet S) :
    SampleSetCall S → Option (SampleSet S)
  | SampleSetCall.insert r => some (s.insert less comp r).1
  | SampleSetCall.remove position => (s.remove comp position).map Prod.fst
  | SampleSetCall.next ordering => some (s.nextWith comp ordering).1

/-- The sample set after a sequence of calls. -/
def run (less : S → S → Bool) (comp : SampleOrdering → S → S → Bool) (s : SampleSet S) :
    List (SampleSetCall S) → Option (SampleSet S)
  | [] => some s
  | c :: cs =>
    match s.step less comp c with
    | none => none
    | some s' => run less comp s' cs

end SampleSet

/-- Modelled from the spec: `RealAlgebraicNumber.h` is not among the sources. A sample
for the evaluation of a scenario: numeric or interval-represented, whether its value
is an integer, whether it is a root, and `place`, its real value in thousandths,
rounded down. The samples compared below are either equal in value or more than a
thousandth apart, so that the value order is the order of the places. -/
structure ScenarioSample where
  isNumeric : Bool
  isInteger : Bool
  isRoot : Bool
  place : Int
deriving DecidableEq, Repr

/-- Modelled from the spec: the operations of real algebraic numbers on the samples
of a scenario; the value order compares the real values. -/
def scenarioOps : SampleOps ScenarioSample :=
  ⟨fun s => s.isNumeric, fun s => s.isInteger, fun s => s.isRoot,
    fun a b => decide (a.place < b.place)⟩

instance {S : Type} (lt : S → S → Bool) (a b : S) : Decidable (Equivalent lt a b) := by
  unfold Equivalent
  exact inferInstance

/-- The class of a sample under an ordering as a number: a sample of a lower class
is the smaller one in the cascade of the comparator; a property that holds lowers the
class. -/
def SampleComparator.classKey {S : Type} (ops : SampleOps S) (ordering : SampleOrdering)
    (a : S) : Nat :=
  match ordering with
  | SampleOrdering.IntRatRoot =>
    4 * (!(ops.isNumeric a && ops.isInteger a)).toNat + 2 * (!ops.isNumeric a).toNat +
      (!ops.isRoot a).toNat
  | SampleOrdering.RatRoot => 2 * (!ops.isNumeric a).toNat + (!ops.isRoot a).toNat

namespace ScenarioSample

/-- Modelled from the spec: the negative root of `x^2 - 2`, interval-represented. -/
def negRootOfTwo : ScenarioSample := ⟨false, false, true, -1415⟩

/-- Modelled from the spec: the positive root of `x^2 - 2`, interval-represented. -/
def posRootOfTwo : ScenarioSample := ⟨false, false, true, 1414⟩

/-- Modelled from the spec: the numeric value `1`. -/
def one : ScenarioSample := ⟨true, true, true, 1000⟩

/-- Modelled from the spec: the root `2` of `x^2 - 4`, interval-represented with the
isolating interval `]1, 3[`. -/
def twoIR : ScenarioSample := ⟨false, false, true, 2000⟩

/-- Modelled from the spec: the numeric value `2`. -/
def twoNR : ScenarioSample := ⟨true, true, true, 2000⟩

end ScenarioSample

/-- Modelled from the spec: the numeric value `1` as a sample that is not a root. -/
def ScenarioSample.oneNotRoot : ScenarioSample := ⟨true, true, false, 1000⟩

namespace Monomial

/-- Loop of `isSquare`. -/
def isSquareLoop : List (Nat × Nat) → Bool
  | [] => true
  | it :: rest => if it.2 % 2 = 1 then false else isSquareLoop rest

/-- Test for a square: `isSquare()`. -/
def isSquare (m : Monomial) : Bool :=
  if m.mTotalDegree % 2 = 1 then false else isSquareLoop m.mExponents

/-- Test `hasNoOtherVariable(v)`. -/
def hasNoOtherVariable (m : Monomial) (v : Variable) : Bool :=
  if m.mExponents.length = 1 then
    match m.mExponents.head? with
    | some p => if p.1 = v then true else false
    | none => false
  else if m.mExponents.length = 0 then true
  else false

/-- The product `m * m * ... * m` of `n + 1` copies of `m`, by `operator*`. -/
def productOfCopies (m : Monomial) : Nat → Monomial
  | 0 => m
  | n + 1 => (productOfCopies m n).mul m

end Monomial

/-- Modelled from the spec: `simplify(from, to)` is defined in `SampleSet.tpp`, which
is not among the sources. When `fromIR` is a member by the value order, that member is
removed from both stores, as `remove` does at its position, and `toNR` is inserted, as
`insert` does, and the call returns true; when `fromIR` is not a member, the sample set
is unchanged and the call returns false. -/
def SampleSet.simplify {S : Type} (less : S → S → Bool)
    (comp : SampleOrdering → S → S → Bool) (s : SampleSet S) (fromIR toNR : S) :
    SampleSet S × Bool :=
  match StdSet.find less fromIR s.mSamples with
  | none => (s, false)
  | some position =>
    match s.remove comp position with
    | none => (s, false)
    | some r => ((r.1.insert less comp toNR).1, true)

/-- The numeric `3/2`, created as a root. -/
def ScenarioSample.threeHalves : ScenarioSample := ⟨true, false, true, 1500⟩

/-- The class `UnivariatePolynomial<Coefficient>`: the main variable `mMainVar` and the
vector `mCoefficients`, the coefficient of degree `i` at index `i`. -/
structure UnivariatePolynomial (C : Type) where
  mMainVar : Variable
  mCoefficients : List C

namespace UnivariatePolynomial

variable {C : Type}

/-- Main variable: `mainVar()`. -/
def mainVar (p : UnivariatePolynomial C) : Variable := p.mMainVar

/-- Coefficients: `coefficients()`. -/
def coefficients (p : UnivariatePolynomial C) : List C := p.mCoefficients

/-- Loop of `negateVariable`, from the degree `deg` on. -/
def negateVariableLoop [Neg C] : List C → Nat → List C
  | [], _ => []
  | c :: rest, deg => (if deg % 2 = 1 then -c else c) :: negateVariableLoop rest (deg + 1)

/-- Negation of the variable: `negateVariable()`. -/
def negateVariable [Neg C] (p : UnivariatePolynomial C) : UnivariatePolynomial C :=
  ⟨p.mMainVar, negateVariableLoop p.mCoefficients 0⟩

/-- The value `c_0 + c_1 * x + ... + c_n * x^n` of the coefficients `c_0, ..., c_n`
at `x`. -/
def valueOfCoefficients [Zero C] [Add C] [Mul C] (x : C) : List C → C
  | [] => 0
  | c :: rest => c + x * valueOfCoefficients x rest

/-- The value `p(x)` of a polynomial at `x`. -/
def valueAt [Zero C] [Add C] [Mul C] (p : UnivariatePolynomial C) (x : C) : C :=
  valueOfCoefficients x p.mCoefficients

end UnivariatePolynomial

/-- Modelled from the spec: `Relation.h` is not among the sources. The relation symbol
`~` of a constraint `p ~ 0`. -/
inductive carl.Relation where
  | EQ
  | NEQ
  | LESS
  | LEQ
  | GREATER
  | GEQ
deriving DecidableEq, Repr

/-- The sign condition `v ~ 0` on a value `v` of an ordered field. -/
def carl.Relation.Holds {K : Type} [LinearOrderedField K] (r : carl.Relation) (v : K) : Prop :=
  match r with
  | carl.Relation.EQ => v = 0
  | carl.Relation.NEQ => v ≠ 0
  | carl.Relation.LESS => v < 0
  | carl.Relation.LEQ => v ≤ 0
  | carl.Relation.GREATER => 0 < v
  | carl.Relation.GEQ => 0 ≤ v

/-- The value of a monomial at an assignment of values to the variables. -/
def Monomial.valueAt {K : Type} [Field K] (σ : Variable → K) (m : Monomial) : K :=
  (m.mExponents.map (fun p => σ p.1 ^ p.2)).prod

/-- Modelled from the spec: `MultivariatePolynomial.h` is not among the sources. A
polynomial with rational coefficients as the list of its terms, a coefficient and a
monomial each. -/
structure MultivariatePolynomial where
  mTerms : List (ℚ × Monomial)

/-- The value of a polynomial at an assignment of values to the variables. -/
def MultivariatePolynomial.valueAt {K : Type} [Field K] (σ : Variable → K)
    (p : MultivariatePolynomial) : K :=
  (p.mTerms.map (fun t => (t.1 : K) * t.2.valueAt σ)).sum

/-- Modelled from the spec: `Constraint.h` is not among the sources. The constraint
`lhs ~ 0`, as `Constraint(poly, relation)` builds it. -/
structure Constraint where
  lhs : MultivariatePolynomial
  relation : carl.Relation

/-- The truth value of a constraint at an assignment of values to the variables. -/
def Constraint.HoldsAt {K : Type} [LinearOrderedField K] (c : Constraint)
    (σ : Variable → K) : Prop :=
  c.relation.Holds (c.lhs.valueAt σ)

/-- Modelled from the spec: `RealAlgebraicNumber.h` is not among the sources. A real
algebraic number is numeric, an exact rational value, or interval-represented, a
univariate polynomial with an open interval with rational bounds. -/
inductive RealAlgebraicNumber where
  | NR (value : ℚ)
  | IR (polynomial : UnivariatePolynomial ℚ) (lower upper : ℚ)

namespace RealAlgebraicNumber

/-- Modelled from the spec: the real number `r` is a value that the number stands for:
the rational value of a numeric number, a root of the polynomial in the open interval
of an interval-represented one. -/
def Represents (n : RealAlgebraicNumber) (r : ℝ) : Prop :=
  match n with
  | NR value => r = (value : ℝ)
  | IR polynomial lower upper =>
    (lower : ℝ) < r ∧ r < (upper : ℝ) ∧
      UnivariatePolynomial.valueOfCoefficients r
        (polynomial.mCoefficients.map (fun c => (c : ℝ))) = 0

/-- Modelled from the spec: the isolation invariant, which `create_safe(polynomial,
interval)` verifies before it constructs the number: exactly one real root of the
polynomial lies in the interval. -/
def IsolationInvariant (n : RealAlgebraicNumber) : Prop := ∃! r : ℝ, n.Represents r

end RealAlgebraicNumber

/-- Modelled from the spec: `carl::evaluate(constraint, assignment)`, of which the test
only is among the sources. The call returns `b` when `b` is the truth value of the
constraint at the real values that the numbers assigned to the variables stand for;
the assignment is the list of the pairs of the map. -/
def carl.EvaluatesTo (c : Constraint) (m : List (Variable × RealAlgebraicNumber))
    (b : Bool) : Prop :=
  ∀ σ : Variable → ℝ, (∀ v n, m.lookup v = some n → n.Represents (σ v)) →
    (b = true ↔ c.HoldsAt σ)

/-- Lexicographic order against a variable: `compareLexical(const Monomial&,
Variable::Arg)`; `none` when `lhs.mExponents.front()` does not exist. -/
def Monomial.compareLexicalVar (lhs : Monomial) (rhs : Variable) : Option CompareResult :=
  match lhs.mExponents.head? with
  | none => none
  | some front =>
    if front.1 < rhs then some CompareResult.LESS
    else if front.1 > rhs then some CompareResult.GREATER
    else if front.2 > 1 then some CompareResult.GREATER
    else some CompareResult.LESS

namespace UnivariatePolynomial

variable {C : Type}

/-- Modelled from the spec: the constructor `UnivariatePolynomial(Variable mainVar)` is
defined in `UnivariatePolynomial.tpp`, which is not among the sources. It constructs
the zero polynomial, which `isZero()` recognises by its empty coefficient vector. -/
def zeroOf (mainVar : Variable) : UnivariatePolynomial C := ⟨mainVar, []⟩

/-- Modelled from the spec: `isConsistent()` for numeric coefficients is defined in
`UnivariatePolynomial.tpp`, which is not among the sources. Its requirement is that
the leading term is not zero; the zero polynomial has no leading term. -/
def isConsistent [Zero C] [DecidableEq C] (p : UnivariatePolynomial C) : Bool :=
  match p.mCoefficients.getLast? with
  | none => true
  | some lcoeff => decide (lcoeff ≠ 0)

/-- The `while` loop of `reverseCoefficients` on the reversed vector: the condition
reads the last coefficient, `*std::prev(end())`, and then tests that it is not the
first one; `none` when the vector has no last coefficient to read. -/
def reverseCoefficientsLoop [Zero C] [DecidableEq C] : List C → Option (List C)
  | [] => none
  | a :: t =>
    if (a :: t).getLast (List.cons_ne_nil a t) = 0 ∧ (a :: t).length ≠ 1 then
      reverseCoefficientsLoop (a :: t).dropLast
    else some (a :: t)
termination_by l => l.length
decreasing_by simp

/-- Reversal of the coefficients: `reverseCoefficients()`, without its final
assertion. -/
def reverseCoefficients [Zero C] [DecidableEq C] (p : UnivariatePolynomial C) :
    Option (UnivariatePolynomial C) :=
  (reverseCoefficientsLoop p.mCoefficients.reverse).map (fun l => ⟨p.mMainVar, l⟩)

/-- The overload of `std::less<carl::UnivariatePolynomial<Coefficient>>::operator()`
for pointers, `none` being `nullptr`; `less` is the comparison `lhs->less(*rhs, order)`
of the polynomials. -/
def lessPointer (less : UnivariatePolynomial C → UnivariatePolynomial C → Bool)
    (lhs rhs : Option (UnivariatePolynomial C)) : Bool :=
  match lhs with
  | none => rhs.isSome
  | some l =>
    match rhs with
    | none => true
    | some r => less l r

end UnivariatePolynomial

/-- Graded lexicographic order against a variable: `compareGradedLexical(const
Monomial&, Variable::Arg)`; `none` when `lhs.mExponents.front()` does not exist. -/
def Monomial.compareGradedLexicalVar (lhs : Monomial) (rhs : Variable) :
    Option CompareResult :=
  if lhs.mTotalDegree < 1 then some CompareResult.LESS
  else if lhs.mTotalDegree > 1 then some CompareResult.GREATER
  else
    match lhs.mExponents.head? with
    | none => none
    | some front =>
      if front.1 < rhs then some CompareResult.GREATER
      else if front.1 > rhs then some CompareResult.LESS
      else some CompareResult.EQUAL

/-- Modelled from the spec: a sample of a scenario as an object. Two objects may stand
for the same number in the same representation (two pointers to equal numbers);
`ident` tells them apart, and no comparison reads it. -/
structure ScenarioObject where
  sample : ScenarioSample
  ident : Nat
deriving DecidableEq, Repr

/-- Modelled from the spec: the operations of real algebraic numbers on the objects of
a scenario, which are those on their samples. -/
def objectOps : SampleOps ScenarioObject :=
  ⟨fun s => scenarioOps.isNumeric s.sample, fun s => scenarioOps.isInteger s.sample,
    fun s => scenarioOps.isRoot s.sample, fun a b => scenarioOps.less a.sample b.sample⟩

/-! Lists of variable-exponent pairs -/

theorem expOf_nil (v : Nat) : expOf [] v = 0 := rfl

theorem expOf_cons (p : Nat × Nat) (t : List (Nat × Nat)) (v : Nat) :
    expOf (p :: t) v = if p.1 = v then p.2 else expOf t v := by
  by_cases h : p.1 = v
  · simp [expOf, List.find?_cons, h]
  · have hb : (p.1 == v) = false := by simpa using h
    simp [expOf, List.find?_cons, hb, h]

theorem sumExp_nil : sumExp [] = 0 := rfl

theorem sumExp_cons (p : Nat × Nat) (t : List (Nat × Nat)) :
    sumExp (p :: t) = p.2 + sumExp t := by
  simp [sumExp]

theorem sortedVars_cons (p : Nat × Nat) (t : List (Nat × Nat)) :
    SortedVars (p :: t) ↔ Above p.1 t ∧ SortedVars t := by
  simp [SortedVars, Above, List.pairwise_cons]

theorem posExp_cons (p : Nat × Nat) (t : List (Nat × Nat)) :
    PosExp (p :: t) ↔ 0 < p.2 ∧ PosExp t := by
  simp [PosExp]

theorem above_cons (w : Nat) (p : Nat × Nat) (t : List (Nat × Nat)) :
    Above w (p :: t) ↔ w < p.1 ∧ Above w t := by
  simp [Above]

theorem above_mono {w w' : Nat} {l : List (Nat × Nat)} (h : w' ≤ w) (ha : Above w l) :
    Above w' l := fun p hp => lt_of_le_of_lt h (ha p hp)

theorem above_of_sorted_cons {p : Nat × Nat} {t : List (Nat × Nat)} {w : Nat}
    (hw : w < p.1) (hs : SortedVars (p :: t)) : Above w (p :: t) := by
  rw [sortedVars_cons] at hs
  rw [above_cons]
  exact ⟨hw, above_mono (le_of_lt hw) hs.1⟩

theorem expOf_eq_zero_of_above {w v : Nat} {l : List (Nat × Nat)}
    (ha : Above w l) (hv : v ≤ w) : expOf l v = 0 := by
  induction l with
  | nil => rfl
  | cons p t ih =>
    rw [above_cons] at ha
    rw [expOf_cons, if_neg (by omega)]
    exact ih ha.2

theorem expOf_le_sumExp (l : List (Nat × Nat)) (v : Nat) : expOf l v ≤ sumExp l := by
  induction l with
  | nil => simp [expOf_nil]
  | cons p t ih =>
    rw [expOf_cons, sumExp_cons]
    split <;> omega

theorem eq_of_expOf_eq : ∀ (l₁ l₂ : List (Nat × Nat)),
    SortedVars l₁ → PosExp l₁ → SortedVars l₂ → PosExp l₂ →
    (∀ v, expOf l₁ v = expOf l₂ v) → l₁ = l₂
  | [], [], _, _, _, _, _ => rfl
  | [], q :: t₂, _, _, _, hp₂, h => by
    have := h q.1
    rw [expOf_nil, expOf_cons, if_pos rfl] at this
    have := ((posExp_cons q t₂).1 hp₂).1
    omega
  | p :: t₁, [], _, hp₁, _, _, h => by
    have := h p.1
    rw [expOf_nil, expOf_cons, if_pos rfl] at this
    have := ((posExp_cons p t₁).1 hp₁).1
    omega
  | p :: t₁, q :: t₂, hs₁, hp₁, hs₂, hp₂, h => by
    obtain ⟨ha₁, hs₁'⟩ := (sortedVars_cons p t₁).1 hs₁
    obtain ⟨ha₂, hs₂'⟩ := (sortedVars_cons q t₂).1 hs₂
    obtain ⟨hp, hp₁'⟩ := (posExp_cons p t₁).1 hp₁
    obtain ⟨hq, hp₂'⟩ := (posExp_cons q t₂).1 hp₂
    have hv : p.1 = q.1 := by
      rcases lt_trichotomy p.1 q.1 with hlt | heq | hgt
      · have := h p.1
        rw [expOf_cons, if_pos rfl, expOf_cons, if_neg (by omega),
          expOf_eq_zero_of_above ha₂ (le_of_lt hlt)] at this
        omega
      · exact heq
      · have := h q.1
        rw [expOf_cons, if_neg (by omega), expOf_eq_zero_of_above ha₁ (le_of_lt hgt),
          expOf_cons, if_pos rfl] at this
        omega
    have he : p.2 = q.2 := by
      have := h p.1
      rwa [expOf_cons, if_pos rfl, expOf_cons, if_pos hv.symm] at this
    have ht : t₁ = t₂ := by
      apply eq_of_expOf_eq t₁ t₂ hs₁' hp₁' hs₂' hp₂'
      intro v
      by_cases hvp : p.1 = v
      · rw [expOf_eq_zero_of_above ha₁ (le_of_eq hvp.symm),
          expOf_eq_zero_of_above ha₂ (by omega)]
      · have := h v
        rwa [expOf_cons, if_neg hvp, expOf_cons, if_neg (by omega)] at this
    rw [ht]
    congr 1
    exact Prod.ext hv he

/-! Wrap-around arithmetic -/

theorem uadd_of_lt {x y : Nat} (h : x + y < expMod) : uadd x y = x + y := by
  unfold uadd
  exact Nat.mod_eq_of_lt h

theorem usub_of_le {x y : Nat} (hx : x < expMod) (h : y ≤ x) : usub x y = x - y := by
  unfold usub expMod at *
  omega

theorem usub_gt_iff {x y : Nat} (hx : x < expMod) (hy : y < expMod) :
    usub x y > x ↔ x < y := by
  unfold usub expMod at *
  omega

theorem uadd_comm (x y : Nat) : uadd x y = uadd y x := by
  unfold uadd
  rw [Nat.add_comm]

/-! The loop of the product -/

theorem mulLoop_nil_left (r : List (Nat × Nat)) : mulLoop [] r = r := by
  simp [mulLoop]

theorem mulLoop_nil_right (l : List (Nat × Nat)) : mulLoop l [] = l := by
  cases l <;> simp [mulLoop]

theorem mulLoop_cons_cons (l r : Nat × Nat) (ls rs : List (Nat × Nat)) :
    mulLoop (l :: ls) (r :: rs) =
      if l.1 = r.1 then (l.1, uadd l.2 r.2) :: mulLoop ls rs
      else if l.1 > r.1 then r :: mulLoop (l :: ls) rs
      else l :: mulLoop ls (r :: rs) := by
  rw [mulLoop]

theorem mulLoop_comm (l r : List (Nat × Nat)) : mulLoop l r = mulLoop r l := by
  induction l, r using mulLoop.induct with
  | case1 r => rw [mulLoop_nil_left, mulLoop_nil_right]
  | case2 l ls => rw [mulLoop_nil_left, mulLoop_nil_right]
  | case3 l ls r rs h ih =>
    rw [mulLoop_cons_cons, mulLoop_cons_cons, if_pos h, if_pos h.symm, ih, uadd_comm, h]
  | case4 l ls r rs h hgt ih =>
    rw [mulLoop_cons_cons, mulLoop_cons_cons, if_neg h, if_pos hgt, if_neg (Ne.symm h),
      if_neg (by omega), ih]
  | case5 l ls r rs h hgt ih =>
    rw [mulLoop_cons_cons, mulLoop_cons_cons, if_neg h, if_neg hgt, if_neg (Ne.symm h),
      if_pos (by omega), ih]

theorem above_mulLoop {w : Nat} {l r : List (Nat × Nat)}
    (hl : Above w l) (hr : Above w r) : Above w (mulLoop l r) := by
  induction l, r using mulLoop.induct with
  | case1 r => rwa [mulLoop_nil_left]
  | case2 l ls => rwa [mulLoop_nil_right]
  | case3 l ls r rs h ih =>
    rw [mulLoop_cons_cons, if_pos h, above_cons]
    rw [above_cons] at hl hr
    exact ⟨hl.1, ih hl.2 hr.2⟩
  | case4 l ls r rs h hgt ih =>
    rw [mulLoop_cons_cons, if_neg h, if_pos hgt, above_cons]
    rw [above_cons] at hr
    exact ⟨hr.1, ih hl hr.2⟩
  | case5 l ls r rs h hgt ih =>
    rw [mulLoop_cons_cons, if_neg h, if_neg hgt, above_cons]
    rw [above_cons] at hl
    exact ⟨hl.1, ih hl.2 hr⟩

theorem sortedVars_mulLoop {l r : List (Nat × Nat)}
    (hl : SortedVars l) (hr : SortedVars r) : SortedVars (mulLoop l r) := by
  induction l, r using mulLoop.induct with
  | case1 r => rwa [mulLoop_nil_left]
  | case2 l ls => rwa [mulLoop_nil_right]
  | case3 l ls r rs h ih =>
    rw [mulLoop_cons_cons, if_pos h, sortedVars_cons]
    rw [sortedVars_cons] at hl hr
    exact ⟨above_mulLoop hl.1 (h ▸ hr.1), ih hl.2 hr.2⟩
  | case4 l ls r rs h hgt ih =>
    rw [mulLoop_cons_cons, if_neg h, if_pos hgt, sortedVars_cons]
    have hl' := above_of_sorted_cons hgt hl
    rw [sortedVars_cons] at hr
    exact ⟨above_mulLoop hl' hr.1, ih hl hr.2⟩
  | case5 l ls r rs h hgt ih =>
    rw [mulLoop_cons_cons, if_neg h, if_neg hgt, sortedVars_cons]
    have hr' := above_of_sorted_cons (show l.1 < r.1 by omega) hr
    rw [sortedVars_cons] at hl
    exact ⟨above_mulLoop hl.1 hr', ih hl.2 hr⟩

theorem sumExp_mulLoop {l r : List (Nat × Nat)} (h : sumExp l + sumExp r < expMod) :
    sumExp (mulLoop l r) = sumExp l + sumExp r := by
  induction l, r using mulLoop.induct with
  | case1 r => rw [mulLoop_nil_left, sumExp_nil, Nat.zero_add]
  | case2 l ls => rw [mulLoop_nil_right, sumExp_nil, Nat.add_zero]
  | case3 l ls r rs hv ih =>
    rw [sumExp_cons, sumExp_cons] at h
    rw [mulLoop_cons_cons, if_pos hv, sumExp_cons, sumExp_cons, sumExp_cons, ih (by omega)]
    show uadd l.2 r.2 + _ = _
    rw [uadd_of_lt (by omega)]
    omega
  | case4 l ls r rs hv hgt ih =>
    rw [sumExp_cons r rs] at h
    rw [mulLoop_cons_cons, if_neg hv, if_pos hgt, sumExp_cons, sumExp_cons r rs, ih (by omega)]
    omega
  | case5 l ls r rs hv hgt ih =>
    rw [sumExp_cons] at h
    rw [mulLoop_cons_cons, if_neg hv, if_neg hgt, sumExp_cons, sumExp_cons l ls, ih (by omega)]
    omega

theorem posExp_mulLoop {l r : List (Nat × Nat)} (hl : PosExp l) (hr : PosExp r)
    (h : sumExp l + sumExp r < expMod) : PosExp (mulLoop l r) := by
  induction l, r using mulLoop.induct with
  | case1 r => rwa [mulLoop_nil_left]
  | case2 l ls => rwa [mulLoop_nil_right]
  | case3 l ls r rs hv ih =>
    rw [sumExp_cons, sumExp_cons] at h
    rw [mulLoop_cons_cons, if_pos hv, posExp_cons]
    rw [posExp_cons] at hl hr
    refine ⟨?_, ih hl.2 hr.2 (by omega)⟩
    show 0 < uadd l.2 r.2
    rw [uadd_of_lt (by omega)]
    omega
  | case4 l ls r rs hv hgt ih =>
    rw [sumExp_cons r rs] at h
    rw [mulLoop_cons_cons, if_neg hv, if_pos hgt, posExp_cons]
    rw [posExp_cons] at hr
    exact ⟨hr.1, ih hl hr.2 (by omega)⟩
  | case5 l ls r rs hv hgt ih =>
    rw [sumExp_cons] at h
    rw [mulLoop_cons_cons, if_neg hv, if_neg hgt, posExp_cons]
    rw [posExp_cons] at hl
    exact ⟨hl.1, ih hl.2 hr (by omega)⟩

theorem expOf_mulLoop {l r : List (Nat × Nat)} (hl : SortedVars l) (hr : SortedVars r)
    (h : sumExp l + sumExp r < expMod) (v : Nat) :
    expOf (mulLoop l r) v = expOf l v + expOf r v := by
  induction l, r using mulLoop.induct with
  | case1 r => rw [mulLoop_nil_left, expOf_nil, Nat.zero_add]
  | case2 l ls => rw [mulLoop_nil_right, expOf_nil, Nat.add_zero]
  | case3 l ls r rs hv ih =>
    rw [sumExp_cons, sumExp_cons] at h
    rw [sortedVars_cons] at hl hr
    rw [mulLoop_cons_cons, if_pos hv, expOf_cons, expOf_cons, expOf_cons, ih hl.2 hr.2 (by omega)]
    show (if l.1 = v then uadd l.2 r.2 else _) = _
    rw [uadd_of_lt (by omega), ← hv]
    split <;> rfl
  | case4 l ls r rs hv hgt ih =>
    rw [sumExp_cons r rs] at h
    have hl' := above_of_sorted_cons hgt hl
    rw [sortedVars_cons] at hr
    rw [mulLoop_cons_cons, if_neg hv, if_pos hgt, expOf_cons, expOf_cons r rs, ih hl hr.2 (by omega)]
    split
    · next hrv => rw [expOf_eq_zero_of_above hl' (le_of_eq hrv.symm), Nat.zero_add]
    · rfl
  | case5 l ls r rs hv hgt ih =>
    rw [sumExp_cons] at h
    have hr' := above_of_sorted_cons (show l.1 < r.1 by omega) hr
    rw [sortedVars_cons] at hl
    rw [mulLoop_cons_cons, if_neg hv, if_neg hgt, expOf_cons, expOf_cons l ls, ih hl.2 hr (by omega)]
    split
    · next hlv => rw [expOf_eq_zero_of_above hr' (le_of_eq hlv.symm), Nat.add_zero]
    · rfl

/-! The loop of the division -/

theorem usub_pos_iff {x y : Nat} (hx : x < expMod) (h : y ≤ x) : usub x y > 0 ↔ y < x := by
  rw [usub_of_le hx h]
  omega

theorem dividedByLoop_nil_left (r : List (Nat × Nat)) :
    dividedByLoop [] r = if r.isEmpty then some [] else none := by
  rw [dividedByLoop]

theorem dividedByLoop_nil_right (l : Nat × Nat) (ls : List (Nat × Nat)) :
    dividedByLoop (l :: ls) [] = some (l :: ls) := by
  rw [dividedByLoop]

theorem dividedByLoop_cons_cons (l r : Nat × Nat) (ls rs : List (Nat × Nat)) :
    dividedByLoop (l :: ls) (r :: rs) =
      if l.1 = r.1 then
        (if usub l.2 r.2 > l.2 then none
         else if usub l.2 r.2 > 0 then
           (dividedByLoop ls rs).map (fun res => (l.1, usub l.2 r.2) :: res)
         else dividedByLoop ls rs)
      else if l.1 > r.1 then none
      else (dividedByLoop ls (r :: rs)).map (fun res => l :: res) := by
  rw [dividedByLoop]

/-- What a successful run of the division loop returns. -/
theorem dividedByLoop_some : ∀ (l r q : List (Nat × Nat)),
    SortedVars l → SortedVars r → PosExp l → sumExp l < expMod → sumExp r < expMod →
    dividedByLoop l r = some q →
    SortedVars q ∧ PosExp q ∧ (∀ w, Above w l → Above w q) ∧
      (∀ v, expOf r v ≤ expOf l v ∧ expOf q v = expOf l v - expOf r v) ∧
      sumExp q + sumExp r = sumExp l ∧ r.length ≤ l.length
  | [], r, q, hl, _, hpl, _, _, h => by
    rw [dividedByLoop_nil_left] at h
    cases r with
    | nil =>
      simp only [List.isEmpty_nil, if_true, Option.some.injEq] at h
      subst h
      exact ⟨hl, hpl, fun _ hw => hw, fun v => ⟨le_refl _, rfl⟩, rfl, le_refl _⟩
    | cons r rs => simp at h
  | l :: ls, [], q, hl, _, hpl, _, _, h => by
    rw [dividedByLoop_nil_right] at h
    simp only [Option.some.injEq] at h
    subst h
    refine ⟨hl, hpl, fun _ hw => hw, fun v => ⟨?_, ?_⟩, ?_, ?_⟩
    · rw [expOf_nil]; omega
    · rw [expOf_nil]; omega
    · rw [sumExp_nil]; omega
    · simp
  | l :: ls, r :: rs, q, hl, hr, hpl, hbl, hbr, h => by
    rw [dividedByLoop_cons_cons] at h
    obtain ⟨hal, hsl⟩ := (sortedVars_cons l ls).1 hl
    obtain ⟨har, hsr⟩ := (sortedVars_cons r rs).1 hr
    obtain ⟨hl0, hpls⟩ := (posExp_cons l ls).1 hpl
    rw [sumExp_cons] at hbl hbr
    have hx : l.2 < expMod := by omega
    have hy : r.2 < expMod := by omega
    by_cases hv : l.1 = r.1
    · rw [if_pos hv] at h
      by_cases hlt : usub l.2 r.2 > l.2
      · rw [if_pos hlt] at h
        cases h
      · rw [if_neg hlt] at h
        have hle : r.2 ≤ l.2 := by
          have := (usub_gt_iff hx hy).not.1 hlt
          omega
        have hsub : usub l.2 r.2 = l.2 - r.2 := usub_of_le hx hle
        by_cases hpos : usub l.2 r.2 > 0
        · rw [if_pos hpos] at h
          cases hq' : dividedByLoop ls rs with
          | none => rw [hq'] at h; cases h
          | some q' =>
            rw [hq'] at h
            simp only [Option.map_some', Option.some.injEq] at h
            subst h
            obtain ⟨h1, h2, h3, h4, h5, h6⟩ :=
              dividedByLoop_some ls rs q' hsl hsr hpls (by omega) (by omega) hq'
            refine ⟨?_, ?_, ?_, ?_, ?_, ?_⟩
            · rw [sortedVars_cons]
              exact ⟨h3 _ hal, h1⟩
            · rw [posExp_cons]
              exact ⟨hpos, h2⟩
            · intro w hw
              rw [above_cons] at hw ⊢
              exact ⟨hw.1, h3 w hw.2⟩
            · intro v
              rw [expOf_cons, expOf_cons, expOf_cons]
              show _ ∧ (if l.1 = v then usub l.2 r.2 else _) = _
              rw [← hv, hsub]
              split
              · exact ⟨hle, rfl⟩
              · exact h4 v
            · rw [sumExp_cons, sumExp_cons, sumExp_cons]
              show usub l.2 r.2 + _ + _ = _
              rw [hsub]
              omega
            · simp only [List.length_cons]
              omega
        · rw [if_neg hpos] at h
          have hxy : l.2 = r.2 := by
            rw [hsub] at hpos
            omega
          obtain ⟨h1, h2, h3, h4, h5, h6⟩ :=
            dividedByLoop_some ls rs q hsl hsr hpls (by omega) (by omega) h
          refine ⟨h1, h2, ?_, ?_, ?_, ?_⟩
          · intro w hw
            rw [above_cons] at hw
            exact h3 w hw.2
          · intro v
            rw [expOf_cons, expOf_cons, ← hv]
            split
            · next hlv =>
              rw [expOf_eq_zero_of_above (h3 _ hal) (le_of_eq hlv.symm)]
              omega
            · exact h4 v
          · rw [sumExp_cons, sumExp_cons]
            omega
          · simp only [List.length_cons]
            omega
    · rw [if_neg hv] at h
      by_cases hgt : l.1 > r.1
      · rw [if_pos hgt] at h
        cases h
      · rw [if_neg hgt] at h
        cases hq' : dividedByLoop ls (r :: rs) with
        | none => rw [hq'] at h; cases h
        | some q' =>
          rw [hq'] at h
          simp only [Option.map_some', Option.some.injEq] at h
          subst h
          obtain ⟨h1, h2, h3, h4, h5, h6⟩ :=
            dividedByLoop_some ls (r :: rs) q' hsl hr hpls (by omega)
              (by rw [sumExp_cons]; omega) hq'
          have har' : Above l.1 (r :: rs) := above_of_sorted_cons (by omega) hr
          refine ⟨?_, ?_, ?_, ?_, ?_, ?_⟩
          · rw [sortedVars_cons]
            exact ⟨h3 _ hal, h1⟩
          · rw [posExp_cons]
            exact ⟨hl0, h2⟩
          · intro w hw
            rw [above_cons] at hw ⊢
            exact ⟨hw.1, h3 w hw.2⟩
          · intro v
            rw [expOf_cons l ls, expOf_cons l q']
            split
            · next hlv =>
              rw [expOf_eq_zero_of_above har' (le_of_eq hlv.symm)]
              omega
            · exact h4 v
          · rw [sumExp_cons, sumExp_cons l ls]
            omega
          · simp only [List.length_cons] at h6 ⊢
            omega

/-- The division loop succeeds when every exponent of the divisor is covered. -/
theorem dividedByLoop_isSome : ∀ (l r : List (Nat × Nat)),
    SortedVars l → SortedVars r → PosExp r → sumExp l < expMod → sumExp r < expMod →
    (∀ v, expOf r v ≤ expOf l v) → ∃ q, dividedByLoop l r = some q
  | [], [], _, _, _, _, _, _ => ⟨[], by rw [dividedByLoop_nil_left]; rfl⟩
  | [], r :: rs, _, _, hpr, _, _, h => by
    have := h r.1
    rw [expOf_cons, if_pos rfl, expOf_nil] at this
    have := ((posExp_cons r rs).1 hpr).1
    omega
  | l :: ls, [], _, _, _, _, _, _ => ⟨l :: ls, dividedByLoop_nil_right l ls⟩
  | l :: ls, r :: rs, hl, hr, hpr, hbl, hbr, h => by
    rw [dividedByLoop_cons_cons]
    obtain ⟨hal, hsl⟩ := (sortedVars_cons l ls).1 hl
    obtain ⟨har, hsr⟩ := (sortedVars_cons r rs).1 hr
    obtain ⟨hr0, hprs⟩ := (posExp_cons r rs).1 hpr
    rw [sumExp_cons] at hbl hbr
    have hx : l.2 < expMod := by omega
    have hy : r.2 < expMod := by omega
    by_cases hv : l.1 = r.1
    · rw [if_pos hv]
      have hle : r.2 ≤ l.2 := by
        have := h l.1
        rwa [expOf_cons, if_pos hv.symm, expOf_cons, if_pos rfl] at this
      have hnot : ¬ usub l.2 r.2 > l.2 := by
        rw [usub_gt_iff hx hy]
        omega
      rw [if_neg hnot]
      have htl : ∀ v, expOf rs v ≤ expOf ls v := by
        intro v
        by_cases hlv : l.1 = v
        · rw [expOf_eq_zero_of_above har (by omega)]
          omega
        · have := h v
          rwa [expOf_cons, if_neg (by omega), expOf_cons, if_neg hlv] at this
      obtain ⟨q', hq'⟩ := dividedByLoop_isSome ls rs hsl hsr hprs (by omega) (by omega) htl
      rw [hq']
      by_cases hpos : usub l.2 r.2 > 0
      · rw [if_pos hpos]
        exact ⟨_, rfl⟩
      · rw [if_neg hpos]
        exact ⟨_, rfl⟩
    · rw [if_neg hv]
      have hlt : l.1 < r.1 := by
        by_contra hge
        have := h r.1
        rw [expOf_cons, if_pos rfl, expOf_eq_zero_of_above
          (above_of_sorted_cons (show r.1 < l.1 by omega) hl) (le_refl _)] at this
        omega
      rw [if_neg (by omega)]
      have har' : Above l.1 (r :: rs) := above_of_sorted_cons hlt hr
      have htl : ∀ v, expOf (r :: rs) v ≤ expOf ls v := by
        intro v
        by_cases hlv : l.1 = v
        · rw [expOf_eq_zero_of_above har' (le_of_eq hlv.symm)]
          omega
        · have := h v
          rwa [expOf_cons l ls, if_neg hlv] at this
      obtain ⟨q', hq'⟩ := dividedByLoop_isSome ls (r :: rs) hsl hr hpr (by omega)
        (by rw [sumExp_cons]; omega) htl
      rw [hq']
      exact ⟨_, rfl⟩

/-! Consistent monomials -/

namespace Monomial

theorem eq_iff (a b : Monomial) : a.eq b = true ↔ a = b := by
  cases a with
  | mk ea da =>
    cases b with
    | mk eb db =>
      by_cases hd : da = db
      · simp [Monomial.eq, hd]
      · simp [Monomial.eq, hd]

theorem Consistent.exps_lt {m : Monomial} (h : m.Consistent) : sumExp m.mExponents < expMod := by
  obtain ⟨_, _, h3, h4⟩ := h
  omega

theorem sumExp_eq_zero {l : List (Nat × Nat)} (hp : PosExp l) (h : sumExp l = 0) : l = [] := by
  cases l with
  | nil => rfl
  | cons p t =>
    rw [sumExp_cons] at h
    have := ((posExp_cons p t).1 hp).1
    omega

theorem Consistent.exps_nil {m : Monomial} (h : m.Consistent) (h0 : m.mTotalDegree = 0) :
    m.mExponents = [] := by
  obtain ⟨_, h2, h3, _⟩ := h
  exact sumExp_eq_zero h2 (by omega)

/-- Two consistent monomials with the same exponent for every variable are the same. -/
theorem Consistent.ext {a b : Monomial} (ha : a.Consistent) (hb : b.Consistent)
    (h : ∀ v, a.exponentOfVariable v = b.exponentOfVariable v) : a = b := by
  obtain ⟨a1, a2, a3, _⟩ := ha
  obtain ⟨b1, b2, b3, _⟩ := hb
  have he : a.mExponents = b.mExponents := eq_of_expOf_eq _ _ a1 a2 b1 b2 h
  cases a with
  | mk ea da =>
    cases b with
    | mk eb db =>
      simp only at he a3 b3
      subst he
      rw [a3, b3]

/-- The product of consistent monomials, without the shortcut for a constant factor. -/
theorem mul_eq_loop {a b : Monomial} (ha : a.Consistent) (hb : b.Consistent) :
    a.mul b = ⟨mulLoop a.mExponents b.mExponents, uadd a.mTotalDegree b.mTotalDegree⟩ := by
  unfold Monomial.mul
  by_cases h0 : b.mTotalDegree = 0
  · rw [if_pos h0, hb.exps_nil h0, mulLoop_nil_right, h0, uadd_of_lt (by have := ha.2.2.2; omega)]
    rfl
  · rw [if_neg h0]

theorem consistent_mul {a b : Monomial} (ha : a.Consistent) (hb : b.Consistent)
    (h : a.mTotalDegree + b.mTotalDegree < expMod) : (a.mul b).Consistent := by
  rw [mul_eq_loop ha hb]
  obtain ⟨a1, a2, a3, _⟩ := ha
  obtain ⟨b1, b2, b3, _⟩ := hb
  have hs : sumExp a.mExponents + sumExp b.mExponents < expMod := by omega
  refine ⟨sortedVars_mulLoop a1 b1, posExp_mulLoop a2 b2 hs, ?_, ?_⟩
  · show uadd _ _ = sumExp (mulLoop _ _)
    rw [uadd_of_lt h, sumExp_mulLoop hs, a3, b3]
  · show uadd _ _ < expMod
    rw [uadd_of_lt h]
    exact h

theorem exponentOfVariable_mul {a b : Monomial} (ha : a.Consistent) (hb : b.Consistent)
    (h : a.mTotalDegree + b.mTotalDegree < expMod) (v : Nat) :
    (a.mul b).exponentOfVariable v = a.exponentOfVariable v + b.exponentOfVariable v := by
  rw [mul_eq_loop ha hb]
  have hs : sumExp a.mExponents + sumExp b.mExponents < expMod := by
    have := ha.2.2.1
    have := hb.2.2.1
    omega
  exact expOf_mulLoop ha.1 hb.1 hs v

theorem tdeg_mul {a b : Monomial} (ha : a.Consistent) (hb : b.Consistent)
    (h : a.mTotalDegree + b.mTotalDegree < expMod) :
    (a.mul b).mTotalDegree = a.mTotalDegree + b.mTotalDegree := by
  rw [mul_eq_loop ha hb]
  exact uadd_of_lt h

/-- What a successful division of consistent monomials returns. -/
theorem dividedBy_some {a b q : Monomial} (ha : a.Consistent) (hb : b.Consistent)
    (h : a.dividedBy b = some q) :
    q.Consistent ∧ (∀ v, b.exponentOfVariable v ≤ a.exponentOfVariable v ∧
      q.exponentOfVariable v = a.exponentOfVariable v - b.exponentOfVariable v) ∧
      q.mTotalDegree + b.mTotalDegree = a.mTotalDegree := by
  unfold Monomial.dividedBy at h
  split at h
  · cases h
  · next hg =>
    cases hq : dividedByLoop a.mExponents b.mExponents with
    | none => rw [hq] at h; cases h
    | some q' =>
      rw [hq] at h
      simp only [Option.map_some', Option.some.injEq] at h
      subst h
      obtain ⟨h1, h2, _, h4, h5, _⟩ :=
        dividedByLoop_some _ _ q' ha.1 hb.1 ha.2.1 ha.exps_lt hb.exps_lt hq
      have ha3 := ha.2.2.1
      have hb3 := hb.2.2.1
      have ha4 := ha.2.2.2
      have hd : usub a.mTotalDegree b.mTotalDegree = a.mTotalDegree - b.mTotalDegree :=
        usub_of_le ha4 (by omega)
      refine ⟨⟨h1, h2, ?_, ?_⟩, h4, ?_⟩
      · show usub _ _ = sumExp q'
        rw [hd]
        omega
      · show usub _ _ < expMod
        rw [hd]
        omega
      · show usub _ _ + _ = _
        rw [hd]
        omega

/-- The division of consistent monomials succeeds when every exponent of the divisor
is covered. -/
theorem dividedBy_isSome {a b : Monomial} (ha : a.Consistent) (hb : b.Consistent)
    (h : ∀ v, b.exponentOfVariable v ≤ a.exponentOfVariable v) :
    ∃ q, a.dividedBy b = some q := by
  obtain ⟨q', hq'⟩ := dividedByLoop_isSome _ _ ha.1 hb.1 hb.2.1 ha.exps_lt hb.exps_lt h
  obtain ⟨_, _, _, _, h5, h6⟩ :=
    dividedByLoop_some _ _ q' ha.1 hb.1 ha.2.1 ha.exps_lt hb.exps_lt hq'
  have ha3 := ha.2.2.1
  have hb3 := hb.2.2.1
  unfold Monomial.dividedBy
  rw [if_neg (by omega), hq']
  exact ⟨_, rfl⟩

end Monomial

/-! The loop of the least common multiple -/

theorem lcmLoop_nil_left (r : List (Nat × Nat)) (d : Nat) : lcmLoop [] r d = (r, d) := by
  simp [lcmLoop]

theorem lcmLoop_nil_right (l : List (Nat × Nat)) (d : Nat) : lcmLoop l [] d = (l, d) := by
  cases l <;> simp [lcmLoop]

theorem lcmLoop_cons_cons (l r : Nat × Nat) (ls rs : List (Nat × Nat)) (d : Nat) :
    lcmLoop (l :: ls) (r :: rs) d =
      if l.1 = r.1 then
        ((l.1, max l.2 r.2) :: (lcmLoop ls rs (usub d (min l.2 r.2))).1,
          (lcmLoop ls rs (usub d (min l.2 r.2))).2)
      else if l.1 > r.1 then (r :: (lcmLoop (l :: ls) rs d).1, (lcmLoop (l :: ls) rs d).2)
      else (l :: (lcmLoop ls (r :: rs) d).1, (lcmLoop ls (r :: rs) d).2) := by
  rw [lcmLoop]

theorem above_lcmLoop {w : Nat} {l r : List (Nat × Nat)} {d : Nat}
    (hl : Above w l) (hr : Above w r) : Above w (lcmLoop l r d).1 := by
  induction l, r, d using lcmLoop.induct with
  | case1 r d => rwa [lcmLoop_nil_left]
  | case2 l ls d => rwa [lcmLoop_nil_right]
  | case3 l ls r rs d h ih =>
    rw [lcmLoop_cons_cons, if_pos h, above_cons]
    rw [above_cons] at hl hr
    exact ⟨hl.1, ih hl.2 hr.2⟩
  | case4 l ls r rs d h hgt ih =>
    rw [lcmLoop_cons_cons, if_neg h, if_pos hgt, above_cons]
    rw [above_cons] at hr
    exact ⟨hr.1, ih hl hr.2⟩
  | case5 l ls r rs d h hgt ih =>
    rw [lcmLoop_cons_cons, if_neg h, if_neg hgt, above_cons]
    rw [above_cons] at hl
    exact ⟨hl.1, ih hl.2 hr⟩

theorem sortedVars_lcmLoop {l r : List (Nat × Nat)} {d : Nat}
    (hl : SortedVars l) (hr : SortedVars r) : SortedVars (lcmLoop l r d).1 := by
  induction l, r, d using lcmLoop.induct with
  | case1 r d => rwa [lcmLoop_nil_left]
  | case2 l ls d => rwa [lcmLoop_nil_right]
  | case3 l ls r rs d h ih =>
    rw [lcmLoop_cons_cons, if_pos h, sortedVars_cons]
    rw [sortedVars_cons] at hl hr
    exact ⟨above_lcmLoop hl.1 (h ▸ hr.1), ih hl.2 hr.2⟩
  | case4 l ls r rs d h hgt ih =>
    rw [lcmLoop_cons_cons, if_neg h, if_pos hgt, sortedVars_cons]
    have hl' := above_of_sorted_cons hgt hl
    rw [sortedVars_cons] at hr
    exact ⟨above_lcmLoop hl' hr.1, ih hl hr.2⟩
  | case5 l ls r rs d h hgt ih =>
    rw [lcmLoop_cons_cons, if_neg h, if_neg hgt, sortedVars_cons]
    have hr' := above_of_sorted_cons (show l.1 < r.1 by omega) hr
    rw [sortedVars_cons] at hl
    exact ⟨above_lcmLoop hl.1 hr', ih hl.2 hr⟩

theorem posExp_lcmLoop {l r : List (Nat × Nat)} {d : Nat}
    (hl : PosExp l) (hr : PosExp r) : PosExp (lcmLoop l r d).1 := by
  induction l, r, d using lcmLoop.induct with
  | case1 r d => rwa [lcmLoop_nil_left]
  | case2 l ls d => rwa [lcmLoop_nil_right]
  | case3 l ls r rs d h ih =>
    rw [lcmLoop_cons_cons, if_pos h, posExp_cons]
    rw [posExp_cons] at hl hr
    refine ⟨?_, ih hl.2 hr.2⟩
    show 0 < max l.2 r.2
    omega
  | case4 l ls r rs d h hgt ih =>
    rw [lcmLoop_cons_cons, if_neg h, if_pos hgt, posExp_cons]
    rw [posExp_cons] at hr
    exact ⟨hr.1, ih hl hr.2⟩
  | case5 l ls r rs d h hgt ih =>
    rw [lcmLoop_cons_cons, if_neg h, if_neg hgt, posExp_cons]
    rw [posExp_cons] at hl
    exact ⟨hl.1, ih hl.2 hr⟩

theorem expOf_lcmLoop {l r : List (Nat × Nat)} {d : Nat} (hl : SortedVars l) (hr : SortedVars r)
    (v : Nat) : expOf (lcmLoop l r d).1 v = max (expOf l v) (expOf r v) := by
  induction l, r, d using lcmLoop.induct with
  | case1 r d => rw [lcmLoop_nil_left, expOf_nil, Nat.zero_max]
  | case2 l ls d => rw [lcmLoop_nil_right, expOf_nil, Nat.max_zero]
  | case3 l ls r rs d h ih =>
    rw [sortedVars_cons] at hl hr
    rw [lcmLoop_cons_cons, if_pos h, expOf_cons, expOf_cons, expOf_cons, ih hl.2 hr.2, ← h]
    split <;> rfl
  | case4 l ls r rs d h hgt ih =>
    have hl' := above_of_sorted_cons hgt hl
    rw [sortedVars_cons] at hr
    rw [lcmLoop_cons_cons, if_neg h, if_pos hgt, expOf_cons, expOf_cons r rs, ih hl hr.2]
    split
    · next hrv => rw [expOf_eq_zero_of_above hl' (le_of_eq hrv.symm), Nat.zero_max]
    · rfl
  | case5 l ls r rs d h hgt ih =>
    have hr' := above_of_sorted_cons (show l.1 < r.1 by omega) hr
    rw [sortedVars_cons] at hl
    rw [lcmLoop_cons_cons, if_neg h, if_neg hgt, expOf_cons, expOf_cons l ls, ih hl.2 hr]
    split
    · next hlv => rw [expOf_eq_zero_of_above hr' (le_of_eq hlv.symm), Nat.max_zero]
    · rfl

theorem lcmLoop_snd_lt {l r : List (Nat × Nat)} {d : Nat} (hd : d < expMod) :
    (lcmLoop l r d).2 < expMod := by
  induction l, r, d using lcmLoop.induct with
  | case1 r d => rwa [lcmLoop_nil_left]
  | case2 l ls d => rwa [lcmLoop_nil_right]
  | case3 l ls r rs d h ih =>
    rw [lcmLoop_cons_cons, if_pos h]
    exact ih (Nat.mod_lt _ (by unfold expMod; omega))
  | case4 l ls r rs d h hgt ih =>
    rw [lcmLoop_cons_cons, if_neg h, if_pos hgt]
    exact ih hd
  | case5 l ls r rs d h hgt ih =>
    rw [lcmLoop_cons_cons, if_neg h, if_neg hgt]
    exact ih hd

/-- The degree kept by the loop, up to wrap-around: what was put in, plus the exponents
of the result, minus the exponents of both arguments. -/
theorem lcmLoop_snd_mod {l r : List (Nat × Nat)} {d : Nat}
    (hl : sumExp l < expMod) (hr : sumExp r < expMod) :
    ((lcmLoop l r d).2 + sumExp l + sumExp r) % expMod =
      (d + sumExp (lcmLoop l r d).1) % expMod := by
  induction l, r, d using lcmLoop.induct with
  | case1 r d => rw [lcmLoop_nil_left, sumExp_nil]; rfl
  | case2 l ls d => rw [lcmLoop_nil_right, sumExp_nil]; rfl
  | case3 l ls r rs d h ih =>
    rw [sumExp_cons] at hl hr
    have ih' := ih (by omega) (by omega)
    rw [lcmLoop_cons_cons, if_pos h]
    simp only [sumExp_cons]
    have hu : (usub d (min l.2 r.2) + min l.2 r.2) % expMod = d % expMod := by
      unfold usub expMod at *
      omega
    unfold expMod at *
    omega
  | case4 l ls r rs d h hgt ih =>
    rw [sumExp_cons r rs] at hr
    have ih' := ih hl (by omega)
    rw [lcmLoop_cons_cons, if_neg h, if_pos hgt]
    simp only [sumExp_cons r] at ih' ⊢
    unfold expMod at *
    omega
  | case5 l ls r rs d h hgt ih =>
    rw [sumExp_cons l ls] at hl
    have ih' := ih (by omega) hr
    rw [lcmLoop_cons_cons, if_neg h, if_neg hgt]
    simp only [sumExp_cons l] at ih' ⊢
    unfold expMod at *
    omega

/-- The exponents of a sorted list add up to the sum of the exponents of its variables. -/
theorem sumExp_eq_sum {l : List (Nat × Nat)} (hs : SortedVars l) (S : Finset Nat)
    (hS : ∀ p ∈ l, p.1 ∈ S) : sumExp l = ∑ v ∈ S, expOf l v := by
  induction l with
  | nil => simp [sumExp_nil, expOf_nil]
  | cons p t ih =>
    rw [sortedVars_cons] at hs
    have hpS : p.1 ∈ S := hS p (List.mem_cons_self _ _)
    have ht := ih hs.2 (fun q hq => hS q (List.mem_cons_of_mem _ hq))
    have hf : ∀ v ∈ S, expOf (p :: t) v = (if p.1 = v then p.2 else 0) + expOf t v := by
      intro v _
      rw [expOf_cons]
      split
      · next hpv => rw [expOf_eq_zero_of_above hs.1 (le_of_eq hpv.symm), Nat.add_zero]
      · rw [Nat.zero_add]
    rw [Finset.sum_congr rfl hf, Finset.sum_add_distrib, Finset.sum_ite_eq, if_pos hpS,
      sumExp_cons, ht]

theorem mem_lcmLoop {l r : List (Nat × Nat)} {d : Nat} {p : Nat × Nat}
    (hp : p ∈ (lcmLoop l r d).1) : (∃ q ∈ l, q.1 = p.1) ∨ (∃ q ∈ r, q.1 = p.1) := by
  induction l, r, d using lcmLoop.induct with
  | case1 r d =>
    rw [lcmLoop_nil_left] at hp
    exact Or.inr ⟨p, hp, rfl⟩
  | case2 l ls d =>
    rw [lcmLoop_nil_right] at hp
    exact Or.inl ⟨p, hp, rfl⟩
  | case3 l ls r rs d h ih =>
    rw [lcmLoop_cons_cons, if_pos h] at hp
    rcases List.mem_cons.1 hp with hp | hp
    · exact Or.inl ⟨l, List.mem_cons_self _ _, by rw [hp]⟩
    · rcases ih hp with ⟨q, hq, hqp⟩ | ⟨q, hq, hqp⟩
      · exact Or.inl ⟨q, List.mem_cons_of_mem _ hq, hqp⟩
      · exact Or.inr ⟨q, List.mem_cons_of_mem _ hq, hqp⟩
  | case4 l ls r rs d h hgt ih =>
    rw [lcmLoop_cons_cons, if_neg h, if_pos hgt] at hp
    rcases List.mem_cons.1 hp with hp | hp
    · exact Or.inr ⟨r, List.mem_cons_self _ _, by rw [hp]⟩
    · rcases ih hp with ⟨q, hq, hqp⟩ | ⟨q, hq, hqp⟩
      · exact Or.inl ⟨q, hq, hqp⟩
      · exact Or.inr ⟨q, List.mem_cons_of_mem _ hq, hqp⟩
  | case5 l ls r rs d h hgt ih =>
    rw [lcmLoop_cons_cons, if_neg h, if_neg hgt] at hp
    rcases List.mem_cons.1 hp with hp | hp
    · exact Or.inl ⟨l, List.mem_cons_self _ _, by rw [hp]⟩
    · rcases ih hp with ⟨q, hq, hqp⟩ | ⟨q, hq, hqp⟩
      · exact Or.inl ⟨q, List.mem_cons_of_mem _ hq, hqp⟩
      · exact Or.inr ⟨q, hq, hqp⟩

namespace Monomial

theorem sumExp_lcm {a b : Monomial} (ha : a.Consistent) (hb : b.Consistent) :
    sumExp (a.lcm b).mExponents = lcmDegree a b := by
  unfold lcmDegree
  show sumExp (lcmLoop a.mExponents b.mExponents (uadd a.tdeg b.tdeg)).1 = _
  rw [sumExp_eq_sum (sortedVars_lcmLoop ha.1 hb.1) (a.gatherVariables ∪ b.gatherVariables)]
  · apply Finset.sum_congr rfl
    intro v _
    exact expOf_lcmLoop ha.1 hb.1 v
  · intro p hp
    rw [Finset.mem_union]
    rcases mem_lcmLoop hp with ⟨q, hq, hqp⟩ | ⟨q, hq, hqp⟩
    · left
      simp only [gatherVariables, List.mem_toFinset, List.mem_map]
      exact ⟨q, hq, hqp⟩
    · right
      simp only [gatherVariables, List.mem_toFinset, List.mem_map]
      exact ⟨q, hq, hqp⟩

theorem exponentOfVariable_lcm {a b : Monomial} (ha : a.Consistent) (hb : b.Consistent)
    (v : Nat) : (a.lcm b).exponentOfVariable v =
      max (a.exponentOfVariable v) (b.exponentOfVariable v) :=
  expOf_lcmLoop ha.1 hb.1 v

/-- The cached total degree of the least common multiple is its true total degree
reduced to an `unsigned`. -/
theorem tdeg_lcm {a b : Monomial} (ha : a.Consistent) (hb : b.Consistent) :
    (a.lcm b).mTotalDegree = lcmDegree a b % expMod := by
  rw [← sumExp_lcm ha hb]
  have h1 := lcmLoop_snd_mod (l := a.mExponents) (r := b.mExponents)
    (d := uadd a.tdeg b.tdeg) ha.exps_lt hb.exps_lt
  have h2 : (lcmLoop a.mExponents b.mExponents (uadd a.tdeg b.tdeg)).2 < expMod :=
    lcmLoop_snd_lt (Nat.mod_lt _ (by unfold expMod; omega))
  have ha3 := ha.2.2.1
  have hb3 := hb.2.2.1
  show (lcmLoop a.mExponents b.mExponents (uadd a.tdeg b.tdeg)).2 =
    sumExp (lcmLoop a.mExponents b.mExponents (uadd a.tdeg b.tdeg)).1 % expMod
  unfold uadd tdeg expMod at *
  omega

theorem consistent_lcm {a b : Monomial} (ha : a.Consistent) (hb : b.Consistent)
    (h : lcmDegree a b < expMod) : (a.lcm b).Consistent := by
  refine ⟨sortedVars_lcmLoop ha.1 hb.1, posExp_lcmLoop ha.2.1 hb.2.1, ?_, ?_⟩
  · rw [tdeg_lcm ha hb, sumExp_lcm ha hb, Nat.mod_eq_of_lt h]
  · rw [tdeg_lcm ha hb]
    exact Nat.mod_lt _ (by unfold expMod; omega)

end Monomial

/-! The loop of `calcLcmAndDivideBy` -/

theorem calcLoop_nil_left (r : List (Nat × Nat)) (d : Nat) :
    calcLcmAndDivideByLoop [] r d = ([], d) := by
  simp [calcLcmAndDivideByLoop]

theorem calcLoop_nil_right (l : List (Nat × Nat)) (d : Nat) :
    calcLcmAndDivideByLoop l [] d = (l, d) := by
  cases l <;> simp [calcLcmAndDivideByLoop]

theorem calcLoop_cons_cons (l r : Nat × Nat) (ls rs : List (Nat × Nat)) (d : Nat) :
    calcLcmAndDivideByLoop (l :: ls) (r :: rs) d =
      if l.1 = r.1 then
        (if usub (max l.2 r.2) r.2 ≠ 0 then
           ((l.1, usub (max l.2 r.2) r.2) :: (calcLcmAndDivideByLoop ls rs (usub d r.2)).1,
             (calcLcmAndDivideByLoop ls rs (usub d r.2)).2)
         else calcLcmAndDivideByLoop ls rs (usub d l.2))
      else if l.1 > r.1 then calcLcmAndDivideByLoop (l :: ls) rs d
      else (l :: (calcLcmAndDivideByLoop ls (r :: rs) d).1,
        (calcLcmAndDivideByLoop ls (r :: rs) d).2) := by
  rw [calcLcmAndDivideByLoop]

theorem usub_max {x y : Nat} (hx : x < expMod) (hy : y < expMod) :
    usub (max x y) y = x - y := by
  unfold usub expMod at *
  omega

/-- What the one-pass loop returns on sorted lists: the list is sorted with positive
exponents, the exponents are those of the left list minus those of the right list, and
the degree put in has lost exactly the exponents that were dropped. -/
theorem calcLoop_spec {l r : List (Nat × Nat)} {d : Nat}
    (hl : SortedVars l) (hr : SortedVars r) (hpl : PosExp l)
    (hd : sumExp l ≤ d) (hdM : d < expMod) (hbr : sumExp r < expMod) :
    SortedVars (calcLcmAndDivideByLoop l r d).1 ∧ PosExp (calcLcmAndDivideByLoop l r d).1 ∧
      (∀ w, Above w l → Above w (calcLcmAndDivideByLoop l r d).1) ∧
      (∀ v, expOf (calcLcmAndDivideByLoop l r d).1 v = expOf l v - expOf r v) ∧
      (calcLcmAndDivideByLoop l r d).2 + sumExp l =
        d + sumExp (calcLcmAndDivideByLoop l r d).1 ∧
      (calcLcmAndDivideByLoop l r d).2 ≤ d := by
  induction l, r, d using calcLcmAndDivideByLoop.induct with
  | case1 r d =>
    rw [calcLoop_nil_left]
    refine ⟨hl, hpl, fun _ hw => hw, fun v => ?_, rfl, le_refl _⟩
    rw [expOf_nil, Nat.zero_sub]
  | case2 l ls d =>
    rw [calcLoop_nil_right]
    refine ⟨hl, hpl, fun _ hw => hw, fun v => ?_, rfl, le_refl _⟩
    rw [expOf_nil, Nat.sub_zero]
  | case3 l ls r rs d h hne ih =>
    obtain ⟨hal, hsl⟩ := (sortedVars_cons l ls).1 hl
    obtain ⟨har, hsr⟩ := (sortedVars_cons r rs).1 hr
    obtain ⟨hl0, hpls⟩ := (posExp_cons l ls).1 hpl
    rw [sumExp_cons] at hd hbr
    have hx : l.2 < expMod := by omega
    have hy : r.2 < expMod := by omega
    have hm := usub_max hx hy
    have hlt : r.2 < l.2 := by
      rw [hm] at hne
      omega
    have hu : usub d r.2 = d - r.2 := usub_of_le hdM (by omega)
    rw [hu] at ih
    obtain ⟨h1, h2, h3, h4, h5, h6⟩ := ih hsl hsr hpls (by omega) (by omega) (by omega)
    rw [calcLoop_cons_cons, if_pos h, if_pos hne, hu, hm]
    refine ⟨?_, ?_, ?_, ?_, ?_, ?_⟩
    · rw [sortedVars_cons]
      exact ⟨h3 _ hal, h1⟩
    · rw [posExp_cons]
      exact ⟨by show 0 < l.2 - r.2; omega, h2⟩
    · intro w hw
      rw [above_cons] at hw ⊢
      exact ⟨hw.1, h3 w hw.2⟩
    · intro v
      rw [expOf_cons, expOf_cons, expOf_cons, ← h]
      split
      · rfl
      · exact h4 v
    · simp only [sumExp_cons]
      omega
    · show (calcLcmAndDivideByLoop _ _ _).2 ≤ d
      omega
  | case4 l ls r rs d h hne ih =>
    obtain ⟨hal, hsl⟩ := (sortedVars_cons l ls).1 hl
    obtain ⟨har, hsr⟩ := (sortedVars_cons r rs).1 hr
    obtain ⟨hl0, hpls⟩ := (posExp_cons l ls).1 hpl
    rw [sumExp_cons] at hd hbr
    have hx : l.2 < expMod := by omega
    have hy : r.2 < expMod := by omega
    have hm := usub_max hx hy
    have hle : l.2 ≤ r.2 := by
      rw [hm] at hne
      omega
    have hu : usub d l.2 = d - l.2 := usub_of_le hdM (by omega)
    rw [hu] at ih
    obtain ⟨h1, h2, h3, h4, h5, h6⟩ := ih hsl hsr hpls (by omega) (by omega) (by omega)
    rw [calcLoop_cons_cons, if_pos h, if_neg hne, hu]
    refine ⟨h1, h2, ?_, ?_, ?_, ?_⟩
    · intro w hw
      rw [above_cons] at hw
      exact h3 w hw.2
    · intro v
      rw [expOf_cons, expOf_cons, ← h]
      split
      · next hlv =>
        rw [expOf_eq_zero_of_above (h3 _ hal) (le_of_eq hlv.symm)]
        omega
      · exact h4 v
    · simp only [sumExp_cons]
      omega
    · show (calcLcmAndDivideByLoop _ _ _).2 ≤ d
      omega
  | case5 l ls r rs d h hgt ih =>
    have hl' := above_of_sorted_cons hgt hl
    obtain ⟨har, hsr⟩ := (sortedVars_cons r rs).1 hr
    rw [sumExp_cons r rs] at hbr
    obtain ⟨h1, h2, h3, h4, h5, h6⟩ := ih hl hsr hpl hd hdM (by omega)
    rw [calcLoop_cons_cons, if_neg h, if_pos hgt]
    refine ⟨h1, h2, h3, ?_, h5, h6⟩
    intro v
    rw [h4 v, expOf_cons r rs]
    split
    · next hrv =>
      rw [expOf_eq_zero_of_above hl' (le_of_eq hrv.symm)]
      omega
    · rfl
  | case6 l ls r rs d h hgt ih =>
    obtain ⟨hal, hsl⟩ := (sortedVars_cons l ls).1 hl
    obtain ⟨hl0, hpls⟩ := (posExp_cons l ls).1 hpl
    have hr' := above_of_sorted_cons (show l.1 < r.1 by omega) hr
    rw [sumExp_cons] at hd
    obtain ⟨h1, h2, h3, h4, h5, h6⟩ := ih hsl hr hpls (by omega) hdM hbr
    rw [calcLoop_cons_cons, if_neg h, if_neg hgt]
    refine ⟨?_, ?_, ?_, ?_, ?_, ?_⟩
    · rw [sortedVars_cons]
      exact ⟨h3 _ hal, h1⟩
    · rw [posExp_cons]
      exact ⟨hl0, h2⟩
    · intro w hw
      rw [above_cons] at hw ⊢
      exact ⟨hw.1, h3 w hw.2⟩
    · intro v
      rw [expOf_cons, expOf_cons l ls]
      split
      · next hlv =>
        rw [expOf_eq_zero_of_above hr' (le_of_eq hlv.symm)]
        omega
      · exact h4 v
    · simp only [sumExp_cons]
      omega
    · show (calcLcmAndDivideByLoop _ _ _).2 ≤ d
      omega

namespace Monomial

theorem calcLcmAndDivideBy_spec {a b : Monomial} (ha : a.Consistent) (hb : b.Consistent) :
    (a.calcLcmAndDivideBy b).Consistent ∧
      ∀ v, (a.calcLcmAndDivideBy b).exponentOfVariable v =
        a.exponentOfVariable v - b.exponentOfVariable v := by
  have ha3 := ha.2.2.1
  have ha4 := ha.2.2.2
  obtain ⟨h1, h2, _, h4, h5, h6⟩ := calcLoop_spec (l := a.mExponents) (r := b.mExponents)
    (d := a.mTotalDegree) ha.1 hb.1 ha.2.1 (by omega) ha4 hb.exps_lt
  refine ⟨⟨h1, h2, ?_, ?_⟩, h4⟩
  · show (calcLcmAndDivideByLoop a.mExponents b.mExponents a.mTotalDegree).2 =
      sumExp (calcLcmAndDivideByLoop a.mExponents b.mExponents a.mTotalDegree).1
    omega
  · show (calcLcmAndDivideByLoop a.mExponents b.mExponents a.mTotalDegree).2 < _
    omega

end Monomial

/-! The loops over a single exponent vector -/

theorem mulVarLoop_spec {v : Nat} {l : List (Nat × Nat)}
    (hl : SortedVars l) (hpl : PosExp l) (hb : sumExp l + 1 < expMod) :
    SortedVars (mulVarLoop v l) ∧ PosExp (mulVarLoop v l) ∧
      (∀ w, w < v → Above w l → Above w (mulVarLoop v l)) ∧
      sumExp (mulVarLoop v l) = sumExp l + 1 := by
  induction l with
  | nil =>
    refine ⟨?_, ?_, ?_, ?_⟩
    · simp [mulVarLoop, SortedVars]
    · simp [mulVarLoop, PosExp]
    · intro w hw _
      simp [mulVarLoop, Above, hw]
    · simp [mulVarLoop, sumExp]
  | cons it rest ih =>
    obtain ⟨hal, hsl⟩ := (sortedVars_cons it rest).1 hl
    obtain ⟨hl0, hpls⟩ := (posExp_cons it rest).1 hpl
    rw [sumExp_cons] at hb
    rw [mulVarLoop]
    by_cases h : it.1 = v
    · rw [if_pos h]
      have hu : uadd it.2 1 = it.2 + 1 := uadd_of_lt (by omega)
      rw [hu]
      refine ⟨?_, ?_, ?_, ?_⟩
      · rw [sortedVars_cons]
        exact ⟨hal, hsl⟩
      · rw [posExp_cons]
        exact ⟨Nat.succ_pos _, hpls⟩
      · intro w _ hw
        rw [above_cons] at hw ⊢
        exact hw
      · rw [sumExp_cons, sumExp_cons]
        show it.2 + 1 + _ = _
        omega
    · rw [if_neg h]
      by_cases hgt : it.1 > v
      · rw [if_pos hgt]
        refine ⟨?_, ?_, ?_, ?_⟩
        · rw [sortedVars_cons]
          exact ⟨above_of_sorted_cons hgt hl, hl⟩
        · rw [posExp_cons]
          exact ⟨Nat.one_pos, hpl⟩
        · intro w hwv hw
          rw [above_cons]
          exact ⟨hwv, hw⟩
        · rw [sumExp_cons, sumExp_cons]
          show 1 + _ = _
          omega
      · rw [if_neg hgt]
        obtain ⟨h1, h2, h3, h4⟩ := ih hsl hpls (by omega)
        refine ⟨?_, ?_, ?_, ?_⟩
        · rw [sortedVars_cons]
          exact ⟨h3 _ (by omega) hal, h1⟩
        · rw [posExp_cons]
          exact ⟨hl0, h2⟩
        · intro w hwv hw
          rw [above_cons] at hw ⊢
          exact ⟨hw.1, h3 w hwv hw.2⟩
        · rw [sumExp_cons, sumExp_cons, h4]
          omega

theorem dividedByVarLoop_spec {v : Nat} {l q : List (Nat × Nat)}
    (hl : SortedVars l) (hpl : PosExp l) (hb : sumExp l < expMod)
    (h : dividedByVarLoop v l = some q) :
    SortedVars q ∧ PosExp q ∧ (∀ w, Above w l → Above w q) ∧ sumExp q + 1 = sumExp l := by
  induction l generalizing q with
  | nil => simp [dividedByVarLoop] at h
  | cons it rest ih =>
    obtain ⟨hal, hsl⟩ := (sortedVars_cons it rest).1 hl
    obtain ⟨hl0, hpls⟩ := (posExp_cons it rest).1 hpl
    rw [sumExp_cons] at hb
    rw [dividedByVarLoop] at h
    by_cases hv : it.1 = v
    · rw [if_pos hv] at h
      by_cases h1 : it.2 = 1
      · rw [if_pos h1] at h
        simp only [Option.some.injEq] at h
        subst h
        refine ⟨hsl, hpls, ?_, ?_⟩
        · intro w hw
          rw [above_cons] at hw
          exact hw.2
        · rw [sumExp_cons]
          omega
      · rw [if_neg h1] at h
        simp only [Option.some.injEq] at h
        subst h
        have hu : usub it.2 1 = it.2 - 1 := usub_of_le (by omega) (by omega)
        rw [hu]
        refine ⟨?_, ?_, ?_, ?_⟩
        · rw [sortedVars_cons]
          exact ⟨hal, hsl⟩
        · rw [posExp_cons]
          exact ⟨by show 0 < it.2 - 1; omega, hpls⟩
        · intro w hw
          rw [above_cons] at hw ⊢
          exact hw
        · rw [sumExp_cons, sumExp_cons]
          show it.2 - 1 + _ + 1 = _
          omega
    · rw [if_neg hv] at h
      cases hq' : dividedByVarLoop v rest with
      | none => rw [hq'] at h; cases h
      | some q' =>
        rw [hq'] at h
        simp only [Option.map_some', Option.some.injEq] at h
        subst h
        obtain ⟨h1, h2, h3, h4⟩ := ih hsl hpls (by omega) hq'
        refine ⟨?_, ?_, ?_, ?_⟩
        · rw [sortedVars_cons]
          exact ⟨h3 _ hal, h1⟩
        · rw [posExp_cons]
          exact ⟨hl0, h2⟩
        · intro w hw
          rw [above_cons] at hw ⊢
          exact ⟨hw.1, h3 w hw.2⟩
        · rw [sumExp_cons, sumExp_cons]
          omega

theorem powLoop_spec {n : Nat} (hn : 0 < n) {l : List (Nat × Nat)} {s : Nat}
    (hl : SortedVars l) (hpl : PosExp l) (hb : s + sumExp l * n < expMod) :
    SortedVars (powLoop n l s).1 ∧ PosExp (powLoop n l s).1 ∧
      (∀ w, Above w l → Above w (powLoop n l s).1) ∧
      (powLoop n l s).2 = s + sumExp (powLoop n l s).1 ∧
      sumExp (powLoop n l s).1 = sumExp l * n := by
  induction l generalizing s with
  | nil =>
    refine ⟨?_, ?_, ?_, ?_, ?_⟩
    · simp [powLoop, SortedVars]
    · simp [powLoop, PosExp]
    · intro w _
      simp [powLoop, Above]
    · simp [powLoop, sumExp]
    · simp [powLoop, sumExp]
  | cons it rest ih =>
    obtain ⟨hal, hsl⟩ := (sortedVars_cons it rest).1 hl
    obtain ⟨hl0, hpls⟩ := (posExp_cons it rest).1 hpl
    rw [sumExp_cons, Nat.add_mul] at hb
    have hm : umul it.2 n = it.2 * n := Nat.mod_eq_of_lt (by omega)
    have hmpos : 0 < it.2 * n := Nat.mul_pos hl0 hn
    have hu : uadd s (it.2 * n) = s + it.2 * n := uadd_of_lt (by omega)
    rw [powLoop, hm, hu]
    obtain ⟨h1, h2, h3, h4, h5⟩ := ih (s := s + it.2 * n) hsl hpls (by omega)
    refine ⟨?_, ?_, ?_, ?_, ?_⟩
    · rw [sortedVars_cons]
      exact ⟨h3 _ hal, h1⟩
    · rw [posExp_cons]
      exact ⟨hmpos, h2⟩
    · intro w hw
      rw [above_cons] at hw ⊢
      exact ⟨hw.1, h3 w hw.2⟩
    · rw [sumExp_cons]
      show (powLoop n rest (s + it.2 * n)).2 = s + (it.2 * n + _)
      omega
    · rw [sumExp_cons, sumExp_cons, Nat.add_mul, h5]

theorem dropVariableLoop_spec {v : Nat} {l : List (Nat × Nat)} {d : Nat}
    (hl : SortedVars l) (hpl : PosExp l) (hd : sumExp l ≤ d) (hdM : d < expMod) :
    SortedVars (dropVariableLoop v l d).1 ∧ PosExp (dropVariableLoop v l d).1 ∧
      (∀ w, Above w l → Above w (dropVariableLoop v l d).1) ∧
      (dropVariableLoop v l d).2 + sumExp l = d + sumExp (dropVariableLoop v l d).1 ∧
      (dropVariableLoop v l d).2 ≤ d := by
  induction l generalizing d with
  | nil =>
    refine ⟨?_, ?_, ?_, ?_, ?_⟩
    · simp [dropVariableLoop, SortedVars]
    · simp [dropVariableLoop, PosExp]
    · intro w _
      simp [dropVariableLoop, Above]
    · simp [dropVariableLoop]
    · simp [dropVariableLoop]
  | cons it rest ih =>
    obtain ⟨hal, hsl⟩ := (sortedVars_cons it rest).1 hl
    obtain ⟨hl0, hpls⟩ := (posExp_cons it rest).1 hpl
    rw [sumExp_cons] at hd
    rw [dropVariableLoop]
    by_cases h : it.1 = v
    · rw [if_pos h]
      have hu : usub d it.2 = d - it.2 := usub_of_le hdM (by omega)
      rw [hu]
      obtain ⟨h1, h2, h3, h4, h5⟩ := ih (d := d - it.2) hsl hpls (by omega) (by omega)
      refine ⟨h1, h2, ?_, ?_, ?_⟩
      · intro w hw
        rw [above_cons] at hw
        exact h3 w hw.2
      · rw [sumExp_cons]
        omega
      · omega
    · rw [if_neg h]
      obtain ⟨h1, h2, h3, h4, h5⟩ := ih (d := d) hsl hpls (by omega) hdM
      refine ⟨?_, ?_, ?_, ?_, ?_⟩
      · rw [sortedVars_cons]
        exact ⟨h3 _ hal, h1⟩
      · rw [posExp_cons]
        exact ⟨hl0, h2⟩
      · intro w hw
        rw [above_cons] at hw ⊢
        exact ⟨hw.1, h3 w hw.2⟩
      · rw [sumExp_cons, sumExp_cons]
        show (dropVariableLoop v rest d).2 + _ = _
        omega
      · exact h5

theorem seperable_spec {l : List (Nat × Nat)} (hl : SortedVars l) (hpl : PosExp l) :
    SortedVars (l.map (fun it => (it.1, 1))) ∧ PosExp (l.map (fun it => (it.1, 1))) ∧
      (∀ w, Above w l → Above w (l.map (fun it => (it.1, 1)))) ∧
      sumExp (l.map (fun it => (it.1, 1))) = l.length ∧ l.length ≤ sumExp l := by
  induction l with
  | nil =>
    refine ⟨?_, ?_, ?_, ?_, ?_⟩
    · simp [SortedVars]
    · simp [PosExp]
    · intro w _
      simp [Above]
    · simp [sumExp]
    · simp
  | cons it rest ih =>
    obtain ⟨hal, hsl⟩ := (sortedVars_cons it rest).1 hl
    obtain ⟨hl0, hpls⟩ := (posExp_cons it rest).1 hpl
    obtain ⟨h1, h2, h3, h4, h5⟩ := ih hsl hpls
    rw [List.map_cons]
    refine ⟨?_, ?_, ?_, ?_, ?_⟩
    · rw [sortedVars_cons]
      exact ⟨h3 _ hal, h1⟩
    · rw [posExp_cons]
      exact ⟨Nat.one_pos, h2⟩
    · intro w hw
      rw [above_cons] at hw ⊢
      exact ⟨hw.1, h3 w hw.2⟩
    · rw [sumExp_cons, h4, List.length_cons]
      omega
    · rw [sumExp_cons, List.length_cons]
      omega

namespace Monomial

/-! Consistency of the results -/

theorem consistent_fromVariable (v e : Nat) (he : 1 ≤ e) (hM : e < expMod) :
    (fromVariable v e).Consistent := by
  refine ⟨?_, ?_, ?_, hM⟩
  · simp [fromVariable, SortedVars]
  · simp only [fromVariable, PosExp, List.mem_singleton]
    intro p hp
    rw [hp]
    exact he
  · simp [fromVariable, sumExp]

theorem consistent_mulVar {m : Monomial} (hm : m.Consistent) (v : Nat)
    (h : m.mTotalDegree + 1 < expMod) : (m.mulVar v).Consistent := by
  have h3 := hm.2.2.1
  obtain ⟨h1, h2, _, h4⟩ := mulVarLoop_spec (v := v) hm.1 hm.2.1 (by omega)
  refine ⟨h1, h2, ?_, ?_⟩
  · show uadd m.mTotalDegree 1 = sumExp (mulVarLoop v m.mExponents)
    rw [uadd_of_lt h, h4, h3]
  · show uadd m.mTotalDegree 1 < expMod
    rw [uadd_of_lt h]
    exact h

theorem consistent_dividedByVar {m q : Monomial} (hm : m.Consistent) {v : Nat}
    (h : m.dividedByVar v = some q) : q.Consistent := by
  unfold dividedByVar at h
  cases hq : dividedByVarLoop v m.mExponents with
  | none => rw [hq] at h; cases h
  | some q' =>
    rw [hq] at h
    simp only [Option.map_some', Option.some.injEq] at h
    subst h
    have h3 := hm.2.2.1
    have h4 := hm.2.2.2
    obtain ⟨h1, h2, _, h5⟩ := dividedByVarLoop_spec hm.1 hm.2.1 hm.exps_lt hq
    have hu : usub m.mTotalDegree 1 = m.mTotalDegree - 1 := usub_of_le h4 (by omega)
    refine ⟨h1, h2, ?_, ?_⟩
    · show usub m.mTotalDegree 1 = sumExp q'
      omega
    · show usub m.mTotalDegree 1 < expMod
      omega

theorem consistent_pow {m q : Monomial} (hm : m.Consistent) {n : Nat}
    (hb : m.mTotalDegree * n < expMod) (h : m.pow n = some q) : q.Consistent := by
  unfold pow at h
  split at h
  · cases h
  · next hn =>
    simp only [Option.some.injEq] at h
    subst h
    have h3 := hm.2.2.1
    obtain ⟨h1, h2, _, h4, h5⟩ := powLoop_spec (n := n) (by omega) (l := m.mExponents) (s := 0)
      hm.1 hm.2.1 (by rw [← h3]; omega)
    refine ⟨h1, h2, ?_, ?_⟩
    · show (powLoop n m.mExponents 0).2 = sumExp (powLoop n m.mExponents 0).1
      omega
    · show (powLoop n m.mExponents 0).2 < expMod
      rw [h4, h5, ← h3]
      omega

theorem consistent_seperablePart {m : Monomial} (hm : m.Consistent) :
    m.seperablePart.Consistent := by
  have h3 := hm.2.2.1
  have h4 := hm.2.2.2
  obtain ⟨h1, h2, _, h5, h6⟩ := seperable_spec hm.1 hm.2.1
  have hlen : m.mExponents.length % expMod = m.mExponents.length :=
    Nat.mod_eq_of_lt (by omega)
  refine ⟨h1, h2, ?_, ?_⟩
  · show m.mExponents.length % expMod =
      sumExp (m.mExponents.map (fun it => (it.1, 1)))
    rw [hlen, h5]
  · show m.mExponents.length % expMod < _
    omega

theorem consistent_dropVariable {m q : Monomial} (hm : m.Consistent) {v : Nat}
    (h : m.dropVariable v = some q) : q.Consistent := by
  unfold dropVariable at h
  split at h
  · simp only [Option.some.injEq] at h
    subst h
    exact hm
  · split at h
    · cases h
    · simp only [Option.some.injEq] at h
      subst h
      have h3 := hm.2.2.1
      have h4 := hm.2.2.2
      obtain ⟨h1, h2, _, h5, h6⟩ := dropVariableLoop_spec (v := v) (d := m.mTotalDegree)
        hm.1 hm.2.1 (by omega) h4
      refine ⟨h1, h2, ?_, ?_⟩
      · show (dropVariableLoop v m.mExponents m.mTotalDegree).2 =
          sumExp (dropVariableLoop v m.mExponents m.mTotalDegree).1
        omega
      · show (dropVariableLoop v m.mExponents m.mTotalDegree).2 < expMod
        omega

end Monomial

/-! The divisibility test -/

theorem dividableByLoop_eq : ∀ (l r : List (Nat × Nat)),
    sumExp l < expMod → sumExp r < expMod →
    dividableByLoop l r = (dividedByLoop l r).isSome
  | [], r, _, _ => by
    rw [dividableByLoop, dividedByLoop_nil_left]
    cases r <;> rfl
  | l :: ls, [], _, _ => by
    rw [dividableByLoop, dividedByLoop_nil_right]
    rfl
  | l :: ls, r :: rs, hbl, hbr => by
    rw [sumExp_cons] at hbl hbr
    have hx : l.2 < expMod := by omega
    have hy : r.2 < expMod := by omega
    rw [dividableByLoop, dividedByLoop_cons_cons]
    by_cases hv : l.1 = r.1
    · rw [if_pos hv, if_pos hv]
      by_cases hgt : r.2 > l.2
      · rw [if_pos hgt, if_pos ((usub_gt_iff hx hy).2 hgt)]
        rfl
      · rw [if_neg hgt, if_neg (by rw [usub_gt_iff hx hy]; omega),
          dividableByLoop_eq ls rs (by omega) (by omega)]
        split
        · rw [Option.isSome_map']
        · rfl
    · rw [if_neg hv, if_neg hv]
      by_cases hgt : l.1 > r.1
      · rw [if_pos hgt, if_pos hgt]
        rfl
      · rw [if_neg hgt, if_neg hgt,
          dividableByLoop_eq ls (r :: rs) (by omega) (by rw [sumExp_cons]; omega),
          Option.isSome_map']

theorem Monomial.dividableBy_eq {a b : Monomial} (ha : a.Consistent) (hb : b.Consistent) :
    a.dividableBy b = (a.dividedBy b).isSome := by
  unfold Monomial.dividableBy Monomial.dividedBy Monomial.nrVariables
  by_cases h1 : b.mTotalDegree > a.mTotalDegree
  · rw [if_pos h1, if_pos (Or.inl h1)]
    rfl
  · by_cases h2 : b.mExponents.length > a.mExponents.length
    · rw [if_neg h1, if_pos h2, if_pos (Or.inr h2)]
      rfl
    · rw [if_neg h1, if_neg h2, if_neg (by tauto), Option.isSome_map',
        dividableByLoop_eq _ _ ha.exps_lt hb.exps_lt]

/-! The lexicographic comparison -/

theorem lexLoop_cons_cons (l r : Nat × Nat) (ls rs : List (Nat × Nat)) :
    lexicalCompareLoop (l :: ls) (r :: rs) =
      if l.1 = r.1 then
        (if l.2 < r.2 then CompareResult.LESS
         else if l.2 > r.2 then CompareResult.GREATER
         else lexicalCompareLoop ls rs)
      else (if l.1 < r.1 then CompareResult.GREATER else CompareResult.LESS) := by
  rw [lexicalCompareLoop]

theorem lexLoop_less_cons (l r : Nat × Nat) (ls rs : List (Nat × Nat)) :
    lexicalCompareLoop (l :: ls) (r :: rs) = CompareResult.LESS ↔
      (r.1 < l.1 ∨ (l.1 = r.1 ∧ l.2 < r.2)) ∨
        (l = r ∧ lexicalCompareLoop ls rs = CompareResult.LESS) := by
  rw [lexLoop_cons_cons]
  by_cases hv : l.1 = r.1
  · rw [if_pos hv]
    by_cases h1 : l.2 < r.2
    · rw [if_pos h1]
      exact ⟨fun _ => Or.inl (Or.inr ⟨hv, h1⟩), fun _ => rfl⟩
    · rw [if_neg h1]
      by_cases h2 : l.2 > r.2
      · rw [if_pos h2]
        constructor
        · intro h; cases h
        · rintro ((h | ⟨_, h⟩) | ⟨h, _⟩)
          · omega
          · omega
          · rw [h] at h2; omega
      · rw [if_neg h2]
        constructor
        · intro h
          exact Or.inr ⟨Prod.ext hv (by omega), h⟩
        · rintro ((h | ⟨_, h⟩) | ⟨_, h⟩)
          · omega
          · omega
          · exact h
  · rw [if_neg hv]
    by_cases h1 : l.1 < r.1
    · rw [if_pos h1]
      constructor
      · intro h; cases h
      · rintro ((h | ⟨h, _⟩) | ⟨h, _⟩)
        · omega
        · omega
        · rw [h] at hv; exact absurd rfl hv
    · rw [if_neg h1]
      exact ⟨fun _ => Or.inl (Or.inl (by omega)), fun _ => rfl⟩

theorem lexLoop_equal_iff : ∀ (l r : List (Nat × Nat)),
    lexicalCompareLoop l r = CompareResult.EQUAL ↔ l = r
  | [], [] => by simp [lexicalCompareLoop]
  | [], _ :: _ => by simp [lexicalCompareLoop]
  | _ :: _, [] => by simp [lexicalCompareLoop]
  | l :: ls, r :: rs => by
    rw [lexLoop_cons_cons]
    by_cases hv : l.1 = r.1
    · rw [if_pos hv]
      by_cases h1 : l.2 < r.2
      · rw [if_pos h1]
        constructor
        · intro h; cases h
        · intro h
          rw [(List.cons.inj h).1] at h1
          omega
      · rw [if_neg h1]
        by_cases h2 : l.2 > r.2
        · rw [if_pos h2]
          constructor
          · intro h; cases h
          · intro h
            rw [(List.cons.inj h).1] at h2
            omega
        · rw [if_neg h2, lexLoop_equal_iff ls rs]
          constructor
          · intro h
            rw [h, Prod.ext hv (show l.2 = r.2 by omega)]
          · intro h
            exact (List.cons.inj h).2
    · rw [if_neg hv]
      constructor
      · intro h
        split at h <;> cases h
      · intro h
        rw [(List.cons.inj h).1] at hv
        exact absurd rfl hv

theorem lexLoop_less_iff_greater : ∀ (l r : List (Nat × Nat)),
    lexicalCompareLoop l r = CompareResult.LESS ↔
      lexicalCompareLoop r l = CompareResult.GREATER
  | [], [] => by simp [lexicalCompareLoop]
  | [], _ :: _ => by simp [lexicalCompareLoop]
  | _ :: _, [] => by simp [lexicalCompareLoop]
  | l :: ls, r :: rs => by
    rw [lexLoop_cons_cons, lexLoop_cons_cons]
    by_cases hv : l.1 = r.1
    · rw [if_pos hv, if_pos hv.symm]
      by_cases h1 : l.2 < r.2
      · rw [if_pos h1, if_neg (by omega), if_pos (by omega)]
        simp
      · rw [if_neg h1]
        by_cases h2 : l.2 > r.2
        · rw [if_pos h2, if_pos (by omega)]
          simp
        · rw [if_neg h2, if_neg (by omega), if_neg (by omega)]
          exact lexLoop_less_iff_greater ls rs
    · rw [if_neg hv, if_neg (Ne.symm hv)]
      by_cases h1 : l.1 < r.1
      · rw [if_pos h1, if_neg (by omega)]
        simp
      · rw [if_neg h1, if_pos (by omega)]
        simp

theorem lexLoop_less_trans : ∀ (l m r : List (Nat × Nat)),
    lexicalCompareLoop l m = CompareResult.LESS →
    lexicalCompareLoop m r = CompareResult.LESS →
    lexicalCompareLoop l r = CompareResult.LESS
  | [], [], _, h1, _ => by simp [lexicalCompareLoop] at h1
  | _ :: _, [], _, h1, _ => by simp [lexicalCompareLoop] at h1
  | [], _ :: _, [], _, h2 => by simp [lexicalCompareLoop] at h2
  | _ :: _, _ :: _, [], _, h2 => by simp [lexicalCompareLoop] at h2
  | [], _ :: _, _ :: _, _, _ => by simp [lexicalCompareLoop]
  | a :: as, b :: bs, c :: cs, h1, h2 => by
    rw [lexLoop_less_cons] at h1 h2 ⊢
    rcases h1 with h1 | ⟨hab, h1⟩
    · rcases h2 with h2 | ⟨hbc, h2⟩
      · left; omega
      · subst hbc
        left; exact h1
    · subst hab
      rcases h2 with h2 | ⟨hbc, h2⟩
      · left; exact h2
      · right
        exact ⟨hbc, lexLoop_less_trans as bs cs h1 h2⟩

/-! Claims on the monomial arithmetic -/

namespace Monomial

/-- C1, as stated, fails: `x^(2^31)` is consistent, and its product with itself, whose
exponent and total degree wrap around to zero in `unsigned`, is not. -/
theorem invariant_preserved_counterexample :
    (fromVariable 0 2147483648).Consistent ∧
      ¬ ((fromVariable 0 2147483648).mul (fromVariable 0 2147483648)).Consistent := by
  refine ⟨by decide, ?_⟩
  simp [Monomial.mul, fromVariable, mulLoop, uadd, expMod]
  decide

/-- C1 (amended): monomial invariant preservation. For consistent monomials `a`, `b`,
the monomial returned by the constructor with `1 ≤ e`, by both divisions, by
`calcLcmAndDivideBy`, by `seperablePart` and by `dropVariable` (when non-null) is
consistent; the one returned by `operator*=(Variable)`, `operator*=(Monomial)`, `lcm`
and `pow(n)` with `1 ≤ n` is consistent when the total degree of the result is a value
of `unsigned` (below `2^32`). -/
theorem invariant_preserved (a b : Monomial) (v e n : Nat)
    (ha : a.Consistent) (hb : b.Consistent) :
    (1 ≤ e → e < expMod → (fromVariable v e).Consistent) ∧
    (a.tdeg + 1 < expMod → (a.mulVar v).Consistent) ∧
    (a.tdeg + b.tdeg < expMod → (a.mul b).Consistent) ∧
    (∀ q, a.dividedByVar v = some q → q.Consistent) ∧
    (∀ q, a.dividedBy b = some q → q.Consistent) ∧
    (a.calcLcmAndDivideBy b).Consistent ∧
    (lcmDegree a b < expMod → (a.lcm b).Consistent) ∧
    (1 ≤ n → a.tdeg * n < expMod → ∃ q, a.pow n = some q ∧ q.Consistent) ∧
    a.seperablePart.Consistent ∧
    (∀ q, a.dropVariable v = some q → q.Consistent) := by
  refine ⟨consistent_fromVariable v e, consistent_mulVar ha v, consistent_mul ha hb,
    fun q h => consistent_dividedByVar ha h, fun q h => (dividedBy_some ha hb h).1,
    (calcLcmAndDivideBy_spec ha hb).1, consistent_lcm ha hb, ?_,
    consistent_seperablePart ha, fun q h => consistent_dropVariable ha h⟩
  intro hn hb'
  have hp : a.pow n = some ⟨(powLoop n a.mExponents 0).1, (powLoop n a.mExponents 0).2⟩ := by
    unfold pow
    rw [if_neg (by omega)]
  exact ⟨_, hp, consistent_pow ha hb' hp⟩

/-- C1 (amended) at `a = x^2*y`, `b = y^3*z`, the variable `y`, `e = 2` and `n = 3`. -/
theorem invariant_preserved_witness :
    (fromVariable 1 2).Consistent ∧
    ((⟨[(0, 2), (1, 1)], 3⟩ : Monomial).mulVar 1).Consistent ∧
    ((⟨[(0, 2), (1, 1)], 3⟩ : Monomial).mul ⟨[(1, 3), (2, 1)], 4⟩).Consistent ∧
    ((⟨[(0, 2), (1, 1)], 3⟩ : Monomial).calcLcmAndDivideBy ⟨[(1, 3), (2, 1)], 4⟩).Consistent ∧
    ((⟨[(0, 2), (1, 1)], 3⟩ : Monomial).lcm ⟨[(1, 3), (2, 1)], 4⟩).Consistent ∧
    (∃ q, (⟨[(0, 2), (1, 1)], 3⟩ : Monomial).pow 3 = some q ∧ q.Consistent) ∧
    (⟨[(0, 2), (1, 1)], 3⟩ : Monomial).seperablePart.Consistent := by
  have h := invariant_preserved ⟨[(0, 2), (1, 1)], 3⟩ ⟨[(1, 3), (2, 1)], 4⟩ 1 2 3
    (by decide) (by decide)
  exact ⟨h.1 (by decide) (by decide), h.2.1 (by decide), h.2.2.1 (by decide),
    h.2.2.2.2.2.1, h.2.2.2.2.2.2.1 (by decide), h.2.2.2.2.2.2.2.1 (by decide) (by decide),
    h.2.2.2.2.2.2.2.2.1⟩

/-- C2, as stated, fails: for `a = b = x^(2^31)` the product has exponent `0` for `x`
and total degree `0`, not the sums `2^32`. -/
theorem mul_exponents_counterexample :
    (fromVariable 0 2147483648).Consistent ∧
      ((fromVariable 0 2147483648).mul (fromVariable 0 2147483648)).exponentOfVariable 0 ≠
        (fromVariable 0 2147483648).exponentOfVariable 0 +
          (fromVariable 0 2147483648).exponentOfVariable 0 ∧
      ((fromVariable 0 2147483648).mul (fromVariable 0 2147483648)).tdeg ≠
        (fromVariable 0 2147483648).tdeg + (fromVariable 0 2147483648).tdeg := by
  refine ⟨by decide, ?_, ?_⟩
  · simp [Monomial.mul, fromVariable, mulLoop, uadd, expMod, exponentOfVariable, expOf]
  · simp [Monomial.mul, fromVariable, uadd, expMod, tdeg]

/-- C2 (amended): for consistent monomials `a` and `b` whose total degrees add up to a
value of `unsigned` (below `2^32`), every exponent of the product is the sum of the
exponents of the factors, and so is the total degree. The product is a total
function: it never fails. -/
theorem mul_exponents (a b : Monomial) (ha : a.Consistent) (hb : b.Consistent)
    (h : a.tdeg + b.tdeg < expMod) (v : Variable) :
    (a.mul b).exponentOfVariable v = a.exponentOfVariable v + b.exponentOfVariable v ∧
      (a.mul b).tdeg = a.tdeg + b.tdeg :=
  ⟨exponentOfVariable_mul ha hb h v, tdeg_mul ha hb h⟩

/-- C2 (amended) at `a = x^2*y`, `b = y^3*z` and the variable `y`. -/
theorem mul_exponents_witness :
    ((⟨[(0, 2), (1, 1)], 3⟩ : Monomial).mul ⟨[(1, 3), (2, 1)], 4⟩).exponentOfVariable 1 =
        (⟨[(0, 2), (1, 1)], 3⟩ : Monomial).exponentOfVariable 1 +
          (⟨[(1, 3), (2, 1)], 4⟩ : Monomial).exponentOfVariable 1 ∧
      ((⟨[(0, 2), (1, 1)], 3⟩ : Monomial).mul ⟨[(1, 3), (2, 1)], 4⟩).tdeg =
        (⟨[(0, 2), (1, 1)], 3⟩ : Monomial).tdeg + (⟨[(1, 3), (2, 1)], 4⟩ : Monomial).tdeg :=
  mul_exponents ⟨[(0, 2), (1, 1)], 3⟩ ⟨[(1, 3), (2, 1)], 4⟩ (by decide) (by decide)
    (by decide) 1

/-- C3: for consistent monomials `a` and `b`, `a.dividedBy(b)` returns a monomial
exactly when the exponent of every variable in `b` is at most its exponent in `a`, and
the null result in every other case. -/
theorem dividedBy_isSome_iff (a b : Monomial) (ha : a.Consistent) (hb : b.Consistent) :
    ((a.dividedBy b).isSome = true ↔
        ∀ v : Variable, b.exponentOfVariable v ≤ a.exponentOfVariable v) ∧
      (a.dividedBy b = none ↔
        ¬ ∀ v : Variable, b.exponentOfVariable v ≤ a.exponentOfVariable v) := by
  have key : (a.dividedBy b).isSome = true ↔
      ∀ v : Variable, b.exponentOfVariable v ≤ a.exponentOfVariable v := by
    constructor
    · intro h v
      obtain ⟨q, hq⟩ := Option.isSome_iff_exists.1 h
      exact ((dividedBy_some ha hb hq).2.1 v).1
    · intro h
      obtain ⟨q, hq⟩ := dividedBy_isSome ha hb h
      rw [hq]
      rfl
  refine ⟨key, ?_⟩
  rw [← key]
  cases a.dividedBy b <;> simp

/-- C3 at `a = x^3`, `b = x^2`. -/
theorem dividedBy_isSome_iff_witness :
    (((fromVariable 0 3).dividedBy (fromVariable 0 2)).isSome = true ↔
        ∀ v : Variable, (fromVariable 0 2).exponentOfVariable v ≤
          (fromVariable 0 3).exponentOfVariable v) ∧
      ((fromVariable 0 3).dividedBy (fromVariable 0 2) = none ↔
        ¬ ∀ v : Variable, (fromVariable 0 2).exponentOfVariable v ≤
          (fromVariable 0 3).exponentOfVariable v) :=
  dividedBy_isSome_iff (fromVariable 0 3) (fromVariable 0 2) (by decide) (by decide)

/-- C4, as stated, fails: for `a = b = x^(2^31)`, with `b` not constant, the product
`a*b` has total degree `0` after wrap-around and its division by `b` returns null. -/
theorem mul_dividedBy_counterexample :
    (fromVariable 0 2147483648).Consistent ∧
      (fromVariable 0 2147483648).isConstant = false ∧
      ((fromVariable 0 2147483648).mul (fromVariable 0 2147483648)).dividedBy
        (fromVariable 0 2147483648) = none := by
  refine ⟨by decide, by decide, ?_⟩
  simp [Monomial.mul, fromVariable, mulLoop, uadd, expMod, Monomial.dividedBy]

/-- C4 (amended): round trip. For consistent monomials `a` and `b`, `b` not constant,
whose total degrees add up to a value of `unsigned` (below `2^32`), the division of
`a*b` by `b` succeeds and its quotient is equal (`operator==`) to `a`. -/
theorem mul_dividedBy (a b : Monomial) (ha : a.Consistent) (hb : b.Consistent)
    (_hc : b.isConstant = false) (h : a.tdeg + b.tdeg < expMod) :
    ∃ q, (a.mul b).dividedBy b = some q ∧ q.eq a = true := by
  have hab := consistent_mul ha hb h
  have hle : ∀ v, b.exponentOfVariable v ≤ (a.mul b).exponentOfVariable v := by
    intro v
    rw [exponentOfVariable_mul ha hb h v]
    omega
  obtain ⟨q, hq⟩ := dividedBy_isSome hab hb hle
  obtain ⟨hqc, hqe, _⟩ := dividedBy_some hab hb hq
  refine ⟨q, hq, (eq_iff q a).2 (hqc.ext ha ?_)⟩
  intro v
  rw [(hqe v).2, exponentOfVariable_mul ha hb h v]
  omega

/-- C4 (amended) at `a = x^2*y`, `b = y^3*z`. -/
theorem mul_dividedBy_witness :
    ∃ q, ((⟨[(0, 2), (1, 1)], 3⟩ : Monomial).mul ⟨[(1, 3), (2, 1)], 4⟩).dividedBy
        ⟨[(1, 3), (2, 1)], 4⟩ = some q ∧ q.eq ⟨[(0, 2), (1, 1)], 3⟩ = true :=
  mul_dividedBy ⟨[(0, 2), (1, 1)], 3⟩ ⟨[(1, 3), (2, 1)], 4⟩ (by decide) (by decide)
    (by decide) (by decide)

/-- C5: quotient correctness. For consistent monomials `a` and `b`, when
`a.dividedBy(b)` returns a monomial `q`, then `q*b == a`, every exponent of `q` is the
exponent in `a` minus the exponent in `b`, and `tdeg(q) = tdeg(a) - tdeg(b)`. -/
theorem dividedBy_quotient (a b q : Monomial) (ha : a.Consistent) (hb : b.Consistent)
    (h : a.dividedBy b = some q) :
    (q.mul b).eq a = true ∧
      (∀ v : Variable, q.exponentOfVariable v = a.exponentOfVariable v - b.exponentOfVariable v) ∧
      q.tdeg = a.tdeg - b.tdeg := by
  obtain ⟨hqc, hqe, hd⟩ := dividedBy_some ha hb h
  have ha4 := ha.2.2.2
  have hqb : q.mTotalDegree + b.mTotalDegree < expMod := by omega
  refine ⟨(eq_iff _ _).2 ((consistent_mul hqc hb hqb).ext ha ?_), fun v => (hqe v).2, ?_⟩
  · intro v
    rw [exponentOfVariable_mul hqc hb hqb v, (hqe v).2]
    have := (hqe v).1
    omega
  · show q.mTotalDegree = a.mTotalDegree - b.mTotalDegree
    omega

/-- C5 at `a = x^2*y^3`, `b = x*y^3`, with quotient `x`. -/
theorem dividedBy_quotient_witness :
    ((fromVariable 0 1).mul ⟨[(0, 1), (1, 3)], 4⟩).eq ⟨[(0, 2), (1, 3)], 5⟩ = true ∧
      (∀ v : Variable, (fromVariable 0 1).exponentOfVariable v =
        (⟨[(0, 2), (1, 3)], 5⟩ : Monomial).exponentOfVariable v -
          (⟨[(0, 1), (1, 3)], 4⟩ : Monomial).exponentOfVariable v) ∧
      (fromVariable 0 1).tdeg =
        (⟨[(0, 2), (1, 3)], 5⟩ : Monomial).tdeg - (⟨[(0, 1), (1, 3)], 4⟩ : Monomial).tdeg :=
  dividedBy_quotient ⟨[(0, 2), (1, 3)], 5⟩ ⟨[(0, 1), (1, 3)], 4⟩ (fromVariable 0 1)
    (by decide) (by decide) (by decide)

end Monomial

namespace Monomial

/-! Claims on the least common multiple -/

/-- C6, as stated, fails: for `a = x^(2^31)` and `b = y^(2^31)` the maxima add up to
`2^32`, and the cached total degree of `lcm(a, b)` is `0`. -/
theorem lcm_exponents_counterexample :
    (fromVariable 0 2147483648).Consistent ∧ (fromVariable 1 2147483648).Consistent ∧
      ((fromVariable 0 2147483648).lcm (fromVariable 1 2147483648)).tdeg = 0 ∧
      lcmDegree (fromVariable 0 2147483648) (fromVariable 1 2147483648) = 4294967296 := by
  refine ⟨by decide, by decide, ?_, by decide⟩
  simp [Monomial.lcm, fromVariable, lcmLoop, uadd, expMod, tdeg]

/-- C6 (amended): for consistent monomials `a` and `b`, every exponent of `lcm(a, b)` is
the larger of the exponents in `a` and in `b`; the cached total degree of `lcm(a, b)` is
the sum of these maxima reduced modulo `2^32`, hence that sum whenever it is a value
of `unsigned`. -/
theorem lcm_exponents (a b : Monomial) (ha : a.Consistent) (hb : b.Consistent) :
    (∀ v : Variable, (a.lcm b).exponentOfVariable v =
        max (a.exponentOfVariable v) (b.exponentOfVariable v)) ∧
      (a.lcm b).tdeg = lcmDegree a b % expMod ∧
      (lcmDegree a b < expMod → (a.lcm b).tdeg = lcmDegree a b) := by
  refine ⟨exponentOfVariable_lcm ha hb, tdeg_lcm ha hb, fun h => ?_⟩
  show (a.lcm b).mTotalDegree = _
  rw [tdeg_lcm ha hb, Nat.mod_eq_of_lt h]

/-- C6 (amended) at `a = x^2*y`, `b = y^3*z`. -/
theorem lcm_exponents_witness :
    (∀ v : Variable, ((⟨[(0, 2), (1, 1)], 3⟩ : Monomial).lcm
        ⟨[(1, 3), (2, 1)], 4⟩).exponentOfVariable v =
        max ((⟨[(0, 2), (1, 1)], 3⟩ : Monomial).exponentOfVariable v)
          ((⟨[(1, 3), (2, 1)], 4⟩ : Monomial).exponentOfVariable v)) ∧
      ((⟨[(0, 2), (1, 1)], 3⟩ : Monomial).lcm ⟨[(1, 3), (2, 1)], 4⟩).tdeg = 6 := by
  have h := lcm_exponents ⟨[(0, 2), (1, 1)], 3⟩ ⟨[(1, 3), (2, 1)], 4⟩ (by decide) (by decide)
  exact ⟨h.1, (h.2.2 (by decide)).trans (by decide)⟩

/-- C7, as stated, fails: for `a = x^(2^31)` and `b = y^(2^31)` the cached total degree
of `lcm(a, b)` is `0`, so that it is divisible neither by `a` nor by `b`. -/
theorem lcm_divisible_counterexample :
    (fromVariable 0 2147483648).Consistent ∧ (fromVariable 1 2147483648).Consistent ∧
      ((fromVariable 0 2147483648).lcm (fromVariable 1 2147483648)).dividedBy
        (fromVariable 0 2147483648) = none ∧
      ((fromVariable 0 2147483648).lcm (fromVariable 1 2147483648)).dividedBy
        (fromVariable 1 2147483648) = none ∧
      ((fromVariable 0 2147483648).lcm (fromVariable 1 2147483648)).dividableBy
        (fromVariable 0 2147483648) = false ∧
      ((fromVariable 0 2147483648).lcm (fromVariable 1 2147483648)).dividableBy
        (fromVariable 1 2147483648) = false := by
  refine ⟨by decide, by decide, ?_, ?_, ?_, ?_⟩
  · simp [Monomial.lcm, fromVariable, lcmLoop, uadd, expMod, tdeg, Monomial.dividedBy]
  · simp [Monomial.lcm, fromVariable, lcmLoop, uadd, expMod, tdeg, Monomial.dividedBy]
  · simp [Monomial.lcm, fromVariable, lcmLoop, uadd, expMod, tdeg, Monomial.dividableBy]
  · simp [Monomial.lcm, fromVariable, lcmLoop, uadd, expMod, tdeg, Monomial.dividableBy]

/-- C7 (amended): for consistent monomials `a` and `b` whose least common multiple has a
total degree that is a value of `unsigned` (the maxima of the exponents add up to less
than `2^32`), `lcm(a, b)` is divisible by `a` and by `b`: both divisions return a
monomial and `dividableBy` is true for both. -/
theorem lcm_divisible (a b : Monomial) (ha : a.Consistent) (hb : b.Consistent)
    (h : lcmDegree a b < expMod) :
    ((a.lcm b).dividedBy a).isSome = true ∧ ((a.lcm b).dividedBy b).isSome = true ∧
      (a.lcm b).dividableBy a = true ∧ (a.lcm b).dividableBy b = true := by
  have hl := consistent_lcm ha hb h
  have h1 : ((a.lcm b).dividedBy a).isSome = true := by
    obtain ⟨q, hq⟩ := dividedBy_isSome hl ha (fun v => by
      rw [exponentOfVariable_lcm ha hb v]
      exact Nat.le_max_left _ _)
    rw [hq]
    rfl
  have h2 : ((a.lcm b).dividedBy b).isSome = true := by
    obtain ⟨q, hq⟩ := dividedBy_isSome hl hb (fun v => by
      rw [exponentOfVariable_lcm ha hb v]
      exact Nat.le_max_right _ _)
    rw [hq]
    rfl
  exact ⟨h1, h2, by rw [dividableBy_eq hl ha, h1], by rw [dividableBy_eq hl hb, h2]⟩

/-- C7 (amended) at `a = x^2*y`, `b = y^3*z`. -/
theorem lcm_divisible_witness :
    (((⟨[(0, 2), (1, 1)], 3⟩ : Monomial).lcm ⟨[(1, 3), (2, 1)], 4⟩).dividedBy
        ⟨[(0, 2), (1, 1)], 3⟩).isSome = true ∧
      (((⟨[(0, 2), (1, 1)], 3⟩ : Monomial).lcm ⟨[(1, 3), (2, 1)], 4⟩).dividedBy
        ⟨[(1, 3), (2, 1)], 4⟩).isSome = true ∧
      ((⟨[(0, 2), (1, 1)], 3⟩ : Monomial).lcm ⟨[(1, 3), (2, 1)], 4⟩).dividableBy
        ⟨[(0, 2), (1, 1)], 3⟩ = true ∧
      ((⟨[(0, 2), (1, 1)], 3⟩ : Monomial).lcm ⟨[(1, 3), (2, 1)], 4⟩).dividableBy
        ⟨[(1, 3), (2, 1)], 4⟩ = true :=
  lcm_divisible ⟨[(0, 2), (1, 1)], 3⟩ ⟨[(1, 3), (2, 1)], 4⟩ (by decide) (by decide)
    (by decide)

/-- C8, as stated, fails: for `a = x^(2^31)*z` and `b = y^(2^31)` the helper returns
`a`, while `lcm(a, b)`, whose cached total degree has wrapped around to `1`, is not
divisible by `b`: `lcm(a, b).dividedBy(b)` is the null result. -/
theorem calcLcmAndDivideBy_counterexample :
    (⟨[(0, 2147483648), (2, 1)], 2147483649⟩ : Monomial).Consistent ∧
      (fromVariable 1 2147483648).Consistent ∧
      (⟨[(0, 2147483648), (2, 1)], 2147483649⟩ : Monomial).calcLcmAndDivideBy
        (fromVariable 1 2147483648) = ⟨[(0, 2147483648), (2, 1)], 2147483649⟩ ∧
      ((⟨[(0, 2147483648), (2, 1)], 2147483649⟩ : Monomial).lcm
        (fromVariable 1 2147483648)).dividedBy (fromVariable 1 2147483648) = none := by
  refine ⟨by decide, by decide, ?_, ?_⟩
  · simp [Monomial.calcLcmAndDivideBy, fromVariable, calcLcmAndDivideByLoop]
  · simp [Monomial.lcm, fromVariable, lcmLoop, uadd, expMod, tdeg, Monomial.dividedBy]

/-- C8 (amended): for consistent monomials `a` and `b` whose least common multiple has a
total degree that is a value of `unsigned` (the maxima of the exponents add up to less
than `2^32`), `lcm(a, b).dividedBy(b)` is not the null result and the monomial it
returns is the one returned by `a.calcLcmAndDivideBy(b)`: same exponents, same cached
total degree. -/
theorem calcLcmAndDivideBy_eq (a b : Monomial) (ha : a.Consistent) (hb : b.Consistent)
    (h : lcmDegree a b < expMod) :
    ∃ q, (a.lcm b).dividedBy b = some q ∧ (a.calcLcmAndDivideBy b).eq q = true ∧
      (a.calcLcmAndDivideBy b).tdeg = q.tdeg := by
  have hl := consistent_lcm ha hb h
  obtain ⟨q, hq⟩ := dividedBy_isSome hl hb (fun v => by
    rw [exponentOfVariable_lcm ha hb v]
    exact Nat.le_max_right _ _)
  obtain ⟨hqc, hqe, _⟩ := dividedBy_some hl hb hq
  obtain ⟨hcc, hce⟩ := calcLcmAndDivideBy_spec ha hb
  have hqa : a.calcLcmAndDivideBy b = q := by
    apply hcc.ext hqc
    intro v
    rw [(hqe v).2, hce v, exponentOfVariable_lcm ha hb v]
    omega
  exact ⟨q, hq, (eq_iff _ _).2 hqa, by rw [hqa]⟩

/-- C8 (amended) at `a = x^2*y`, `b = y^3*z`. -/
theorem calcLcmAndDivideBy_eq_witness :
    ∃ q, ((⟨[(0, 2), (1, 1)], 3⟩ : Monomial).lcm ⟨[(1, 3), (2, 1)], 4⟩).dividedBy
        ⟨[(1, 3), (2, 1)], 4⟩ = some q ∧
      ((⟨[(0, 2), (1, 1)], 3⟩ : Monomial).calcLcmAndDivideBy ⟨[(1, 3), (2, 1)], 4⟩).eq q = true ∧
      ((⟨[(0, 2), (1, 1)], 3⟩ : Monomial).calcLcmAndDivideBy ⟨[(1, 3), (2, 1)], 4⟩).tdeg =
        q.tdeg :=
  calcLcmAndDivideBy_eq ⟨[(0, 2), (1, 1)], 3⟩ ⟨[(1, 3), (2, 1)], 4⟩ (by decide) (by decide)
    (by decide)

end Monomial

namespace Monomial

/-! Claims on the algebra of the product and on the orders -/

/-- C9, as stated, fails: for `a = y` and `b = c = x^(2^31)` the product `b*c` wraps
around to total degree `0`, so that `a*(b*c)` is `a`, while `(a*b)*c` keeps a pair for
`x`: the two are not equal. -/
theorem mul_comm_assoc_counterexample :
    (fromVariable 1 1).Consistent ∧ (fromVariable 0 2147483648).Consistent ∧
      (((fromVariable 1 1).mul (fromVariable 0 2147483648)).mul
          (fromVariable 0 2147483648)).eq
        ((fromVariable 1 1).mul ((fromVariable 0 2147483648).mul
          (fromVariable 0 2147483648))) = false := by
  refine ⟨by decide, by decide, ?_⟩
  simp [Monomial.mul, fromVariable, mulLoop, uadd, expMod, Monomial.eq]

/-- C9 (amended): the product of consistent monomials is commutative, `a*b == b*a`,
and it is associative, `(a*b)*c == a*(b*c)`, when the total degrees of `a`, `b` and
`c` add up to a value of `unsigned` (below `2^32`). -/
theorem mul_comm_assoc (a b c : Monomial) (ha : a.Consistent) (hb : b.Consistent)
    (hc : c.Consistent) :
    (a.mul b).eq (b.mul a) = true ∧
      (a.tdeg + b.tdeg + c.tdeg < expMod →
        ((a.mul b).mul c).eq (a.mul (b.mul c)) = true) := by
  constructor
  · rw [eq_iff, mul_eq_loop ha hb, mul_eq_loop hb ha, mulLoop_comm, uadd_comm]
  · intro h
    have h' : a.mTotalDegree + b.mTotalDegree + c.mTotalDegree < expMod := h
    have hab : a.mTotalDegree + b.mTotalDegree < expMod := by omega
    have hbc : b.mTotalDegree + c.mTotalDegree < expMod := by omega
    have cab := consistent_mul ha hb hab
    have cbc := consistent_mul hb hc hbc
    have tab := tdeg_mul ha hb hab
    have tbc := tdeg_mul hb hc hbc
    have h1 : (a.mul b).mTotalDegree + c.mTotalDegree < expMod := by omega
    have h2 : a.mTotalDegree + (b.mul c).mTotalDegree < expMod := by omega
    rw [eq_iff]
    apply (consistent_mul cab hc h1).ext (consistent_mul ha cbc h2)
    intro v
    rw [exponentOfVariable_mul cab hc h1, exponentOfVariable_mul ha hb hab,
      exponentOfVariable_mul ha cbc h2, exponentOfVariable_mul hb hc hbc]
    omega

/-- C9 (amended) at `a = x^2*y`, `b = y^3*z`, `c = x*z`. -/
theorem mul_comm_assoc_witness :
    ((⟨[(0, 2), (1, 1)], 3⟩ : Monomial).mul ⟨[(1, 3), (2, 1)], 4⟩).eq
        ((⟨[(1, 3), (2, 1)], 4⟩ : Monomial).mul ⟨[(0, 2), (1, 1)], 3⟩) = true ∧
      (((⟨[(0, 2), (1, 1)], 3⟩ : Monomial).mul ⟨[(1, 3), (2, 1)], 4⟩).mul
          ⟨[(0, 1), (2, 1)], 2⟩).eq
        ((⟨[(0, 2), (1, 1)], 3⟩ : Monomial).mul
          ((⟨[(1, 3), (2, 1)], 4⟩ : Monomial).mul ⟨[(0, 1), (2, 1)], 2⟩)) = true := by
  have h := mul_comm_assoc ⟨[(0, 2), (1, 1)], 3⟩ ⟨[(1, 3), (2, 1)], 4⟩ ⟨[(0, 1), (2, 1)], 2⟩
    (by decide) (by decide) (by decide)
  exact ⟨h.1, h.2 (by decide)⟩

theorem eq_iff_exps {a b : Monomial} (ha : a.Consistent) (hb : b.Consistent) :
    a.eq b = true ↔ a.mExponents = b.mExponents := by
  rw [eq_iff]
  constructor
  · intro h
    rw [h]
  · intro h
    have ha3 := ha.2.2.1
    have hb3 := hb.2.2.1
    cases a with
    | mk ea da =>
      cases b with
      | mk eb db =>
        simp only at h ha3 hb3
        subst h
        rw [ha3, hb3]

theorem compareGradedLexical_less_iff (a b : Monomial) :
    compareGradedLexical a b = CompareResult.LESS ↔
      a.mTotalDegree < b.mTotalDegree ∨ (a.mTotalDegree = b.mTotalDegree ∧
        lexicalCompareLoop a.mExponents b.mExponents = CompareResult.LESS) := by
  unfold compareGradedLexical lexicalCompare
  by_cases h1 : a.mTotalDegree < b.mTotalDegree
  · rw [if_pos h1]
    exact ⟨fun _ => Or.inl h1, fun _ => rfl⟩
  · rw [if_neg h1]
    by_cases h2 : a.mTotalDegree > b.mTotalDegree
    · rw [if_pos h2]
      constructor
      · intro h; cases h
      · rintro (h | ⟨h, _⟩) <;> omega
    · rw [if_neg h2]
      constructor
      · intro h
        exact Or.inr ⟨by omega, h⟩
      · rintro (h | ⟨_, h⟩)
        · omega
        · exact h

theorem compareGradedLexical_greater_iff (a b : Monomial) :
    compareGradedLexical a b = CompareResult.GREATER ↔
      b.mTotalDegree < a.mTotalDegree ∨ (a.mTotalDegree = b.mTotalDegree ∧
        lexicalCompareLoop a.mExponents b.mExponents = CompareResult.GREATER) := by
  unfold compareGradedLexical lexicalCompare
  by_cases h1 : a.mTotalDegree < b.mTotalDegree
  · rw [if_pos h1]
    constructor
    · intro h; cases h
    · rintro (h | ⟨h, _⟩) <;> omega
  · rw [if_neg h1]
    by_cases h2 : a.mTotalDegree > b.mTotalDegree
    · rw [if_pos h2]
      exact ⟨fun _ => Or.inl h2, fun _ => rfl⟩
    · rw [if_neg h2]
      constructor
      · intro h
        exact Or.inr ⟨by omega, h⟩
      · rintro (h | ⟨_, h⟩)
        · omega
        · exact h

theorem compareGradedLexical_equal_iff (a b : Monomial) :
    compareGradedLexical a b = CompareResult.EQUAL ↔ a = b := by
  unfold compareGradedLexical lexicalCompare
  by_cases h1 : a.mTotalDegree < b.mTotalDegree
  · rw [if_pos h1]
    constructor
    · intro h; cases h
    · intro h
      rw [h] at h1
      omega
  · rw [if_neg h1]
    by_cases h2 : a.mTotalDegree > b.mTotalDegree
    · rw [if_pos h2]
      constructor
      · intro h; cases h
      · intro h
        rw [h] at h2
        omega
    · rw [if_neg h2, lexLoop_equal_iff]
      constructor
      · intro h
        cases a with
        | mk ea da =>
          cases b with
          | mk eb db =>
            simp only at h h1 h2
            subst h
            have : da = db := by omega
            rw [this]
      · intro h
        rw [h]

/-- C10: `compareLexical` and `compareGradedLexical` are each a total order on
consistent monomials: the result is `EQUAL` exactly when `a == b`; it is `LESS` exactly
when the comparison of `b` with `a` is `GREATER`; and `LESS` is transitive. -/
theorem compare_total_order (a b c : Monomial) (ha : a.Consistent) (hb : b.Consistent) :
    ((compareLexical a b = CompareResult.EQUAL ↔ a.eq b = true) ∧
      (compareLexical a b = CompareResult.LESS ↔
        compareLexical b a = CompareResult.GREATER) ∧
      (compareLexical a b = CompareResult.LESS → compareLexical b c = CompareResult.LESS →
        compareLexical a c = CompareResult.LESS)) ∧
    ((compareGradedLexical a b = CompareResult.EQUAL ↔ a.eq b = true) ∧
      (compareGradedLexical a b = CompareResult.LESS ↔
        compareGradedLexical b a = CompareResult.GREATER) ∧
      (compareGradedLexical a b = CompareResult.LESS →
        compareGradedLexical b c = CompareResult.LESS →
        compareGradedLexical a c = CompareResult.LESS)) := by
  refine ⟨⟨?_, ?_, ?_⟩, ⟨?_, ?_, ?_⟩⟩
  · rw [eq_iff_exps ha hb]
    exact lexLoop_equal_iff _ _
  · exact lexLoop_less_iff_greater _ _
  · exact lexLoop_less_trans _ _ _
  · rw [eq_iff]
    exact compareGradedLexical_equal_iff a b
  · rw [compareGradedLexical_less_iff, compareGradedLexical_greater_iff,
      lexLoop_less_iff_greater]
    constructor
    · rintro (h | ⟨h1, h2⟩)
      · exact Or.inl h
      · exact Or.inr ⟨h1.symm, h2⟩
    · rintro (h | ⟨h1, h2⟩)
      · exact Or.inl h
      · exact Or.inr ⟨h1.symm, h2⟩
  · rw [compareGradedLexical_less_iff, compareGradedLexical_less_iff,
      compareGradedLexical_less_iff]
    rintro (h1 | ⟨h1, h1'⟩) (h2 | ⟨h2, h2'⟩)
    · left; omega
    · left; omega
    · left; omega
    · right
      exact ⟨by omega, lexLoop_less_trans _ _ _ h1' h2'⟩

/-- C10 at `a = x*y^2`, `b = x^2*y`, `c = x^3`. -/
theorem compare_total_order_witness :
    compareLexical ⟨[(0, 1), (1, 2)], 3⟩ ⟨[(0, 3)], 3⟩ = CompareResult.LESS ∧
      compareGradedLexical ⟨[(0, 1), (1, 2)], 3⟩ ⟨[(0, 3)], 3⟩ = CompareResult.LESS := by
  have h := compare_total_order ⟨[(0, 1), (1, 2)], 3⟩ ⟨[(0, 2), (1, 1)], 3⟩ ⟨[(0, 3)], 3⟩
    (by decide) (by decide)
  exact ⟨h.1.2.2 (by decide) (by decide), h.2.2.2 (by decide) (by decide)⟩

end Monomial

/-! The lexicographic comparison in terms of exponents -/

theorem above_lt_of_expOf_pos {u v : Nat} {l : List (Nat × Nat)} (ha : Above u l)
    (h : 0 < expOf l v) : u < v := by
  by_contra hle
  rw [expOf_eq_zero_of_above ha (by omega)] at h
  omega

theorem lexLess_of_less : ∀ (l r : List (Nat × Nat)),
    SortedVars l → SortedVars r → PosExp r →
    lexicalCompareLoop l r = CompareResult.LESS → LexLess l r
  | [], [], _, _, _, h => by simp [lexicalCompareLoop] at h
  | _ :: _, [], _, _, _, h => by simp [lexicalCompareLoop] at h
  | [], r :: rs, _, hr, hpr, _ => by
    obtain ⟨har, _⟩ := (sortedVars_cons r rs).1 hr
    obtain ⟨hr0, _⟩ := (posExp_cons r rs).1 hpr
    refine ⟨r.1, fun w hw => ?_, ?_⟩
    · rw [expOf_nil, expOf_cons, if_neg (by omega), expOf_eq_zero_of_above har (by omega)]
    · rw [expOf_nil, expOf_cons, if_pos rfl]
      exact hr0
  | l :: ls, r :: rs, hl, hr, hpr, h => by
    obtain ⟨hal, hsl⟩ := (sortedVars_cons l ls).1 hl
    obtain ⟨har, hsr⟩ := (sortedVars_cons r rs).1 hr
    obtain ⟨hr0, hprs⟩ := (posExp_cons r rs).1 hpr
    rw [lexLoop_less_cons] at h
    rcases h with (h | ⟨hv, h⟩) | ⟨hlr, h⟩
    · refine ⟨r.1, fun w hw => ?_, ?_⟩
      · rw [expOf_cons, if_neg (by omega), expOf_eq_zero_of_above hal (by omega),
          expOf_cons, if_neg (by omega), expOf_eq_zero_of_above har (by omega)]
      · rw [expOf_cons, if_neg (by omega), expOf_eq_zero_of_above hal (by omega),
          expOf_cons, if_pos rfl]
        exact hr0
    · refine ⟨l.1, fun w hw => ?_, ?_⟩
      · rw [expOf_cons, if_neg (by omega), expOf_eq_zero_of_above hal (by omega),
          expOf_cons, if_neg (by omega), expOf_eq_zero_of_above har (by omega)]
      · rw [expOf_cons, if_pos rfl, expOf_cons, if_pos hv.symm]
        exact h
    · subst hlr
      obtain ⟨v, hv1, hv2⟩ := lexLess_of_less ls rs hsl hsr hprs h
      have huv : l.1 < v := above_lt_of_expOf_pos har (by omega)
      refine ⟨v, fun w hw => ?_, ?_⟩
      · rw [expOf_cons, expOf_cons]
        split
        · rfl
        · exact hv1 w hw
      · rw [expOf_cons, if_neg (by omega), expOf_cons, if_neg (by omega)]
        exact hv2

theorem less_of_lexLess : ∀ (l r : List (Nat × Nat)),
    SortedVars l → SortedVars r → PosExp l →
    LexLess l r → lexicalCompareLoop l r = CompareResult.LESS
  | [], [], _, _, _, h => by
    obtain ⟨v, _, h⟩ := h
    simp [expOf_nil] at h
  | l :: ls, [], _, _, _, h => by
    obtain ⟨v, _, h⟩ := h
    rw [expOf_nil] at h
    omega
  | [], _ :: _, _, _, _, _ => by simp [lexicalCompareLoop]
  | l :: ls, r :: rs, hl, hr, hpl, h => by
    obtain ⟨hal, hsl⟩ := (sortedVars_cons l ls).1 hl
    obtain ⟨har, hsr⟩ := (sortedVars_cons r rs).1 hr
    obtain ⟨hl0, hpls⟩ := (posExp_cons l ls).1 hpl
    obtain ⟨v, hv1, hv2⟩ := h
    rw [lexLoop_less_cons]
    rcases lt_trichotomy l.1 r.1 with hlt | heq | hgt
    · exfalso
      have hr0 : expOf (r :: rs) l.1 = 0 :=
        expOf_eq_zero_of_above (above_of_sorted_cons hlt hr) (le_refl _)
      rcases lt_trichotomy v l.1 with h1 | h1 | h1
      · rw [expOf_cons, if_neg (by omega), expOf_eq_zero_of_above hal (by omega),
          expOf_cons, if_neg (by omega), expOf_eq_zero_of_above har (by omega)] at hv2
        omega
      · rw [h1, hr0] at hv2
        omega
      · have := hv1 l.1 h1
        rw [hr0, expOf_cons, if_pos rfl] at this
        omega
    · rcases lt_trichotomy v l.1 with h1 | h1 | h1
      · exfalso
        rw [expOf_cons, if_neg (by omega), expOf_eq_zero_of_above hal (by omega),
          expOf_cons, if_neg (by omega), expOf_eq_zero_of_above har (by omega)] at hv2
        omega
      · left; right
        rw [h1, expOf_cons, if_pos rfl, expOf_cons, if_pos heq.symm] at hv2
        exact ⟨heq, hv2⟩
      · right
        have he : l.2 = r.2 := by
          have := hv1 l.1 h1
          rwa [expOf_cons, if_pos rfl, expOf_cons, if_pos heq.symm] at this
        refine ⟨Prod.ext heq he, less_of_lexLess ls rs hsl hsr hpls ⟨v, fun w hw => ?_, ?_⟩⟩
        · by_cases hwl : l.1 = w
          · rw [expOf_eq_zero_of_above hal (le_of_eq hwl.symm),
              expOf_eq_zero_of_above har (by omega)]
          · have := hv1 w hw
            rwa [expOf_cons, if_neg hwl, expOf_cons, if_neg (by omega)] at this
        · rwa [expOf_cons, if_neg (by omega), expOf_cons, if_neg (by omega)] at hv2
    · left; left
      exact hgt

namespace Monomial

theorem lexLess_mul {a b c : Monomial} (ha : a.Consistent) (hb : b.Consistent)
    (hc : c.Consistent) (hac : a.mTotalDegree + c.mTotalDegree < expMod)
    (hbc : b.mTotalDegree + c.mTotalDegree < expMod)
    (h : LexLess a.mExponents b.mExponents) :
    LexLess (a.mul c).mExponents (b.mul c).mExponents := by
  obtain ⟨v, hv1, hv2⟩ := h
  have ea := fun w => exponentOfVariable_mul ha hc hac w
  have eb := fun w => exponentOfVariable_mul hb hc hbc w
  unfold exponentOfVariable at ea eb
  refine ⟨v, fun w hw => ?_, ?_⟩
  · rw [ea w, eb w, hv1 w hw]
  · rw [ea v, eb v]
    omega

theorem compareLexical_mul {a b c : Monomial} (ha : a.Consistent) (hb : b.Consistent)
    (hc : c.Consistent) (hac : a.mTotalDegree + c.mTotalDegree < expMod)
    (hbc : b.mTotalDegree + c.mTotalDegree < expMod)
    (h : lexicalCompareLoop a.mExponents b.mExponents = CompareResult.LESS) :
    lexicalCompareLoop (a.mul c).mExponents (b.mul c).mExponents = CompareResult.LESS := by
  have cac := consistent_mul ha hc hac
  have cbc := consistent_mul hb hc hbc
  exact less_of_lexLess _ _ cac.1 cbc.1 cac.2.1
    (lexLess_mul ha hb hc hac hbc (lexLess_of_less _ _ ha.1 hb.1 hb.2.1 h))

/-- C11, as stated, fails: `x` is less than `x^(2^32-1)` in both orders, and after the
product with `x` the right side has wrapped around to exponent `0` and total degree
`0`, so that `x*x` compares `GREATER`. -/
theorem compare_mul_counterexample :
    (fromVariable 0 1).Consistent ∧ (fromVariable 0 4294967295).Consistent ∧
      compareLexical (fromVariable 0 1) (fromVariable 0 4294967295) = CompareResult.LESS ∧
      compareLexical ((fromVariable 0 1).mul (fromVariable 0 1))
        ((fromVariable 0 4294967295).mul (fromVariable 0 1)) = CompareResult.GREATER ∧
      (fromVariable 0 1).lt (fromVariable 0 4294967295) = true ∧
      ((fromVariable 0 1).mul (fromVariable 0 1)).lt
        ((fromVariable 0 4294967295).mul (fromVariable 0 1)) = false := by
  refine ⟨by decide, by decide, by decide, ?_, by decide, ?_⟩
  · simp [Monomial.mul, fromVariable, mulLoop, uadd, expMod, compareLexical, lexicalCompare,
      lexicalCompareLoop]
  · simp [Monomial.mul, fromVariable, mulLoop, uadd, expMod, Monomial.lt,
      compareGradedLexical]

/-- C11 (amended): both orders are consistent with the product while the degrees fit
the type `unsigned`. For consistent monomials `a`, `b`, `c` with
`tdeg(a) + tdeg(c) < 2^32` and `tdeg(b) + tdeg(c) < 2^32`: when `compareLexical(a, b)`
is `LESS`, so is `compareLexical(a*c, b*c)`, and `a < b` implies `a*c < b*c`. -/
theorem compare_mul (a b c : Monomial) (ha : a.Consistent) (hb : b.Consistent)
    (hc : c.Consistent) (hac : a.tdeg + c.tdeg < expMod) (hbc : b.tdeg + c.tdeg < expMod) :
    (compareLexical a b = CompareResult.LESS →
        compareLexical (a.mul c) (b.mul c) = CompareResult.LESS) ∧
      (a.lt b = true → (a.mul c).lt (b.mul c) = true) := by
  refine ⟨compareLexical_mul ha hb hc hac hbc, ?_⟩
  intro h
  have h' : compareGradedLexical a b = CompareResult.LESS := by
    simpa [Monomial.lt] using h
  have goal : compareGradedLexical (a.mul c) (b.mul c) = CompareResult.LESS := by
    rw [compareGradedLexical_less_iff] at h' ⊢
    rw [tdeg_mul ha hc hac, tdeg_mul hb hc hbc]
    rcases h' with h1 | ⟨h1, h2⟩
    · left; omega
    · right
      exact ⟨by omega, compareLexical_mul ha hb hc hac hbc h2⟩
  simpa [Monomial.lt] using goal

/-- C11 (amended) at `a = x*y^2`, `b = x^2*y`, `c = y*z`. -/
theorem compare_mul_witness :
    compareLexical ((⟨[(0, 1), (1, 2)], 3⟩ : Monomial).mul ⟨[(1, 1), (2, 1)], 2⟩)
        ((⟨[(0, 2), (1, 1)], 3⟩ : Monomial).mul ⟨[(1, 1), (2, 1)], 2⟩) = CompareResult.LESS ∧
      ((⟨[(0, 1), (1, 2)], 3⟩ : Monomial).mul ⟨[(1, 1), (2, 1)], 2⟩).lt
        ((⟨[(0, 2), (1, 1)], 3⟩ : Monomial).mul ⟨[(1, 1), (2, 1)], 2⟩) = true := by
  have h := compare_mul ⟨[(0, 1), (1, 2)], 3⟩ ⟨[(0, 2), (1, 1)], 3⟩ ⟨[(1, 1), (2, 1)], 2⟩
    (by decide) (by decide) (by decide) (by decide) (by decide)
  exact ⟨h.1 (by decide), h.2 (by decide)⟩

end Monomial

/-! The validity check -/

theorem uadd_lt (x y : Nat) : uadd x y < expMod :=
  Nat.mod_lt _ (by unfold expMod; omega)

namespace Monomial

/-- What a run of the validity loop that does not return early has checked. -/
theorem isConsistentLoop_some : ∀ (l : List (Nat × Nat)) (t last t' : Nat),
    t < expMod → isConsistentLoop l t last = some t' →
    PosExp l ∧ (∀ p ∈ l, last ≤ p.1) ∧ l.Pairwise (fun p q => p.1 ≤ q.1) ∧
      t' = (t + sumExp l) % expMod
  | [], t, last, t', ht, h => by
    simp only [isConsistentLoop, Option.some.injEq] at h
    subst h
    refine ⟨by simp [PosExp], by simp, List.Pairwise.nil, ?_⟩
    rw [sumExp_nil, Nat.add_zero, Nat.mod_eq_of_lt ht]
  | ve :: rest, t, last, t', _, h => by
    rw [isConsistentLoop] at h
    split at h
    · cases h
    · next h0 =>
      split at h
      · cases h
      · next hlast =>
        obtain ⟨h1, h2, h3, h4⟩ :=
          isConsistentLoop_some rest (uadd t ve.2) ve.1 t' (uadd_lt _ _) h
        refine ⟨?_, ?_, ?_, ?_⟩
        · rw [posExp_cons]
          exact ⟨by omega, h1⟩
        · intro p hp
          rcases List.mem_cons.1 hp with hp | hp
          · rw [hp]; omega
          · have := h2 p hp
            omega
        · rw [List.pairwise_cons]
          exact ⟨h2, h3⟩
        · rw [h4, sumExp_cons]
          unfold uadd expMod
          omega

/-- The validity loop runs through on a sorted list with positive exponents. -/
theorem isConsistentLoop_of_sorted : ∀ (l : List (Nat × Nat)) (t last : Nat),
    SortedVars l → PosExp l → (∀ p ∈ l, last ≤ p.1) → t + sumExp l < expMod →
    isConsistentLoop l t last = some (t + sumExp l)
  | [], t, last, _, _, _, _ => by
    rw [isConsistentLoop, sumExp_nil, Nat.add_zero]
  | ve :: rest, t, last, hs, hp, hlast, hb => by
    obtain ⟨ha, hs'⟩ := (sortedVars_cons ve rest).1 hs
    obtain ⟨h0, hp'⟩ := (posExp_cons ve rest).1 hp
    rw [sumExp_cons] at hb
    have hl := hlast ve (List.mem_cons_self _ _)
    rw [isConsistentLoop, if_neg (by omega), if_neg (by omega), uadd_of_lt (by omega),
      isConsistentLoop_of_sorted rest (t + ve.2) ve.1 hs' hp'
        (fun p hp => le_of_lt (ha p hp)) (by omega),
      sumExp_cons]
    congr 1
    omega

theorem isConsistent_of_consistent {m : Monomial} (h : m.Consistent) :
    m.isConsistent = true := by
  obtain ⟨h1, h2, h3, h4⟩ := h
  unfold isConsistent
  rw [isConsistentLoop_of_sorted m.mExponents 0 0 h1 h2 (fun _ _ => Nat.zero_le _)
    (by omega)]
  simp only [Nat.zero_add]
  rw [if_neg (by simp [h3])]

theorem consistent_of_isConsistent {m : Monomial}
    (hn : (m.mExponents.map Prod.fst).Nodup) (hb : sumExp m.mExponents < expMod)
    (h : m.isConsistent = true) : m.Consistent := by
  unfold isConsistent at h
  cases hl : isConsistentLoop m.mExponents 0 0 with
  | none => rw [hl] at h; cases h
  | some t =>
    rw [hl] at h
    obtain ⟨h1, _, h3, h4⟩ :=
      isConsistentLoop_some m.mExponents 0 0 t (by unfold expMod; omega) hl
    have ht : t = m.mTotalDegree := by
      by_contra hne
      simp [hne] at h
    rw [Nat.zero_add, Nat.mod_eq_of_lt hb] at h4
    refine ⟨?_, h1, by omega, by omega⟩
    have hne : m.mExponents.Pairwise (fun p q => p.1 ≠ q.1) := List.pairwise_map.1 hn
    exact (h3.and hne).imp (fun ⟨h5, h6⟩ => lt_of_le_of_ne h5 h6)

/-- The validity check accepts a monomial in which a variable occurs twice: the
comparison with `lastVarIndex` is `<`, so that equal neighbours pass. -/
theorem isConsistent_repeated_variable :
    (⟨[(1, 1), (1, 1)], 2⟩ : Monomial).isConsistent = true ∧
      ¬ SortedVars (⟨[(1, 1), (1, 1)], 2⟩ : Monomial).mExponents := by
  refine ⟨by decide, ?_⟩
  unfold SortedVars
  decide

/-- C13, as stated, fails: for `x^(2^32-1) * y` with cached total degree `0` the check
returns true, since it adds the exponents up in an `unsigned`, and the cached total
degree is not the sum `2^32` of the exponents. -/
theorem isConsistent_counterexample :
    (⟨[(0, 4294967295), (1, 1)], 0⟩ : Monomial).isConsistent = true ∧
      (⟨[(0, 4294967295), (1, 1)], 0⟩ : Monomial).mTotalDegree ≠
        sumExp (⟨[(0, 4294967295), (1, 1)], 0⟩ : Monomial).mExponents := by
  decide

/-- C13 (amended): `isConsistent()` returns true for every monomial that satisfies the
data invariant; and for a monomial in which no variable occurs twice and whose
exponents add up to a value of `unsigned` (below `2^32`), it returns true exactly when
the monomial satisfies the data invariant: variables strictly increasing, every
exponent positive, cached total degree equal to the sum of the exponents. -/
theorem isConsistent_iff (m : Monomial) :
    (m.Consistent → m.isConsistent = true) ∧
      ((m.mExponents.map Prod.fst).Nodup → sumExp m.mExponents < expMod →
        (m.isConsistent = true ↔ m.Consistent)) :=
  ⟨isConsistent_of_consistent,
    fun hn hb => ⟨consistent_of_isConsistent hn hb, isConsistent_of_consistent⟩⟩

/-- C13 (amended) at `x^2*y` with cached total degree `3`. -/
theorem isConsistent_iff_witness :
    (⟨[(0, 2), (1, 1)], 3⟩ : Monomial).isConsistent = true ∧
      ((⟨[(0, 2), (1, 1)], 3⟩ : Monomial).isConsistent = true ↔
        (⟨[(0, 2), (1, 1)], 3⟩ : Monomial).Consistent) := by
  have h := isConsistent_iff ⟨[(0, 2), (1, 1)], 3⟩
  exact ⟨h.1 (by decide), h.2 (by decide) (by decide)⟩

/-! Claims on equality and on concrete monomials -/

/-- C12: equality is exact and canonical. For consistent monomials `a` and `b`,
`a == b` holds exactly when the two exponent vectors are identical, which holds exactly
when every variable has the same exponent in `a` and in `b`; and two monomials with
different total degrees are never equal. -/
theorem eq_canonical (a b : Monomial) (ha : a.Consistent) (hb : b.Consistent) :
    (a.eq b = true ↔ a.mExponents = b.mExponents) ∧
      (a.mExponents = b.mExponents ↔
        ∀ v : Variable, a.exponentOfVariable v = b.exponentOfVariable v) ∧
      (a.tdeg ≠ b.tdeg → a.eq b = false) := by
  refine ⟨eq_iff_exps ha hb, ⟨fun h v => ?_, fun h => ?_⟩, fun h => ?_⟩
  · unfold exponentOfVariable
    rw [h]
  · exact eq_of_expOf_eq _ _ ha.1 ha.2.1 hb.1 hb.2.1 h
  · unfold Monomial.eq
    rw [if_pos (show a.mTotalDegree ≠ b.mTotalDegree from h)]

/-- C12 at `a = x^2*y`, `b = x*y^2`. -/
theorem eq_canonical_witness :
    ((⟨[(0, 2), (1, 1)], 3⟩ : Monomial).eq ⟨[(0, 1), (1, 2)], 3⟩ = true ↔
        (⟨[(0, 2), (1, 1)], 3⟩ : Monomial).mExponents =
          (⟨[(0, 1), (1, 2)], 3⟩ : Monomial).mExponents) ∧
      ((⟨[(0, 2), (1, 1)], 3⟩ : Monomial).mExponents =
          (⟨[(0, 1), (1, 2)], 3⟩ : Monomial).mExponents ↔
        ∀ v : Variable, (⟨[(0, 2), (1, 1)], 3⟩ : Monomial).exponentOfVariable v =
          (⟨[(0, 1), (1, 2)], 3⟩ : Monomial).exponentOfVariable v) :=
  ⟨(eq_canonical ⟨[(0, 2), (1, 1)], 3⟩ ⟨[(0, 1), (1, 2)], 3⟩ (by decide) (by decide)).1,
    (eq_canonical ⟨[(0, 2), (1, 1)], 3⟩ ⟨[(0, 1), (1, 2)], 3⟩ (by decide) (by decide)).2.1⟩

/-- C14: for variables `x < y`, the monomial `x^2*y` compares `GREATER` than `x*y^2`
under `compareLexical` and under `compareGradedLexical`; both monomials, built by the
constructor and the product, have total degree `3`. -/
theorem compare_concrete (x y : Variable) (h : x < y) :
    compareLexical ((fromVariable x 2).mul (fromVariable y 1))
        ((fromVariable x 1).mul (fromVariable y 2)) = CompareResult.GREATER ∧
      compareGradedLexical ((fromVariable x 2).mul (fromVariable y 1))
        ((fromVariable x 1).mul (fromVariable y 2)) = CompareResult.GREATER ∧
      ((fromVariable x 2).mul (fromVariable y 1)).tdeg = 3 ∧
      ((fromVariable x 1).mul (fromVariable y 2)).tdeg = 3 := by
  have hne : ¬ x = y := Nat.ne_of_lt h
  have hgt : ¬ x > y := Nat.lt_asymm h
  have h1 : (fromVariable x 2).mul (fromVariable y 1) = ⟨[(x, 2), (y, 1)], 3⟩ := by
    simp [Monomial.mul, fromVariable, mulLoop, uadd, expMod, hne, hgt]
  have h2 : (fromVariable x 1).mul (fromVariable y 2) = ⟨[(x, 1), (y, 2)], 3⟩ := by
    simp [Monomial.mul, fromVariable, mulLoop, uadd, expMod, hne, hgt]
  rw [h1, h2]
  refine ⟨?_, ?_, rfl, rfl⟩
  · simp [compareLexical, lexicalCompare, lexicalCompareLoop]
  · simp [compareGradedLexical, lexicalCompare, lexicalCompareLoop]

/-- C14 at `x = 0`, `y = 1`. -/
theorem compare_concrete_witness :
    compareLexical ((fromVariable 0 2).mul (fromVariable 1 1))
        ((fromVariable 0 1).mul (fromVariable 1 2)) = CompareResult.GREATER ∧
      compareGradedLexical ((fromVariable 0 2).mul (fromVariable 1 1))
        ((fromVariable 0 1).mul (fromVariable 1 2)) = CompareResult.GREATER :=
  ⟨(compare_concrete 0 1 (by decide)).1, (compare_concrete 0 1 (by decide)).2.1⟩

/-- C15: for a variable `x` and exponents `m, n ≥ 1` (values of `unsigned`),
`Monomial(x, m).dividedBy(Monomial(x, n))` is the null result when `m < n`, is
`Monomial(x, m - n)` when `m > n`, and is the constant monomial, with empty exponent
vector and total degree `0`, when `m = n`. -/
theorem dividedBy_single (x : Variable) (m n : Nat) (hm : 1 ≤ m) (hn : 1 ≤ n)
    (hmM : m < expMod) (hnM : n < expMod) :
    (m < n → (fromVariable x m).dividedBy (fromVariable x n) = none) ∧
      (n < m → (fromVariable x m).dividedBy (fromVariable x n) =
        some (fromVariable x (m - n))) ∧
      (m = n → (fromVariable x m).dividedBy (fromVariable x n) = some ⟨[], 0⟩ ∧
        (⟨[], 0⟩ : Monomial).isConstant = true) := by
  refine ⟨fun h => ?_, fun h => ?_, fun h => ⟨?_, rfl⟩⟩
  · unfold Monomial.dividedBy fromVariable
    rw [if_pos (Or.inl h)]
  · have hs : usub m n = m - n := usub_of_le hmM (by omega)
    have h1 : ¬ (usub m n > m) := by rw [hs]; omega
    have h2 : usub m n > 0 := by rw [hs]; omega
    unfold Monomial.dividedBy fromVariable
    simp only [List.length_singleton, gt_iff_lt, lt_self_iff_false, or_false]
    rw [if_neg (by omega), dividedByLoop_cons_cons]
    simp only [if_true]
    rw [if_neg h1, if_pos h2, dividedByLoop_nil_left, hs]
    rfl
  · subst h
    have hs : usub m m = 0 := by
      unfold usub expMod at *
      omega
    unfold Monomial.dividedBy fromVariable
    simp only [List.length_singleton, gt_iff_lt, lt_self_iff_false, or_false, if_false]
    rw [dividedByLoop_cons_cons]
    simp only [if_true]
    rw [hs, if_neg (by omega), if_neg (by omega), dividedByLoop_nil_left]
    rfl

/-- C15 at the exponents of the spec: `x^2 / x^3` is not divisible, `x^3 / x^2 = x`, and
`x^2 / x^2` is the constant monomial. -/
theorem dividedBy_single_witness :
    (fromVariable 0 2).dividedBy (fromVariable 0 3) = none ∧
      (fromVariable 0 3).dividedBy (fromVariable 0 2) = some (fromVariable 0 (3 - 2)) ∧
      (fromVariable 0 2).dividedBy (fromVariable 0 2) = some ⟨[], 0⟩ :=
  ⟨(dividedBy_single 0 2 3 (by decide) (by decide) (by decide) (by decide)).1 (by decide),
    (dividedBy_single 0 3 2 (by decide) (by decide) (by decide) (by decide)).2.1 (by decide),
    ((dividedBy_single 0 2 2 (by decide) (by decide) (by decide) (by decide)).2.2 rfl).1⟩

end Monomial

/-! The sorted list of a `std::set` -/

namespace StdSet

variable {S : Type}

theorem insert_nil (lt : S → S → Bool) (x : S) : insert lt x [] = ([x], 0, true) := rfl

theorem insert_cons (lt : S → S → Bool) (x e : S) (rest : List S) :
    insert lt x (e :: rest) =
      if lt e x then
        (e :: (insert lt x rest).1, (insert lt x rest).2.1 + 1, (insert lt x rest).2.2)
      else if lt x e then (x :: e :: rest, 0, true)
      else (e :: rest, 0, false) := rfl

/-- What `insert` does to a sorted list: the list stays sorted; when the flag is
false the list is unchanged and the position returned holds an element with the key of
`x`; when the flag is true the position returned holds `x`, the new list is the old one
with `x` added, and no element of the old list has the key of `x`. -/
theorem insert_spec (lt : S → S → Bool)
    (htrans : ∀ a b c, lt a b = true → lt b c = true → lt a c = true) (x : S) :
    ∀ l : List S, l.Pairwise (fun a b => lt a b = true) →
      (insert lt x l).1.Pairwise (fun a b => lt a b = true) ∧
      ((insert lt x l).2.2 = false →
        (insert lt x l).1 = l ∧
          ∃ e, l[(insert lt x l).2.1]? = some e ∧ Equivalent lt e x) ∧
      ((insert lt x l).2.2 = true →
        (insert lt x l).1[(insert lt x l).2.1]? = some x ∧
          (insert lt x l).1.Perm (x :: l) ∧ ∀ e ∈ l, ¬ Equivalent lt e x) ∧
      (∀ y ∈ (insert lt x l).1, y = x ∨ y ∈ l)
  | [], _ => by
    rw [insert_nil]
    refine ⟨List.pairwise_singleton _ _, fun h => by simp at h, fun _ => ?_, ?_⟩
    · exact ⟨rfl, List.Perm.refl _, fun e he => by cases he⟩
    · intro y hy
      left
      simpa using hy
  | e :: rest, hl => by
    obtain ⟨he, hrest⟩ := List.pairwise_cons.1 hl
    obtain ⟨ih1, ih2, ih3, ih4⟩ := insert_spec lt htrans x rest hrest
    rw [insert_cons]
    by_cases h1 : lt e x = true
    · rw [if_pos h1]
      refine ⟨?_, fun hb => ?_, fun hb => ?_, ?_⟩
      · rw [List.pairwise_cons]
        refine ⟨fun y hy => ?_, ih1⟩
        rcases ih4 y hy with hy | hy
        · rw [hy]; exact h1
        · exact he y hy
      · obtain ⟨h2, e', h3, h4⟩ := ih2 hb
        refine ⟨by show e :: _ = e :: rest; rw [h2], e', ?_, h4⟩
        show (e :: rest)[(insert lt x rest).2.1 + 1]? = some e'
        rw [List.getElem?_cons_succ]
        exact h3
      · obtain ⟨h2, h3, h4⟩ := ih3 hb
        refine ⟨?_, ?_, ?_⟩
        · show (e :: (insert lt x rest).1)[(insert lt x rest).2.1 + 1]? = some x
          rw [List.getElem?_cons_succ]
          exact h2
        · show (e :: (insert lt x rest).1).Perm (x :: e :: rest)
          exact ((List.Perm.cons e h3).trans (List.Perm.swap x e rest))
        · intro e' he'
          rcases List.mem_cons.1 he' with he' | he'
          · rw [he']
            intro hq
            rw [hq.1] at h1
            cases h1
          · exact h4 e' he'
      · intro y hy
        rcases List.mem_cons.1 hy with hy | hy
        · right; rw [hy]; exact List.mem_cons_self _ _
        · rcases ih4 y hy with hy | hy
          · left; exact hy
          · right; exact List.mem_cons_of_mem _ hy
    · rw [if_neg h1]
      by_cases h2 : lt x e = true
      · rw [if_pos h2]
        refine ⟨?_, fun hb => by simp at hb, fun _ => ⟨rfl, List.Perm.refl _, ?_⟩, ?_⟩
        · rw [List.pairwise_cons]
          refine ⟨fun y hy => ?_, hl⟩
          rcases List.mem_cons.1 hy with hy | hy
          · rw [hy]; exact h2
          · exact htrans x e y h2 (he y hy)
        · intro e' he' hq
          rcases List.mem_cons.1 he' with he' | he'
          · rw [he'] at hq
            have h := hq.2
            rw [h2] at h
            cases h
          · have h := hq.2
            rw [htrans x e e' h2 (he e' he')] at h
            cases h
        · intro y hy
          rcases List.mem_cons.1 hy with hy | hy
          · left; exact hy
          · right; exact hy
      · rw [if_neg h2]
        refine ⟨hl, fun _ => ⟨rfl, e, by simp, ?_, ?_⟩, fun hb => by simp at hb, fun y hy => Or.inr hy⟩
        · simpa using h1
        · simpa using h2

theorem eraseKey_sublist (lt : S → S → Bool) (x : S) :
    ∀ l : List S, (eraseKey lt x l).Sublist l
  | [] => List.Sublist.refl _
  | e :: rest => by
    rw [eraseKey]
    split
    · exact (eraseKey_sublist lt x rest).cons₂ e
    · split
      · exact List.Sublist.refl _
      · exact List.sublist_cons_self e rest

theorem insertRange_sorted (lt : S → S → Bool)
    (htrans : ∀ a b c, lt a b = true → lt b c = true → lt a c = true) :
    ∀ (range l : List S), l.Pairwise (fun a b => lt a b = true) →
      (insertRange lt range l).Pairwise (fun a b => lt a b = true)
  | [], l, h => h
  | x :: range, l, h => by
    show (insertRange lt range (insert lt x l).1).Pairwise _
    exact insertRange_sorted lt htrans range _ (insert_spec lt htrans x l h).1

end StdSet

/-! The value-order store of a sample set -/

namespace SampleSet

variable {S : Type}

/-- The value-order store stays sorted under every call. -/
theorem step_samples_sorted (less : S → S → Bool) (comp : SampleOrdering → S → S → Bool)
    (hless : StrictWeakOrder less) (s s' : SampleSet S) (c : SampleSetCall S)
    (hs : s.mSamples.Pairwise (fun a b => less a b = true))
    (h : s.step less comp c = some s') :
    s'.mSamples.Pairwise (fun a b => less a b = true) := by
  cases c with
  | insert r =>
    simp only [step, Option.some.injEq] at h
    subst h
    exact (StdSet.insert_spec less hless.trans r s.mSamples hs).1
  | remove position =>
    simp only [step, remove] at h
    cases hx : s.mSamples[position]? with
    | none => rw [hx] at h; cases h
    | some x =>
      rw [hx] at h
      simp only [Option.map_some', Option.some.injEq] at h
      subst h
      exact hs.sublist (List.eraseIdx_sublist _ _)
  | next ordering =>
    simp only [step, nextWith, Option.some.injEq] at h
    subst h
    unfold resetOrdering
    split
    · exact hs
    · exact hs

theorem run_samples_sorted (less : S → S → Bool) (comp : SampleOrdering → S → S → Bool)
    (hless : StrictWeakOrder less) :
    ∀ (calls : List (SampleSetCall S)) (s s' : SampleSet S),
      s.mSamples.Pairwise (fun a b => less a b = true) →
      s.run less comp calls = some s' →
      s'.mSamples.Pairwise (fun a b => less a b = true)
  | [], s, s', hs, h => by
    simp only [run, Option.some.injEq] at h
    subst h
    exact hs
  | c :: cs, s, s', hs, h => by
    rw [run] at h
    cases hc : s.step less comp c with
    | none => rw [hc] at h; cases h
    | some s₁ =>
      rw [hc] at h
      exact run_samples_sorted less comp hless cs s₁ s'
        (step_samples_sorted less comp hless s s₁ c hs hc) h

/-- C16: `insert(r)` on a sample set whose value-order store is sorted. When a sample
equal to `r` under the value order is a member, the flag returned is false, the
iterator returned designates that member and the value-order contents are unchanged;
otherwise the flag is true, the iterator designates `r`, and the value-order contents
are the old contents plus `r`, again sorted. -/
theorem insert_result (less : S → S → Bool) (comp : SampleOrdering → S → S → Bool)
    (hless : StrictWeakOrder less) (s : SampleSet S) (r : S)
    (hs : s.mSamples.Pairwise (fun a b => less a b = true)) :
    ((∃ e ∈ s.mSamples, Equivalent less e r) →
        (s.insert less comp r).2.2 = false ∧
        (s.insert less comp r).1.mSamples = s.mSamples ∧
        ∃ e, s.mSamples[(s.insert less comp r).2.1]? = some e ∧ Equivalent less e r) ∧
      ((¬ ∃ e ∈ s.mSamples, Equivalent less e r) →
        (s.insert less comp r).2.2 = true ∧
        (s.insert less comp r).1.mSamples[(s.insert less comp r).2.1]? = some r ∧
        (s.insert less comp r).1.mSamples.Perm (r :: s.mSamples) ∧
        (s.insert less comp r).1.mSamples.Pairwise (fun a b => less a b = true)) := by
  obtain ⟨h1, h2, h3, _⟩ := StdSet.insert_spec less hless.trans r s.mSamples hs
  constructor
  · rintro ⟨e, he, heq⟩
    have hb : (StdSet.insert less r s.mSamples).2.2 = false := by
      by_contra hb
      have hb' : (StdSet.insert less r s.mSamples).2.2 = true := by simpa using hb
      exact (h3 hb').2.2 e he heq
    exact ⟨hb, (h2 hb).1, (h2 hb).2⟩
  · intro hne
    have hb : (StdSet.insert less r s.mSamples).2.2 = true := by
      by_contra hb
      have hb' : (StdSet.insert less r s.mSamples).2.2 = false := by simpa using hb
      obtain ⟨_, e, he, heq⟩ := h2 hb'
      exact hne ⟨e, List.getElem?_mem he, heq⟩
    exact ⟨hb, (h3 hb).1, (h3 hb).2.1, h1⟩

end SampleSet

/-! The comparator of the priority store -/

namespace SampleComparator

variable {S : Type}

/-- The cascade of the comparator compares the classes first and the values next. -/
theorem call_iff (ops : SampleOps S) (ordering : SampleOrdering) (a b : S) :
    call ops ordering a b = true ↔
      classKey ops ordering a < classKey ops ordering b ∨
        (classKey ops ordering a = classKey ops ordering b ∧ ops.less a b = true) := by
  cases ordering <;>
    simp only [call, classKey, compareInt, compareRat, compareRoot, compare] <;>
    cases ops.isNumeric a <;> cases ops.isInteger a <;> cases ops.isRoot a <;>
    cases ops.isNumeric b <;> cases ops.isInteger b <;> cases ops.isRoot b <;>
    simp

/-- The cascade is a strict weak order when the value order is one. -/
theorem call_strictWeakOrder (ops : SampleOps S) (h : StrictWeakOrder ops.less)
    (ordering : SampleOrdering) : StrictWeakOrder (call ops ordering) := by
  refine ⟨fun a => ?_, fun a b c hab hbc => ?_, fun a b c hac => ?_⟩
  · cases hc : call ops ordering a a with
    | false => rfl
    | true =>
      rw [call_iff] at hc
      rcases hc with hc | ⟨_, hc⟩
      · omega
      · rw [h.irrefl] at hc
        cases hc
  · rw [call_iff] at hab hbc ⊢
    rcases hab with hab | ⟨hab, hab'⟩ <;> rcases hbc with hbc | ⟨hbc, hbc'⟩
    · left; omega
    · left; omega
    · left; omega
    · right
      exact ⟨by omega, h.trans a b c hab' hbc'⟩
  · rw [call_iff] at hac
    rw [call_iff, call_iff]
    rcases hac with hac | ⟨hac, hac'⟩
    · rcases Nat.lt_trichotomy (classKey ops ordering a) (classKey ops ordering b)
        with hab | hab | hab
      · left; left; exact hab
      · right; left; omega
      · right; left; omega
    · rcases Nat.lt_trichotomy (classKey ops ordering a) (classKey ops ordering b)
        with hab | hab | hab
      · left; left; exact hab
      · rcases h.incomp a b c hac' with h1 | h1
        · left; right; exact ⟨hab, h1⟩
        · right; right; exact ⟨by omega, h1⟩
      · right; left; omega

end SampleComparator

theorem scenarioOps_strictWeakOrder : StrictWeakOrder scenarioOps.less := by
  refine ⟨fun a => ?_, fun a b c hab hbc => ?_, fun a b c hac => ?_⟩
  · simp [scenarioOps]
  · simp only [scenarioOps, decide_eq_true_eq] at hab hbc ⊢
    omega
  · simp only [scenarioOps, decide_eq_true_eq] at hac ⊢
    omega

/-! The priority store of a sample set -/

namespace SampleSet

variable {S : Type}

/-- The priority store stays sorted in the order of its comparator under every
call. -/
theorem step_queue_sorted (less : S → S → Bool) (comp : SampleOrdering → S → S → Bool)
    (hcomp : ∀ o, StrictWeakOrder (comp o)) (s s' : SampleSet S) (c : SampleSetCall S)
    (hs : s.mQueue.Pairwise (fun a b => comp s.ordering a b = true))
    (h : s.step less comp c = some s') :
    s'.mQueue.Pairwise (fun a b => comp s'.ordering a b = true) := by
  cases c with
  | insert r =>
    simp only [step, Option.some.injEq] at h
    subst h
    exact (StdSet.insert_spec (comp s.ordering) (hcomp s.ordering).trans r s.mQueue hs).1
  | remove position =>
    simp only [step, remove] at h
    cases hx : s.mSamples[position]? with
    | none => rw [hx] at h; cases h
    | some x =>
      rw [hx] at h
      simp only [Option.map_some', Option.some.injEq] at h
      subst h
      exact hs.sublist (StdSet.eraseKey_sublist _ _ _)
  | next ordering =>
    simp only [step, nextWith, Option.some.injEq] at h
    subst h
    unfold resetOrdering
    split
    · exact StdSet.insertRange_sorted (comp ordering) (hcomp ordering).trans s.mQueue []
        List.Pairwise.nil
    · exact hs

theorem run_queue_sorted (less : S → S → Bool) (comp : SampleOrdering → S → S → Bool)
    (hcomp : ∀ o, StrictWeakOrder (comp o)) :
    ∀ (calls : List (SampleSetCall S)) (s s' : SampleSet S),
      s.mQueue.Pairwise (fun a b => comp s.ordering a b = true) →
      s.run less comp calls = some s' →
      s'.mQueue.Pairwise (fun a b => comp s'.ordering a b = true)
  | [], s, s', hs, h => by
    simp only [run, Option.some.injEq] at h
    subst h
    exact hs
  | c :: cs, s, s', hs, h => by
    rw [run] at h
    cases hc : s.step less comp c with
    | none => rw [hc] at h; cases h
    | some s₁ =>
      rw [hc] at h
      exact run_queue_sorted less comp hcomp cs s₁ s'
        (step_queue_sorted less comp hcomp s s₁ c hs hc) h

/-- C16 on the sample set that holds the negative root of `x^2 - 2` and `1`: the
positive root is new, and `1` is already a member. -/
theorem insert_result_witness :
    ((⟨[ScenarioSample.negRootOfTwo, ScenarioSample.one],
          [ScenarioSample.one, ScenarioSample.negRootOfTwo],
          SampleOrdering.IntRatRoot⟩ : SampleSet ScenarioSample).insert scenarioOps.less
        (SampleComparator.call scenarioOps) ScenarioSample.posRootOfTwo).2.2 = true ∧
      ((⟨[ScenarioSample.negRootOfTwo, ScenarioSample.one],
          [ScenarioSample.one, ScenarioSample.negRootOfTwo],
          SampleOrdering.IntRatRoot⟩ : SampleSet ScenarioSample).insert scenarioOps.less
        (SampleComparator.call scenarioOps) ScenarioSample.one).2.2 = false := by
  have h1 := insert_result scenarioOps.less (SampleComparator.call scenarioOps)
    scenarioOps_strictWeakOrder
    ⟨[ScenarioSample.negRootOfTwo, ScenarioSample.one],
      [ScenarioSample.one, ScenarioSample.negRootOfTwo], SampleOrdering.IntRatRoot⟩
    ScenarioSample.posRootOfTwo (by decide)
  have h2 := insert_result scenarioOps.less (SampleComparator.call scenarioOps)
    scenarioOps_strictWeakOrder
    ⟨[ScenarioSample.negRootOfTwo, ScenarioSample.one],
      [ScenarioSample.one, ScenarioSample.negRootOfTwo], SampleOrdering.IntRatRoot⟩
    ScenarioSample.one (by decide)
  exact ⟨(h1.2 (by decide)).1, (h2.1 (by decide)).1⟩

/-- C18: after any sequence of calls of `insert`, `remove` (at valid positions) and
`next(ordering)` on a new sample set, whatever its ordering and the comparator, the
iteration from `begin()` to `end()` yields the samples in strictly increasing value
order, and no two of them are equal in value. -/
theorem samples_strictly_increasing (less : S → S → Bool)
    (comp : SampleOrdering → S → S → Bool) (hless : StrictWeakOrder less)
    (ordering : SampleOrdering) (calls : List (SampleSetCall S)) (s : SampleSet S)
    (h : (init ordering).run less comp calls = some s) :
    s.mSamples.Pairwise (fun a b => less a b = true) ∧
      s.mSamples.Pairwise (fun a b => ¬ Equivalent less a b) := by
  have hs := run_samples_sorted less comp hless calls (init ordering) s List.Pairwise.nil h
  refine ⟨hs, hs.imp (fun hab heq => ?_)⟩
  rw [heq.1] at hab
  cases hab

/-- C18 on the calls `insert(-√2)`, `insert(1)`, `insert(√2)`, `insert(1)`,
`remove(begin())`, `next(RatRoot)`. -/
theorem samples_strictly_increasing_witness :
    [ScenarioSample.one, ScenarioSample.posRootOfTwo].Pairwise
        (fun a b => scenarioOps.less a b = true) ∧
      [ScenarioSample.one, ScenarioSample.posRootOfTwo].Pairwise
        (fun a b => ¬ Equivalent scenarioOps.less a b) :=
  samples_strictly_increasing scenarioOps.less (SampleComparator.call scenarioOps)
    scenarioOps_strictWeakOrder SampleOrdering.IntRatRoot
    [SampleSetCall.insert ScenarioSample.negRootOfTwo, SampleSetCall.insert ScenarioSample.one,
      SampleSetCall.insert ScenarioSample.posRootOfTwo, SampleSetCall.insert ScenarioSample.one,
      SampleSetCall.remove 0, SampleSetCall.next SampleOrdering.RatRoot]
    ⟨[ScenarioSample.one, ScenarioSample.posRootOfTwo],
      [ScenarioSample.one, ScenarioSample.posRootOfTwo], SampleOrdering.RatRoot⟩ rfl

/-- The sample that `next()` returns on a sample set whose priority store is sorted in
the order of its comparator: when the priority store is not empty, its first sample,
and no sample of the priority store is less than it under the comparator; on an empty
priority store the assertion of `next()` fails. -/
theorem next_first_of_queue (comp : SampleOrdering → S → S → Bool) (s : SampleSet S)
    (hcomp : StrictWeakOrder (comp s.ordering))
    (hq : s.mQueue.Pairwise (fun a b => comp s.ordering a b = true)) :
    (s.empty = false →
        ∃ x, s.next = some x ∧ x ∈ s.mQueue ∧
          ∀ m ∈ s.mQueue, comp s.ordering m x = false) ∧
      (s.empty = true → s.next = none) := by
  unfold SampleSet.empty SampleSet.next
  cases hl : s.mQueue with
  | nil =>
    refine ⟨fun h => by simp at h, fun _ => rfl⟩
  | cons x rest =>
    refine ⟨fun _ => ⟨x, rfl, List.mem_cons_self _ _, ?_⟩, fun h => by simp at h⟩
    intro m hmq
    rw [hl] at hq
    rcases List.mem_cons.1 hmq with hmx | hmr
    · rw [hmx]
      exact hcomp.irrefl x
    · have hxm : comp s.ordering x m = true := (List.pairwise_cons.1 hq).1 m hmr
      cases hmx : comp s.ordering m x with
      | false => rfl
      | true =>
        have := hcomp.trans x m x hxm hmx
        rw [hcomp.irrefl] at this
        cases this

/-- C17 at a failing input: after `insert` of the interval-represented root `2` of
`x^2 - 4` and `insert` of the numeric `2`, which is equal to it in value and of another
class, the value-order store holds one sample and the priority store two; after
`remove(begin())` the value-order store holds no sample, and `empty()` is false. The
same happens for the numeric `1` as a root and as a sample that is not a root. -/
theorem stores_diverge :
    (init SampleOrdering.IntRatRoot).run scenarioOps.less (SampleComparator.call scenarioOps)
        [SampleSetCall.insert ScenarioSample.twoIR, SampleSetCall.insert ScenarioSample.twoNR] =
      some ⟨[ScenarioSample.twoIR], [ScenarioSample.twoNR, ScenarioSample.twoIR],
        SampleOrdering.IntRatRoot⟩ ∧
    (init SampleOrdering.IntRatRoot).run scenarioOps.less (SampleComparator.call scenarioOps)
        [SampleSetCall.insert ScenarioSample.twoIR, SampleSetCall.insert ScenarioSample.twoNR,
          SampleSetCall.remove 0] =
      some ⟨[], [ScenarioSample.twoNR], SampleOrdering.IntRatRoot⟩ ∧
    (⟨[], [ScenarioSample.twoNR], SampleOrdering.IntRatRoot⟩ :
      SampleSet ScenarioSample).empty = false ∧
    (⟨[], [ScenarioSample.twoNR], SampleOrdering.IntRatRoot⟩ :
      SampleSet ScenarioSample).«begin» =
      (⟨[], [ScenarioSample.twoNR], SampleOrdering.IntRatRoot⟩ :
        SampleSet ScenarioSample).«end» ∧
    (init SampleOrdering.IntRatRoot).run scenarioOps.less (SampleComparator.call scenarioOps)
        [SampleSetCall.insert ScenarioSample.one,
          SampleSetCall.insert ScenarioSample.oneNotRoot] =
      some ⟨[ScenarioSample.one], [ScenarioSample.one, ScenarioSample.oneNotRoot],
        SampleOrdering.IntRatRoot⟩ :=
  ⟨rfl, rfl, rfl, rfl, rfl⟩

end SampleSet

/-! The test for a square -/

theorem mulLoop_self (l : List (Nat × Nat)) :
    mulLoop l l = l.map (fun p => (p.1, uadd p.2 p.2)) := by
  induction l with
  | nil => simp [mulLoop]
  | cons p t ih =>
    rw [mulLoop_cons_cons, if_pos rfl, ih]
    rfl

theorem le_sumExp_of_mem {l : List (Nat × Nat)} {p : Nat × Nat} (h : p ∈ l) :
    p.2 ≤ sumExp l := by
  induction l with
  | nil => cases h
  | cons q t ih =>
    rw [sumExp_cons]
    rcases List.mem_cons.1 h with h | h
    · rw [h]; omega
    · have := ih h
      omega

theorem sumExp_map_half {l : List (Nat × Nat)} (h : ∀ p ∈ l, p.2 % 2 = 0) :
    sumExp (l.map (fun p => (p.1, p.2 / 2))) * 2 = sumExp l := by
  induction l with
  | nil => rfl
  | cons q t ih =>
    rw [List.map_cons, sumExp_cons, sumExp_cons]
    have h1 := h q (List.mem_cons_self _ _)
    have h2 := ih (fun p hp => h p (List.mem_cons_of_mem _ hp))
    simp only at h2 ⊢
    omega

namespace Monomial

theorem isSquareLoop_iff (l : List (Nat × Nat)) :
    isSquareLoop l = true ↔ ∀ p ∈ l, p.2 % 2 = 0 := by
  induction l with
  | nil => simp [isSquareLoop]
  | cons q t ih =>
    rw [isSquareLoop]
    by_cases h : q.2 % 2 = 1
    · rw [if_pos h]
      constructor
      · intro h'; cases h'
      · intro h'
        have := h' q (List.mem_cons_self _ _)
        omega
    · rw [if_neg h, ih]
      constructor
      · intro h' p hp
        rcases List.mem_cons.1 hp with hp | hp
        · rw [hp]; omega
        · exact h' p hp
      · intro h' p hp
        exact h' p (List.mem_cons_of_mem _ hp)

/-- The monomial of the halved exponents of a consistent monomial with even exponents
is consistent, and its square is the monomial. -/
theorem half_spec {m : Monomial} (hm : m.Consistent) (h : ∀ p ∈ m.mExponents, p.2 % 2 = 0) :
    (⟨m.mExponents.map (fun p => (p.1, p.2 / 2)), m.mTotalDegree / 2⟩ : Monomial).Consistent ∧
      (⟨m.mExponents.map (fun p => (p.1, p.2 / 2)), m.mTotalDegree / 2⟩ : Monomial).mul
        ⟨m.mExponents.map (fun p => (p.1, p.2 / 2)), m.mTotalDegree / 2⟩ = m := by
  obtain ⟨h1, h2, h3, h4⟩ := hm
  have hs := sumExp_map_half h
  have hc : (⟨m.mExponents.map (fun p => (p.1, p.2 / 2)), m.mTotalDegree / 2⟩ :
      Monomial).Consistent := by
    refine ⟨?_, ?_, ?_, ?_⟩
    · show SortedVars (m.mExponents.map (fun p => (p.1, p.2 / 2)))
      unfold SortedVars at h1 ⊢
      rw [List.pairwise_map]
      exact h1
    · show PosExp (m.mExponents.map (fun p => (p.1, p.2 / 2)))
      intro p hp
      obtain ⟨q, hq, rfl⟩ := List.mem_map.1 hp
      have := h2 q hq
      have := h q hq
      show 0 < q.2 / 2
      omega
    · show m.mTotalDegree / 2 = sumExp (m.mExponents.map (fun p => (p.1, p.2 / 2)))
      omega
    · show m.mTotalDegree / 2 < expMod
      omega
  refine ⟨hc, ?_⟩
  rw [mul_eq_loop hc hc]
  show (⟨mulLoop (m.mExponents.map (fun p => (p.1, p.2 / 2)))
      (m.mExponents.map (fun p => (p.1, p.2 / 2))),
    uadd (m.mTotalDegree / 2) (m.mTotalDegree / 2)⟩ : Monomial) = m
  rw [mulLoop_self, List.map_map]
  have hl : m.mExponents.map ((fun p => (p.1, uadd p.2 p.2)) ∘ (fun p => (p.1, p.2 / 2))) =
      m.mExponents := by
    conv_rhs => rw [← List.map_id m.mExponents]
    apply List.map_congr_left
    intro p hp
    have h5 := h p hp
    have h6 := le_sumExp_of_mem hp
    show (p.1, uadd (p.2 / 2) (p.2 / 2)) = id p
    rw [uadd_of_lt (by omega)]
    show (p.1, p.2 / 2 + p.2 / 2) = p
    have : p.2 / 2 + p.2 / 2 = p.2 := by omega
    rw [this]
  have ht : uadd (m.mTotalDegree / 2) (m.mTotalDegree / 2) = m.mTotalDegree := by
    rw [uadd_of_lt (by omega)]
    omega
  rw [hl, ht]

end Monomial

namespace Monomial

/-! Claims on squares, powers and the removal of a variable -/

/-- C27: for a consistent monomial `m`, `isSquare()` returns true if and only if every
exponent of `m` is even, and every exponent of `m` is even if and only if there is a
consistent monomial `r` with `r * r == m`. -/
theorem isSquare_iff (m : Monomial) (hm : m.Consistent) :
    (m.isSquare = true ↔ ∀ p ∈ m.mExponents, p.2 % 2 = 0) ∧
      ((∀ p ∈ m.mExponents, p.2 % 2 = 0) ↔
        ∃ r : Monomial, r.Consistent ∧ (r.mul r).eq m = true) := by
  constructor
  · unfold isSquare
    constructor
    · intro h
      split at h
      · cases h
      · exact (isSquareLoop_iff _).1 h
    · intro h
      have h3 := hm.2.2.1
      have hs := sumExp_map_half h
      rw [if_neg (by omega)]
      exact (isSquareLoop_iff _).2 h
  · constructor
    · intro h
      obtain ⟨hc, he⟩ := half_spec hm h
      exact ⟨_, hc, (eq_iff _ _).2 he⟩
    · rintro ⟨r, hr, he⟩ p hp
      have he' := (eq_iff _ _).1 he
      rw [mul_eq_loop hr hr, mulLoop_self] at he'
      rw [← he'] at hp
      obtain ⟨q, _, rfl⟩ := List.mem_map.1 hp
      show uadd q.2 q.2 % 2 = 0
      unfold uadd expMod
      omega

/-- C27 on `x^2 * y^4`, the square of `x * y^2`. -/
theorem isSquare_iff_witness :
    (⟨[(0, 2), (1, 4)], 6⟩ : Monomial).isSquare = true ∧
      ∃ r : Monomial, r.Consistent ∧ (r.mul r).eq ⟨[(0, 2), (1, 4)], 6⟩ = true :=
  ⟨(isSquare_iff ⟨[(0, 2), (1, 4)], 6⟩ (by decide)).1.2 (by decide),
    (isSquare_iff ⟨[(0, 2), (1, 4)], 6⟩ (by decide)).2.1 (by decide)⟩

end Monomial

/-! The power and the product of copies -/

theorem expOf_powLoop {n : Nat} {l : List (Nat × Nat)} {s : Nat}
    (hb : s + sumExp l * n < expMod) (v : Nat) :
    expOf (powLoop n l s).1 v = expOf l v * n := by
  induction l generalizing s with
  | nil => simp [powLoop, expOf_nil]
  | cons it rest ih =>
    rw [sumExp_cons, Nat.add_mul] at hb
    have hm : umul it.2 n = it.2 * n := Nat.mod_eq_of_lt (by omega)
    have hu : uadd s (it.2 * n) = s + it.2 * n := uadd_of_lt (by omega)
    rw [powLoop, hm, hu, expOf_cons, expOf_cons]
    show (if it.1 = v then it.2 * n else expOf (powLoop n rest (s + it.2 * n)).1 v) = _
    by_cases h : it.1 = v
    · rw [if_pos h, if_pos h]
    · rw [if_neg h, if_neg h]
      exact ih (by omega)

namespace Monomial

/-- The product of `k + 1` copies of a consistent monomial, while the degree fits. -/
theorem productOfCopies_spec {m : Monomial} (hm : m.Consistent) :
    ∀ k : Nat, (k + 1) * m.mTotalDegree < expMod →
      (m.productOfCopies k).Consistent ∧
        (m.productOfCopies k).mTotalDegree = (k + 1) * m.mTotalDegree ∧
        ∀ v, (m.productOfCopies k).exponentOfVariable v = (k + 1) * m.exponentOfVariable v
  | 0, _ => by
    refine ⟨hm, ?_, fun v => ?_⟩
    · show m.mTotalDegree = _
      omega
    · show m.exponentOfVariable v = _
      omega
  | k + 1, hb => by
    have hk : (k + 1) * m.mTotalDegree < expMod := by
      rw [Nat.add_mul] at hb
      omega
    obtain ⟨h1, h2, h3⟩ := productOfCopies_spec hm k hk
    have hsum : (m.productOfCopies k).mTotalDegree + m.mTotalDegree < expMod := by
      rw [h2]
      rw [Nat.add_mul (k + 1) 1] at hb
      omega
    refine ⟨consistent_mul h1 hm hsum, ?_, fun v => ?_⟩
    · show ((m.productOfCopies k).mul m).mTotalDegree = _
      rw [tdeg_mul h1 hm hsum, h2, Nat.add_mul (k + 1) 1]
      omega
    · show ((m.productOfCopies k).mul m).exponentOfVariable v = _
      rw [exponentOfVariable_mul h1 hm hsum, h3, Nat.add_mul (k + 1) 1]
      omega

/-- C28: `pow(0)` returns null; for a consistent monomial `m` and `n >= 1`, while the
arithmetic of the exponents is exact (`n * tdeg(m) < 2^32`), `pow(n)` returns a
monomial that is the product of `n` copies of `m`, whose exponent of every variable
`v` is `n * exponentOfVariable(m, v)` and whose total degree is `n * tdeg(m)`. -/
theorem pow_spec (m : Monomial) (hm : m.Consistent) :
    m.pow 0 = none ∧
      ∀ n : Nat, 1 ≤ n → n * m.tdeg < expMod →
        ∃ q, m.pow n = some q ∧ q = m.productOfCopies (n - 1) ∧
          (∀ v, q.exponentOfVariable v = n * m.exponentOfVariable v) ∧
          q.tdeg = n * m.tdeg := by
  refine ⟨rfl, fun n hn hb => ?_⟩
  have hb' : m.mTotalDegree * n < expMod := by
    rw [Nat.mul_comm]
    exact hb
  have hp : m.pow n =
      some ⟨(powLoop n m.mExponents 0).1, (powLoop n m.mExponents 0).2⟩ := by
    unfold pow
    rw [if_neg (by omega)]
  have hq := consistent_pow hm hb' hp
  have h3 := hm.2.2.1
  have hs : 0 + sumExp m.mExponents * n < expMod := by
    rw [← h3]
    omega
  obtain ⟨_, _, _, h4, h5⟩ := powLoop_spec (n := n) (by omega) (l := m.mExponents) (s := 0)
    hm.1 hm.2.1 hs
  have hexp : ∀ v, (⟨(powLoop n m.mExponents 0).1, (powLoop n m.mExponents 0).2⟩ :
      Monomial).exponentOfVariable v = n * m.exponentOfVariable v := by
    intro v
    show expOf (powLoop n m.mExponents 0).1 v = n * expOf m.mExponents v
    rw [expOf_powLoop hs, Nat.mul_comm]
  have hn1 : n - 1 + 1 = n := by omega
  obtain ⟨c1, c2, c3⟩ := productOfCopies_spec hm (n - 1) (by rw [hn1]; exact hb)
  refine ⟨_, hp, ?_, hexp, ?_⟩
  · apply Consistent.ext hq c1
    intro v
    rw [hexp, c3, hn1]
  · show (powLoop n m.mExponents 0).2 = n * m.mTotalDegree
    rw [h4, h5, ← h3, Nat.mul_comm]
    omega

/-- C28 on `x^2 * y` and `n = 3`: the result is `x^6 * y^3`, the product of three
copies. -/
theorem pow_spec_witness :
    (⟨[(0, 2), (1, 1)], 3⟩ : Monomial).pow 0 = none ∧
      ∃ q, (⟨[(0, 2), (1, 1)], 3⟩ : Monomial).pow 3 = some q ∧
        q = (⟨[(0, 2), (1, 1)], 3⟩ : Monomial).productOfCopies (3 - 1) ∧
        (∀ v, q.exponentOfVariable v =
          3 * (⟨[(0, 2), (1, 1)], 3⟩ : Monomial).exponentOfVariable v) ∧
        q.tdeg = 3 * (⟨[(0, 2), (1, 1)], 3⟩ : Monomial).tdeg :=
  ⟨(pow_spec ⟨[(0, 2), (1, 1)], 3⟩ (by decide)).1,
    (pow_spec ⟨[(0, 2), (1, 1)], 3⟩ (by decide)).2 3 (by decide) (by decide)⟩

end Monomial

/-! The removal of a variable -/

theorem expOf_dropVariableLoop (v : Nat) (l : List (Nat × Nat)) (d w : Nat) :
    expOf (dropVariableLoop v l d).1 w = if w = v then 0 else expOf l w := by
  induction l generalizing d with
  | nil =>
    simp [dropVariableLoop, expOf_nil]
  | cons it rest ih =>
    rw [dropVariableLoop]
    by_cases h : it.1 = v
    · rw [if_pos h, ih, expOf_cons]
      by_cases hw : w = v
      · rw [if_pos hw, if_pos hw]
      · rw [if_neg hw, if_neg hw, if_neg (by omega)]
    · rw [if_neg h, expOf_cons, ih, expOf_cons]
      by_cases hw : w = v
      · rw [if_pos hw, if_pos hw, if_neg (by omega)]
      · rw [if_neg hw, if_neg hw]

theorem dropVariableLoop_snd {v : Nat} {l : List (Nat × Nat)} {d : Nat}
    (hl : SortedVars l) (hd : sumExp l ≤ d) (hdM : d < expMod) :
    (dropVariableLoop v l d).2 = d - expOf l v := by
  induction l generalizing d with
  | nil => simp [dropVariableLoop, expOf_nil]
  | cons it rest ih =>
    obtain ⟨hal, hsl⟩ := (sortedVars_cons it rest).1 hl
    rw [sumExp_cons] at hd
    rw [dropVariableLoop, expOf_cons]
    by_cases h : it.1 = v
    · rw [if_pos h, if_pos h, usub_of_le hdM (by omega), ih hsl (by omega) (by omega),
        expOf_eq_zero_of_above hal (by omega)]
      omega
    · rw [if_neg h, if_neg h]
      exact ih hsl (by omega) hdM

theorem dropVariableLoop_nil {v : Nat} {l : List (Nat × Nat)} {d : Nat}
    (h : (dropVariableLoop v l d).1 = []) : ∀ p ∈ l, p.1 = v := by
  induction l generalizing d with
  | nil => intro p hp; cases hp
  | cons it rest ih =>
    rw [dropVariableLoop] at h
    by_cases hv : it.1 = v
    · rw [if_pos hv] at h
      intro p hp
      rcases List.mem_cons.1 hp with hp | hp
      · rw [hp]; exact hv
      · exact ih h p hp
    · rw [if_neg hv] at h
      cases h

namespace Monomial

theorem expOf_of_has_false {m : Monomial} {v : Nat} (h : m.has v = false) :
    m.exponentOfVariable v = 0 := by
  unfold has at h
  unfold exponentOfVariable expOf
  cases hf : m.mExponents.find? (fun p => p.1 == v) with
  | none => rfl
  | some p =>
    rw [hf] at h
    cases h

/-- What `dropVariable(v)` returns on a consistent monomial that is not the constant
monomial: null exactly when the monomial has no other variable than `v`, and otherwise
the monomial without `v`. -/
theorem dropVariable_spec {m : Monomial} (hm : m.Consistent) (hne : m.mExponents ≠ [])
    (v : Nat) :
    (m.dropVariable v = none ↔ m.hasNoOtherVariable v = true) ∧
      ∀ q, m.dropVariable v = some q →
        q.exponentOfVariable v = 0 ∧
          (∀ w, w ≠ v → q.exponentOfVariable w = m.exponentOfVariable w) ∧
          q.tdeg = m.tdeg - m.exponentOfVariable v := by
  obtain ⟨h1, h2, h3, h4⟩ := hm
  have hsnd := dropVariableLoop_snd (v := v) (l := m.mExponents) (d := m.mTotalDegree) h1
    (by omega) h4
  obtain ⟨_, s2, _, s4, _⟩ := dropVariableLoop_spec (v := v) (d := m.mTotalDegree) h1 h2
    (by omega) h4
  constructor
  · constructor
    · intro h
      unfold dropVariable at h
      split at h
      · cases h
      · next hh =>
        split at h
        · next h0 =>
          have hs0 : sumExp (dropVariableLoop v m.mExponents m.mTotalDegree).1 = 0 := by omega
          have hall := dropVariableLoop_nil (sumExp_eq_zero s2 hs0)
          unfold hasNoOtherVariable
          cases hl : m.mExponents with
          | nil => exact absurd hl hne
          | cons p t =>
            cases t with
            | nil =>
              have hp := hall p (by rw [hl]; exact List.mem_cons_self _ _)
              simp [hp]
            | cons q t' =>
              have hp := hall p (by rw [hl]; exact List.mem_cons_self _ _)
              have hq := hall q (by rw [hl]; simp)
              rw [hl, sortedVars_cons, above_cons] at h1
              omega
        · cases h
    · intro h
      unfold hasNoOtherVariable at h
      cases hl : m.mExponents with
      | nil => exact absurd hl hne
      | cons p t =>
        cases t with
        | nil =>
          rw [hl] at h h3
          simp only [List.length_singleton, if_true, List.head?_cons] at h
          have hp : p.1 = v := by
            by_contra hp
            rw [if_neg hp] at h
            cases h
          have h3' : m.mTotalDegree = p.2 := by
            rw [h3, sumExp_cons, sumExp_nil, Nat.add_zero]
          unfold dropVariable has
          rw [hl]
          simp [hp, dropVariableLoop, h3', usub, expMod]
        | cons q t' =>
          rw [hl] at h
          simp at h
  · intro q hq
    unfold dropVariable at hq
    split at hq
    · next hh =>
      simp only [Option.some.injEq] at hq
      subst hq
      have h0 : m.exponentOfVariable v = 0 := expOf_of_has_false (by simpa using hh)
      refine ⟨h0, fun w _ => rfl, ?_⟩
      rw [h0]
      rfl
    · split at hq
      · cases hq
      · simp only [Option.some.injEq] at hq
        subst hq
        refine ⟨?_, fun w hw => ?_, hsnd⟩
        · show expOf (dropVariableLoop v m.mExponents m.mTotalDegree).1 v = 0
          rw [expOf_dropVariableLoop, if_pos rfl]
        · show expOf (dropVariableLoop v m.mExponents m.mTotalDegree).1 w = expOf m.mExponents w
          rw [expOf_dropVariableLoop, if_neg hw]

/-- C29 at a failing input: the constant monomial with no variable, which the division
of `x^3` by `x^3` returns, is consistent and has no other variable than `x`; the result
of `dropVariable(x)` on it is `1`, and the call returns a copy of the monomial and not
null, while `dropVariable(x)` on `x^3` returns null. -/
theorem dropVariable_constant :
    (⟨[(0, 3)], 3⟩ : Monomial).dividedBy ⟨[(0, 3)], 3⟩ = some ⟨[], 0⟩ ∧
      (⟨[], 0⟩ : Monomial).Consistent ∧
      (⟨[], 0⟩ : Monomial).hasNoOtherVariable 0 = true ∧
      (⟨[], 0⟩ : Monomial).dropVariable 0 = some ⟨[], 0⟩ ∧
      (⟨[(0, 3)], 3⟩ : Monomial).dropVariable 0 = none := by
  refine ⟨?_, by decide, by decide, by decide, by decide⟩
  simp [Monomial.dividedBy, dividedByLoop, expMod, usub]

end Monomial

/-! Claims on the comparator -/

namespace SampleComparator

variable {S : Type}

/-- C30: `compare(l, r)`, on the flags `l` of a sample `a` and `r` of a sample `b`,
returns `first = true` exactly when `l != r`; in that case `second = true` exactly when
the property does not hold for `a` and holds for `b`; when `l == r` it returns
`first = false`. -/
theorem compare_spec (l r : Bool) :
    ((compare l r).1 = true ↔ l ≠ r) ∧
      (l ≠ r → ((compare l r).2 = true ↔ (l = false ∧ r = true))) ∧
      (l = r → (compare l r).1 = false) := by
  cases l <;> cases r <;> simp [compare]

/-- The samples that the cascade leaves unordered are those of the same class that are
equal in the value order. -/
theorem call_equivalent_iff (ops : SampleOps S) (ordering : SampleOrdering) (a b : S) :
    Equivalent (call ops ordering) a b ↔
      classKey ops ordering a = classKey ops ordering b ∧ Equivalent ops.less a b := by
  unfold Equivalent
  rw [← Bool.not_eq_true, ← Bool.not_eq_true, call_iff, call_iff, ← Bool.not_eq_true,
    ← Bool.not_eq_true]
  constructor
  · rintro ⟨h1, h2⟩
    have hk : classKey ops ordering a = classKey ops ordering b := by
      rcases Nat.lt_trichotomy (classKey ops ordering a) (classKey ops ordering b)
        with h | h | h
      · exact absurd (Or.inl h) h1
      · exact h
      · exact absurd (Or.inl h) h2
    exact ⟨hk, fun h => h1 (Or.inr ⟨hk, h⟩), fun h => h2 (Or.inr ⟨hk.symm, h⟩)⟩
  · rintro ⟨hk, h1, h2⟩
    constructor
    · rintro (h | ⟨_, h⟩)
      · omega
      · exact h1 h
    · rintro (h | ⟨_, h⟩)
      · omega
      · exact h2 h

/-- C23: for each ordering, the cascade of `compareInt` (for `IntRatRoot` only),
`compareRat` and `compareRoot` with the value order as fallback is irreflexive,
asymmetric and transitive when the value order is a strict weak order, and any two
samples that are not equal in the value order are ordered one way or the other. -/
theorem call_strict_total_order (ops : SampleOps S) (h : StrictWeakOrder ops.less)
    (ordering : SampleOrdering) :
    (∀ a, call ops ordering a a = false) ∧
      (∀ a b, call ops ordering a b = true → call ops ordering b a = false) ∧
      (∀ a b c, call ops ordering a b = true → call ops ordering b c = true →
        call ops ordering a c = true) ∧
      (∀ a b, ¬ Equivalent ops.less a b →
        call ops ordering a b = true ∨ call ops ordering b a = true) := by
  have hswo := call_strictWeakOrder ops h ordering
  refine ⟨hswo.irrefl, fun a b hab => ?_, hswo.trans, fun a b hne => ?_⟩
  · cases hba : call ops ordering b a with
    | false => rfl
    | true =>
      have := hswo.trans a b a hab hba
      rw [hswo.irrefl] at this
      cases this
  · by_contra hc
    have h1 : call ops ordering a b = false := by
      cases hx : call ops ordering a b with
      | false => rfl
      | true => exact absurd (Or.inl hx) hc
    have h2 : call ops ordering b a = false := by
      cases hx : call ops ordering b a with
      | false => rfl
      | true => exact absurd (Or.inr hx) hc
    exact hne ((call_equivalent_iff ops ordering a b).1 ⟨h1, h2⟩).2

/-- C23 on the samples of the scenario: under `IntRatRoot` the negative root of
`x^2 - 2` and the numeric `1`, which are not equal in value, are ordered. -/
theorem call_strict_total_order_witness :
    call scenarioOps SampleOrdering.IntRatRoot ScenarioSample.negRootOfTwo
        ScenarioSample.one = true ∨
      call scenarioOps SampleOrdering.IntRatRoot ScenarioSample.one
        ScenarioSample.negRootOfTwo = true :=
  (call_strict_total_order scenarioOps scenarioOps_strictWeakOrder
    SampleOrdering.IntRatRoot).2.2.2 ScenarioSample.negRootOfTwo ScenarioSample.one
    (by decide)

end SampleComparator

/-! Erasure and search in the sorted list of a `std::set` -/

namespace StdSet

variable {S : Type}

/-- Two elements at different positions of a sorted list are ordered. -/
theorem related_of_mem_eraseIdx {R : S → S → Prop} {l : List S} (hl : l.Pairwise R)
    {k : Nat} {x y : S} (hx : l[k]? = some x) (hy : y ∈ l.eraseIdx k) : R y x ∨ R x y := by
  obtain ⟨i, hik, hi⟩ := List.mem_eraseIdx_iff_getElem?.1 hy
  obtain ⟨hi', hi''⟩ := List.getElem?_eq_some.1 hi
  obtain ⟨hk', hk''⟩ := List.getElem?_eq_some.1 hx
  rw [List.pairwise_iff_getElem] at hl
  rcases Nat.lt_or_gt_of_ne hik with h | h
  · left
    rw [← hi'', ← hk'']
    exact hl i k hi' hk' h
  · right
    rw [← hi'', ← hk'']
    exact hl k i hk' hi' h

/-- The elements of a sorted list are pairwise different. -/
theorem nodup_of_sorted (lt : S → S → Bool) (hirr : ∀ a, lt a a = false) {l : List S}
    (hl : l.Pairwise (fun a b => lt a b = true)) : l.Nodup := by
  unfold List.Nodup
  refine hl.imp (fun {a b} hab heq => ?_)
  rw [heq, hirr] at hab
  cases hab

/-- On a sorted list, `erase(key)` with the key of a member removes that member. -/
theorem eraseKey_of_mem (lt : S → S → Bool) (hirr : ∀ a, lt a a = false) (x : S) :
    ∀ l : List S, l.Pairwise (fun a b => lt a b = true) → x ∈ l →
      (x :: eraseKey lt x l).Perm l
  | [], _, hx => by cases hx
  | e :: rest, hl, hx => by
    obtain ⟨he, hrest⟩ := List.pairwise_cons.1 hl
    rw [eraseKey]
    by_cases h1 : lt e x = true
    · rw [if_pos h1]
      rcases List.mem_cons.1 hx with hx | hx
      · rw [hx, hirr] at h1
        cases h1
      · exact (List.Perm.swap e x _).trans ((eraseKey_of_mem lt hirr x rest hrest hx).cons e)
    · rw [if_neg h1]
      rcases List.mem_cons.1 hx with hx | hx
      · rw [← hx, hirr]
        simp
      · exact absurd (he x hx) h1

theorem mem_eraseKey_iff (lt : S → S → Bool) (hirr : ∀ a, lt a a = false) (x : S)
    {l : List S} (hl : l.Pairwise (fun a b => lt a b = true)) (hx : x ∈ l) (y : S) :
    y ∈ eraseKey lt x l ↔ y ∈ l ∧ y ≠ x := by
  have hp := eraseKey_of_mem lt hirr x l hl hx
  have hnd : (x :: eraseKey lt x l).Nodup := hp.nodup_iff.2 (nodup_of_sorted lt hirr hl)
  constructor
  · intro hy
    refine ⟨hp.subset (List.mem_cons_of_mem _ hy), fun hyx => ?_⟩
    rw [hyx] at hy
    exact (List.nodup_cons.1 hnd).1 hy
  · rintro ⟨hy, hyx⟩
    rcases List.mem_cons.1 (hp.symm.subset hy) with h | h
    · exact absurd h hyx
    · exact h

/-- What `find(x)` returns on a sorted list: `end()` exactly when no element has the key
of `x`, and otherwise the position of an element with the key of `x`. -/
theorem find_spec (lt : S → S → Bool)
    (htrans : ∀ a b c, lt a b = true → lt b c = true → lt a c = true) (x : S) :
    ∀ l : List S, l.Pairwise (fun a b => lt a b = true) →
      (find lt x l = none → ∀ e ∈ l, ¬ Equivalent lt e x) ∧
        (∀ i, find lt x l = some i → ∃ e, l[i]? = some e ∧ Equivalent lt e x)
  | [], _ => ⟨fun _ e he => (by cases he), fun i h => (by cases h)⟩
  | e :: rest, hl => by
    obtain ⟨he, hrest⟩ := List.pairwise_cons.1 hl
    obtain ⟨ih1, ih2⟩ := find_spec lt htrans x rest hrest
    rw [find]
    by_cases h1 : lt e x = true
    · rw [if_pos h1]
      constructor
      · intro hn e' he' hq
        rcases List.mem_cons.1 he' with he' | he'
        · rw [← he', hq.1] at h1
          cases h1
        · exact ih1 (by simpa using hn) e' he' hq
      · intro i hi
        cases hf : find lt x rest with
        | none => rw [hf] at hi; cases hi
        | some j =>
          rw [hf] at hi
          simp only [Option.map_some', Option.some.injEq] at hi
          subst hi
          obtain ⟨e', h2, h3⟩ := ih2 j hf
          exact ⟨e', by rw [List.getElem?_cons_succ]; exact h2, h3⟩
    · rw [if_neg h1]
      by_cases h2 : lt x e = true
      · rw [if_pos h2]
        refine ⟨fun _ e' he' hq => ?_, fun i hi => (by cases hi)⟩
        rcases List.mem_cons.1 he' with he' | he'
        · rw [he'] at hq
          have := hq.2
          rw [h2] at this
          cases this
        · have := hq.2
          rw [htrans x e e' h2 (he e' he')] at this
          cases this
      · rw [if_neg h2]
        refine ⟨fun hn => (by cases hn), fun i hi => ?_⟩
        simp only [Option.some.injEq] at hi
        subst hi
        exact ⟨e, by simp, by simpa using h1, by simpa using h2⟩

/-- The range insertion keeps every sample of a range that holds no two samples with
the same key, into a set that holds no sample with the key of one of the range. -/
theorem insertRange_perm (lt : S → S → Bool)
    (htrans : ∀ a b c, lt a b = true → lt b c = true → lt a c = true) :
    ∀ (range l : List S), l.Pairwise (fun a b => lt a b = true) →
      range.Pairwise (fun a b => ¬ Equivalent lt a b) →
      (∀ x ∈ range, ∀ e ∈ l, ¬ Equivalent lt e x) →
      (insertRange lt range l).Perm (range ++ l)
  | [], l, _, _, _ => List.Perm.refl _
  | x :: range, l, hl, hr, hd => by
    obtain ⟨hx, hr'⟩ := List.pairwise_cons.1 hr
    obtain ⟨h1, h2, h3, h4⟩ := insert_spec lt htrans x l hl
    have hb : (insert lt x l).2.2 = true := by
      by_contra hb
      have hb' : (insert lt x l).2.2 = false := by simpa using hb
      obtain ⟨_, e, he, heq⟩ := h2 hb'
      exact hd x (List.mem_cons_self _ _) e (List.getElem?_mem he) heq
    have hperm := (h3 hb).2.1
    have ih := insertRange_perm lt htrans range (insert lt x l).1 h1 hr' (by
      intro y hy e he heq
      rcases h4 e he with h | h
      · rw [h] at heq
        exact hx y hy heq
      · exact hd y (List.mem_cons_of_mem _ hy) e h heq)
    show (insertRange lt range (insert lt x l).1).Perm (x :: range ++ l)
    refine ih.trans ?_
    refine (List.Perm.append_left range hperm).trans ?_
    exact List.perm_middle

end StdSet

/-! Keys of a strict weak order -/

theorem Equivalent.symm {S : Type} {lt : S → S → Bool} {a b : S} (h : Equivalent lt a b) :
    Equivalent lt b a := ⟨h.2, h.1⟩

theorem StrictWeakOrder.equivalent_trans {S : Type} {lt : S → S → Bool}
    (h : StrictWeakOrder lt) {a b c : S} (hab : Equivalent lt a b) (hbc : Equivalent lt b c) :
    Equivalent lt a c := by
  constructor
  · cases hac : lt a c with
    | false => rfl
    | true =>
      rcases h.incomp a b c hac with h1 | h1
      · rw [hab.1] at h1; cases h1
      · rw [hbc.1] at h1; cases h1
  · cases hca : lt c a with
    | false => rfl
    | true =>
      rcases h.incomp c b a hca with h1 | h1
      · rw [hbc.2] at h1; cases h1
      · rw [hab.2] at h1; cases h1

/-- A sorted list holds one element of each key at most. -/
theorem StdSet.eq_of_equivalent {S : Type} (lt : S → S → Bool) {l : List S}
    (hl : l.Pairwise (fun a b => lt a b = true)) {a b : S} (ha : a ∈ l) (hb : b ∈ l)
    (h : Equivalent lt a b) : a = b := by
  by_contra hne
  have hsym : Symmetric (fun a b : S => lt a b = true ∨ lt b a = true) :=
    fun _ _ h => h.symm
  have := (hl.imp (fun {a b} (h : lt a b = true) => (Or.inl h : lt a b = true ∨ lt b a = true))).forall
    hsym ha hb hne
  rcases this with h1 | h1
  · rw [h.1] at h1; cases h1
  · rw [h.2] at h1; cases h1

namespace SampleSet

variable {S : Type}

/-- What `remove(position)` does at a valid position, on a sample set with sorted stores
that hold the same samples: the sample at the position leaves both stores, and no other
sample does. -/
theorem remove_members (less : S → S → Bool) (comp : SampleOrdering → S → S → Bool)
    (s : SampleSet S) (hless : StrictWeakOrder less)
    (hcomp : StrictWeakOrder (comp s.ordering))
    (hs : s.mSamples.Pairwise (fun a b => less a b = true))
    (hq : s.mQueue.Pairwise (fun a b => comp s.ordering a b = true))
    (hm : ∀ x, x ∈ s.mQueue ↔ x ∈ s.mSamples) (position : Nat) (x : S)
    (hx : s.mSamples[position]? = some x) :
    s.remove comp position =
        some (⟨s.mSamples.eraseIdx position, StdSet.eraseKey (comp s.ordering) x s.mQueue,
          s.ordering⟩, position) ∧
      (∀ y, y ∈ s.mSamples.eraseIdx position ↔ y ∈ s.mSamples ∧ y ≠ x) ∧
      (∀ y, y ∈ StdSet.eraseKey (comp s.ordering) x s.mQueue ↔ y ∈ s.mQueue ∧ y ≠ x) ∧
      (∀ y ∈ s.mSamples.eraseIdx position, ¬ Equivalent less y x) := by
  have hxm : x ∈ s.mSamples := List.getElem?_mem hx
  have hrel : ∀ y ∈ s.mSamples.eraseIdx position, less y x = true ∨ less x y = true :=
    fun y hy => StdSet.related_of_mem_eraseIdx hs hx hy
  have hneq : ∀ y ∈ s.mSamples.eraseIdx position, ¬ Equivalent less y x := by
    intro y hy heq
    rcases hrel y hy with h | h
    · rw [heq.1] at h; cases h
    · rw [heq.2] at h; cases h
  refine ⟨?_, fun y => ⟨fun hy => ⟨(List.eraseIdx_sublist _ _).subset hy, fun hyx => ?_⟩,
    fun hy => ?_⟩, fun y => StdSet.mem_eraseKey_iff (comp s.ordering) hcomp.irrefl x hq
      ((hm x).2 hxm) y, hneq⟩
  · unfold remove
    rw [hx]
  · rw [hyx] at hy
    exact hneq x hy ⟨hless.irrefl x, hless.irrefl x⟩
  · obtain ⟨hy1, hy2⟩ := hy
    obtain ⟨i, hi⟩ := List.getElem?_of_mem hy1
    refine List.mem_eraseIdx_iff_getElem?.2 ⟨i, fun hik => ?_, hi⟩
    rw [hik, hx] at hi
    exact hy2 (Option.some.inj hi).symm

end SampleSet

/-! The removal and the simplification on sample sets whose stores agree -/

namespace SampleSet

variable {S : Type}

/-- What `remove(position)` does at a valid position, the position of the sample `x`,
on a sample set with sorted stores that hold the same samples: the iterator returned is the
position, which afterwards designates the successor of `x` in the value order (or is
`end()`); afterwards `contains(x)` is false, `x` is in neither store and `next()` does
not return it, every other member is still in both stores, and no sample is new. -/
theorem remove_of_agreeing_stores (less : S → S → Bool) (comp : SampleOrdering → S → S → Bool)
    (s : SampleSet S) (hless : StrictWeakOrder less)
    (hcomp : StrictWeakOrder (comp s.ordering))
    (hs : s.mSamples.Pairwise (fun a b => less a b = true))
    (hq : s.mQueue.Pairwise (fun a b => comp s.ordering a b = true))
    (hm : ∀ x, x ∈ s.mQueue ↔ x ∈ s.mSamples) (position : Nat) (x : S)
    (hx : s.mSamples[position]? = some x) :
    ∃ s', s.remove comp position = some (s', position) ∧
      s'.mSamples[position]? = s.mSamples[position + 1]? ∧
      s'.contains less x = false ∧ x ∉ s'.mSamples ∧ x ∉ s'.mQueue ∧ s'.next ≠ some x ∧
      (∀ y, y ≠ x → (y ∈ s.mSamples → y ∈ s'.mSamples) ∧ (y ∈ s.mQueue → y ∈ s'.mQueue)) ∧
      (∀ y, y ∈ s'.mSamples → y ∈ s.mSamples) ∧ (∀ y, y ∈ s'.mQueue → y ∈ s.mQueue) := by
  obtain ⟨h1, h2, h3, h4⟩ := remove_members less comp s hless hcomp hs hq hm position x hx
  have hxq : x ∉ StdSet.eraseKey (comp s.ordering) x s.mQueue :=
    fun h => ((h3 x).1 h).2 rfl
  refine ⟨_, h1, ?_, ?_, fun h => ((h2 x).1 h).2 rfl, hxq, ?_, ?_, fun y hy => ((h2 y).1 hy).1,
    fun y hy => ((h3 y).1 hy).1⟩
  · show (s.mSamples.eraseIdx position)[position]? = _
    exact List.getElem?_eraseIdx_of_ge _ _ _ (Nat.le_refl _)
  · show (StdSet.find less x (s.mSamples.eraseIdx position)).isSome = false
    have hsorted : (s.mSamples.eraseIdx position).Pairwise (fun a b => less a b = true) :=
      hs.sublist (List.eraseIdx_sublist _ _)
    obtain ⟨_, hf⟩ := StdSet.find_spec less hless.trans x _ hsorted
    cases hfind : StdSet.find less x (s.mSamples.eraseIdx position) with
    | none => rfl
    | some i =>
      obtain ⟨e, he, heq⟩ := hf i hfind
      exact absurd heq (h4 e (List.getElem?_mem he))
  · show (StdSet.eraseKey (comp s.ordering) x s.mQueue).head? ≠ some x
    intro hh
    exact hxq (List.mem_of_mem_head? hh)
  · intro y hy
    exact ⟨fun h => (h2 y).2 ⟨h, hy⟩, fun h => (h3 y).2 ⟨h, hy⟩⟩

end SampleSet

namespace SampleSet

variable {S : Type}

/-- What `simplify(from, to)` does on a sample set with sorted stores that hold the same
samples, for `to` of the same value as `from`. When no member has the value of `from`,
the call returns false and the sample set is unchanged. When the member `e` has the
value of `from`, the call returns true, and afterwards each store holds `to` and the
samples it held before other than `e`. -/
theorem simplify_of_agreeing_stores (ops : SampleOps S) (hless : StrictWeakOrder ops.less)
    (s : SampleSet S) (hs : s.mSamples.Pairwise (fun a b => ops.less a b = true))
    (hq : s.mQueue.Pairwise (fun a b => SampleComparator.call ops s.ordering a b = true))
    (hm : ∀ x, x ∈ s.mQueue ↔ x ∈ s.mSamples) (fromIR toNR : S)
    (hv : Equivalent ops.less fromIR toNR) :
    ((¬ ∃ e ∈ s.mSamples, Equivalent ops.less e fromIR) →
        s.simplify ops.less (SampleComparator.call ops) fromIR toNR = (s, false)) ∧
      (∀ e ∈ s.mSamples, Equivalent ops.less e fromIR →
        (s.simplify ops.less (SampleComparator.call ops) fromIR toNR).2 = true ∧
          (∀ y, y ∈ (s.simplify ops.less (SampleComparator.call ops) fromIR toNR).1.mSamples ↔
            y = toNR ∨ (y ∈ s.mSamples ∧ y ≠ e)) ∧
          (∀ y, y ∈ (s.simplify ops.less (SampleComparator.call ops) fromIR toNR).1.mQueue ↔
            y = toNR ∨ (y ∈ s.mQueue ∧ y ≠ e))) := by
  obtain ⟨hf1, hf2⟩ := StdSet.find_spec ops.less hless.trans fromIR s.mSamples hs
  have hcomp := SampleComparator.call_strictWeakOrder ops hless s.ordering
  constructor
  · intro hno
    unfold simplify
    cases hfind : StdSet.find ops.less fromIR s.mSamples with
    | none => rfl
    | some i =>
      obtain ⟨e, he, heq⟩ := hf2 i hfind
      exact absurd ⟨e, List.getElem?_mem he, heq⟩ hno
  · intro e he heq
    cases hfind : StdSet.find ops.less fromIR s.mSamples with
    | none => exact absurd heq (hf1 hfind e he)
    | some i =>
      obtain ⟨e', he', heq'⟩ := hf2 i hfind
      have hee : e' = e := StdSet.eq_of_equivalent ops.less hs (List.getElem?_mem he') he
        (hless.equivalent_trans heq' heq.symm)
      rw [hee] at he'
      obtain ⟨h1, h2, h3, h4⟩ := remove_members ops.less (SampleComparator.call ops) s hless
        hcomp hs hq hm i e he'
      have hto : ∀ y ∈ s.mSamples.eraseIdx i, ¬ Equivalent ops.less y toNR := by
        intro y hy hyt
        exact h4 y hy (hless.equivalent_trans hyt (hless.equivalent_trans hv.symm heq.symm))
      have hsorted : (s.mSamples.eraseIdx i).Pairwise (fun a b => ops.less a b = true) :=
        hs.sublist (List.eraseIdx_sublist _ _)
      have hqsorted : (StdSet.eraseKey (SampleComparator.call ops s.ordering) e
          s.mQueue).Pairwise (fun a b => SampleComparator.call ops s.ordering a b = true) :=
        hq.sublist (StdSet.eraseKey_sublist _ _ _)
      obtain ⟨_, a2, a3, a4⟩ := StdSet.insert_spec ops.less hless.trans toNR _ hsorted
      obtain ⟨_, b2, b3, b4⟩ := StdSet.insert_spec (SampleComparator.call ops s.ordering)
        hcomp.trans toNR _ hqsorted
      have ha : (StdSet.insert ops.less toNR (s.mSamples.eraseIdx i)).2.2 = true := by
        by_contra hb
        obtain ⟨_, y, hy, hyt⟩ := a2 (by simpa using hb)
        exact hto y (List.getElem?_mem hy) hyt
      have hb : (StdSet.insert (SampleComparator.call ops s.ordering) toNR
          (StdSet.eraseKey (SampleComparator.call ops s.ordering) e s.mQueue)).2.2 = true := by
        by_contra hb
        obtain ⟨_, y, hy, hyt⟩ := b2 (by simpa using hb)
        have hyq := (h3 y).1 (List.getElem?_mem hy)
        have hys : y ∈ s.mSamples.eraseIdx i := (h2 y).2 ⟨(hm y).1 hyq.1, hyq.2⟩
        exact hto y hys ((SampleComparator.call_equivalent_iff ops s.ordering y toNR).1 hyt).2
      have hsimp : s.simplify ops.less (SampleComparator.call ops) fromIR toNR =
          (((⟨s.mSamples.eraseIdx i,
            StdSet.eraseKey (SampleComparator.call ops s.ordering) e s.mQueue,
            s.ordering⟩ : SampleSet S).insert ops.less (SampleComparator.call ops) toNR).1,
            true) := by
        unfold simplify
        rw [hfind]
        show (match s.remove (SampleComparator.call ops) i with
          | none => (s, false)
          | some r => ((r.1.insert ops.less (SampleComparator.call ops) toNR).1, true)) = _
        rw [h1]
      rw [hsimp]
      refine ⟨rfl, fun y => ?_, fun y => ?_⟩
      · show y ∈ (StdSet.insert ops.less toNR (s.mSamples.eraseIdx i)).1 ↔ _
        rw [(a3 ha).2.1.mem_iff, List.mem_cons, h2 y]
      · show y ∈ (StdSet.insert (SampleComparator.call ops s.ordering) toNR
          (StdSet.eraseKey (SampleComparator.call ops s.ordering) e s.mQueue)).1 ↔ _
        rw [(b3 hb).2.1.mem_iff, List.mem_cons, h3 y]

end SampleSet

/-! The negation of the variable of a univariate polynomial -/

namespace UnivariatePolynomial

variable {C : Type}

theorem valueOfCoefficients_negateVariableLoop [CommRing C] (x : C) :
    ∀ (l : List C) (deg : Nat),
      valueOfCoefficients x (negateVariableLoop l deg) =
        if deg % 2 = 1 then -valueOfCoefficients (-x) l else valueOfCoefficients (-x) l
  | [], deg => by
    simp [negateVariableLoop, valueOfCoefficients]
  | c :: rest, deg => by
    rw [negateVariableLoop, valueOfCoefficients, valueOfCoefficients,
      valueOfCoefficients_negateVariableLoop x rest (deg + 1)]
    by_cases h : deg % 2 = 1
    · rw [if_pos h, if_pos h, if_neg (by omega)]
      ring
    · rw [if_neg h, if_neg h, if_pos (by omega)]
      ring

theorem length_negateVariableLoop [Neg C] :
    ∀ (l : List C) (deg : Nat), (negateVariableLoop l deg).length = l.length
  | [], _ => rfl
  | c :: rest, deg => by
    rw [negateVariableLoop, List.length_cons, List.length_cons,
      length_negateVariableLoop rest (deg + 1)]

theorem getElem?_negateVariableLoop [Neg C] :
    ∀ (l : List C) (deg i : Nat),
      (negateVariableLoop l deg)[i]? =
        (l[i]?).map (fun c => if (deg + i) % 2 = 1 then -c else c)
  | [], _, _ => by simp [negateVariableLoop]
  | c :: rest, deg, 0 => by simp [negateVariableLoop]
  | c :: rest, deg, i + 1 => by
    rw [negateVariableLoop, List.getElem?_cons_succ, List.getElem?_cons_succ,
      getElem?_negateVariableLoop rest (deg + 1) i]
    have : deg + 1 + i = deg + (i + 1) := by omega
    rw [this]

theorem negateVariableLoop_twice [InvolutiveNeg C] :
    ∀ (l : List C) (deg : Nat), negateVariableLoop (negateVariableLoop l deg) deg = l
  | [], _ => rfl
  | c :: rest, deg => by
    rw [negateVariableLoop, negateVariableLoop, negateVariableLoop_twice rest (deg + 1)]
    by_cases h : deg % 2 = 1
    · simp [h]
    · simp [h]

/-- C26: for coefficients in a commutative ring, `negateVariable()` returns a
polynomial `q` with the main variable of `p` and as many coefficients, such that
`q(x) = p(-x)` for every `x`; the coefficient of degree `i` of `q` is that of `p` for
even `i` and its negation for odd `i`; and `negateVariable` of `q` is `p`. -/
theorem negateVariable_spec [CommRing C] (p : UnivariatePolynomial C) :
    p.negateVariable.mainVar = p.mainVar ∧
      p.negateVariable.coefficients.length = p.coefficients.length ∧
      (∀ x, p.negateVariable.valueAt x = p.valueAt (-x)) ∧
      (∀ i, p.negateVariable.coefficients[i]? =
        (p.coefficients[i]?).map (fun c : C => if i % 2 = 1 then -c else c)) ∧
      p.negateVariable.negateVariable = p := by
  refine ⟨rfl, length_negateVariableLoop _ _, fun x => ?_, fun i => ?_, ?_⟩
  · show valueOfCoefficients x (negateVariableLoop p.mCoefficients 0) = _
    rw [valueOfCoefficients_negateVariableLoop, if_neg (by omega)]
    rfl
  · show (negateVariableLoop p.mCoefficients 0)[i]? = _
    rw [getElem?_negateVariableLoop, Nat.zero_add]
    rfl
  · show (⟨p.mMainVar, negateVariableLoop (negateVariableLoop p.mCoefficients 0) 0⟩ :
      UnivariatePolynomial C) = p
    rw [negateVariableLoop_twice]

end UnivariatePolynomial

/-! The evaluation of a constraint at real algebraic numbers -/

namespace carl

/-- The value of `x^2 + y^2` at an assignment. -/
theorem valueAt_sum_of_squares (x y : Variable) (σ : Variable → ℝ) :
    (⟨[(1, Monomial.fromVariable x 2), (1, Monomial.fromVariable y 2)]⟩ :
      MultivariatePolynomial).valueAt σ = σ x ^ 2 + σ y ^ 2 := by
  simp [MultivariatePolynomial.valueAt, Monomial.valueAt, Monomial.fromVariable]

/-- C25: for `y` bound to an interval-represented number that satisfies the isolation
invariant which `create_safe` verifies, its root being non-zero, and `x` bound to the
numeric `0`, the evaluation of the constraint `x^2 + y^2 <= 0` returns false, and does
not return true. -/
theorem evaluate_sum_of_squares (x y : Variable) (hxy : x ≠ y)
    (p : UnivariatePolynomial ℚ) (l u : ℚ)
    (hiso : (RealAlgebraicNumber.IR p l u).IsolationInvariant)
    (hroot : ∀ r : ℝ, (RealAlgebraicNumber.IR p l u).Represents r → r ≠ 0) :
    EvaluatesTo
        ⟨⟨[(1, Monomial.fromVariable x 2), (1, Monomial.fromVariable y 2)]⟩, Relation.LEQ⟩
        [(y, RealAlgebraicNumber.IR p l u), (x, RealAlgebraicNumber.NR 0)] false ∧
      ¬ EvaluatesTo
        ⟨⟨[(1, Monomial.fromVariable x 2), (1, Monomial.fromVariable y 2)]⟩, Relation.LEQ⟩
        [(y, RealAlgebraicNumber.IR p l u), (x, RealAlgebraicNumber.NR 0)] true := by
  have hyx : y ≠ x := fun h => hxy h.symm
  have hfalse : ∀ σ : Variable → ℝ,
      (∀ v n, List.lookup v [(y, RealAlgebraicNumber.IR p l u),
        (x, RealAlgebraicNumber.NR 0)] = some n → n.Represents (σ v)) →
      ¬ (⟨⟨[(1, Monomial.fromVariable x 2), (1, Monomial.fromVariable y 2)]⟩,
        Relation.LEQ⟩ : Constraint).HoldsAt σ := by
    intro σ hσ hh
    have hy : (RealAlgebraicNumber.IR p l u).Represents (σ y) :=
      hσ y _ (by simp [List.lookup])
    have hbxy : (x == y) = false := beq_eq_false_iff_ne.2 hxy
    have hx : (RealAlgebraicNumber.NR 0).Represents (σ x) :=
      hσ x _ (by simp [List.lookup, hbxy])
    have hx0 : σ x = 0 := by
      simpa [RealAlgebraicNumber.Represents] using hx
    have hy0 : σ y ≠ 0 := hroot _ hy
    have hle : σ x ^ 2 + σ y ^ 2 ≤ 0 := by
      have : (⟨[(1, Monomial.fromVariable x 2), (1, Monomial.fromVariable y 2)]⟩ :
          MultivariatePolynomial).valueAt σ ≤ 0 := hh
      rwa [valueAt_sum_of_squares] at this
    have hpos : 0 < σ y ^ 2 := by positivity
    rw [hx0] at hle
    nlinarith
  constructor
  · intro σ hσ
    constructor
    · intro h
      cases h
    · intro h
      exact absurd h (hfalse σ hσ)
  · intro h
    obtain ⟨r, hr, _⟩ := hiso
    have hσ : ∀ v n, List.lookup v [(y, RealAlgebraicNumber.IR p l u),
        (x, RealAlgebraicNumber.NR 0)] = some n →
        n.Represents ((fun w => if w = y then r else 0) v) := by
      intro v n hv
      by_cases hvy : v = y
      · subst hvy
        simp [List.lookup] at hv
        subst hv
        simpa using hr
      · have hb1 : (v == y) = false := beq_eq_false_iff_ne.2 hvy
        by_cases hvx : v = x
        · subst hvx
          simp [List.lookup, hb1] at hv
          subst hv
          simp [RealAlgebraicNumber.Represents, hvy]
        · have hb2 : (v == x) = false := beq_eq_false_iff_ne.2 hvx
          simp [List.lookup, hb1, hb2] at hv
    exact hfalse _ hσ ((h _ hσ).1 rfl)

/-- The interval of the test isolates the negative root of `h^2 + h - 1`, which is not
zero. -/
theorem isolation_of_test_interval :
    (RealAlgebraicNumber.IR ⟨2, [-1, 1, 1]⟩ (-212079 / 131072)
        (-1696631 / 1048576)).IsolationInvariant ∧
      ∀ r : ℝ, (RealAlgebraicNumber.IR ⟨2, [-1, 1, 1]⟩ (-212079 / 131072)
        (-1696631 / 1048576)).Represents r → r ≠ 0 := by
  have h5 : Real.sqrt 5 ^ 2 = 5 := Real.sq_sqrt (by norm_num)
  have hlo : Real.sqrt 5 < 146543 / 65536 := by
    rw [Real.sqrt_lt' (by norm_num)]
    norm_num
  have hhi : (1172343 / 524288 : ℝ) < Real.sqrt 5 := by
    rw [Real.lt_sqrt (by norm_num)]
    norm_num
  have hrep : ∀ r : ℝ, (RealAlgebraicNumber.IR ⟨2, [-1, 1, 1]⟩ (-212079 / 131072)
      (-1696631 / 1048576)).Represents r ↔
      (-212079 / 131072 < r ∧ r < -1696631 / 1048576 ∧ r ^ 2 + r - 1 = 0) := by
    intro r
    simp only [RealAlgebraicNumber.Represents, UnivariatePolynomial.valueOfCoefficients,
      List.map_cons, List.map_nil]
    push_cast
    constructor
    · rintro ⟨h1, h2, h3⟩
      exact ⟨h1, h2, by linear_combination h3⟩
    · rintro ⟨h1, h2, h3⟩
      exact ⟨h1, h2, by linear_combination h3⟩
  constructor
  · refine ⟨(-1 - Real.sqrt 5) / 2, ?_, ?_⟩
    · show (RealAlgebraicNumber.IR _ _ _).Represents _
      rw [hrep]
      refine ⟨by linarith, by linarith, by linear_combination (1 / 4) * h5⟩
    · intro r hr
      have hr' := (hrep r).1 hr
      obtain ⟨h1, h2, h3⟩ := hr'
      have hprod : (r - (-1 - Real.sqrt 5) / 2) * (r - (-1 + Real.sqrt 5) / 2) = 0 := by
        linear_combination h3 - (1 / 4) * h5
      rcases mul_eq_zero.1 hprod with h | h
      · linarith
      · exfalso
        linarith
  · intro r hr
    obtain ⟨_, h2, _⟩ := (hrep r).1 hr
    intro h0
    rw [h0] at h2
    norm_num at h2

/-- C25 on the test `EvalBug`: `y` is bound to the root of `h^2 + h - 1` in
`]-212079/131072, -1696631/1048576[`, which that interval isolates, and `x` to `0`. -/
theorem evaluate_sum_of_squares_witness :
    (RealAlgebraicNumber.IR ⟨2, [-1, 1, 1]⟩ (-212079 / 131072)
        (-1696631 / 1048576)).IsolationInvariant ∧
      EvaluatesTo
        ⟨⟨[(1, Monomial.fromVariable 1 2), (1, Monomial.fromVariable 0 2)]⟩, Relation.LEQ⟩
        [(0, RealAlgebraicNumber.IR ⟨2, [-1, 1, 1]⟩ (-212079 / 131072)
          (-1696631 / 1048576)), (1, RealAlgebraicNumber.NR 0)] false ∧
      ¬ EvaluatesTo
        ⟨⟨[(1, Monomial.fromVariable 1 2), (1, Monomial.fromVariable 0 2)]⟩, Relation.LEQ⟩
        [(0, RealAlgebraicNumber.IR ⟨2, [-1, 1, 1]⟩ (-212079 / 131072)
          (-1696631 / 1048576)), (1, RealAlgebraicNumber.NR 0)] true :=
  ⟨isolation_of_test_interval.1,
    evaluate_sum_of_squares 1 0 (by decide) ⟨2, [-1, 1, 1]⟩ (-212079 / 131072)
      (-1696631 / 1048576) isolation_of_test_interval.1 isolation_of_test_interval.2⟩

end carl

/-! The reversal of the coefficients of a univariate polynomial -/

namespace UnivariatePolynomial

variable {C : Type}

theorem reverseCoefficientsLoop_cons [Zero C] [DecidableEq C] (a : C) (t : List C) :
    reverseCoefficientsLoop (a :: t) =
      if (a :: t).getLast (List.cons_ne_nil a t) = 0 ∧ (a :: t).length ≠ 1 then
        reverseCoefficientsLoop (a :: t).dropLast
      else some (a :: t) := by
  rw [reverseCoefficientsLoop]

/-- On a vector whose first coefficient is not zero, the loop removes the zero
coefficients at the end. -/
theorem reverseCoefficientsLoop_of_ne_zero [Zero C] [DecidableEq C] (a : C) (ha : a ≠ 0)
    (t : List C) :
    reverseCoefficientsLoop (a :: t) =
      some ((a :: t).rdropWhile (fun c => decide (c = 0))) := by
  induction t using List.reverseRecOn with
  | nil =>
    rw [reverseCoefficientsLoop_cons]
    simp [ha, List.rdropWhile]
  | append_singleton t' c ih =>
    rw [reverseCoefficientsLoop_cons]
    have hl : (a :: (t' ++ [c])).getLast (List.cons_ne_nil _ _) = c := by simp
    have hd : (a :: (t' ++ [c])).dropLast = a :: t' := by
      rw [← List.cons_append, List.dropLast_concat]
    rw [hl, hd]
    by_cases hc : c = 0
    · rw [if_pos ⟨hc, by simp⟩, ih, ← List.cons_append,
        List.rdropWhile_concat_pos _ _ _ (by simpa using hc)]
    · rw [if_neg (fun h => hc h.1), ← List.cons_append,
        List.rdropWhile_concat_neg _ _ _ (by simpa using hc)]

theorem getLast?_rdropWhile (p : C → Bool) (l : List C) (c : C)
    (h : (l.rdropWhile p).getLast? = some c) : p c = false := by
  induction l using List.reverseRecOn with
  | nil => simp [List.rdropWhile] at h
  | append_singleton l' d ih =>
    by_cases hd : p d = true
    · rw [List.rdropWhile_concat_pos _ _ _ hd] at h
      exact ih h
    · rw [List.rdropWhile_concat_neg _ _ _ hd] at h
      simp at h
      rw [← h]
      simpa using hd

end UnivariatePolynomial

namespace UnivariatePolynomial

variable {C : Type}

/-- The coefficients of a consistent polynomial that is not zero end with a leading
coefficient that is not zero. -/
theorem coefficients_of_consistent [Zero C] [DecidableEq C] (p : UnivariatePolynomial C)
    (hp : p.isConsistent = true) (hne : p.mCoefficients ≠ []) :
    ∃ init lcoeff, p.mCoefficients = init ++ [lcoeff] ∧ lcoeff ≠ 0 := by
  obtain ⟨init, lcoeff, h⟩ : ∃ init lcoeff, p.mCoefficients = init ++ [lcoeff] :=
    ⟨p.mCoefficients.dropLast, p.mCoefficients.getLast hne,
      (List.dropLast_append_getLast hne).symm⟩
  refine ⟨init, lcoeff, h, ?_⟩
  unfold isConsistent at hp
  rw [h, List.getLast?_concat] at hp
  simpa using hp

/-- C31: for a consistent polynomial `p` with at least one coefficient,
`reverseCoefficients()` returns a polynomial with the main variable of `p` whose
coefficients are the reversed coefficients of `p` without the zero coefficients at
their end, the leading end; the result passes the consistency assertion and has a
coefficient; and when the constant coefficient of `p` is not zero,
`reverseCoefficients()` of the result is `p`. -/
theorem reverseCoefficients_spec [Zero C] [DecidableEq C] (p : UnivariatePolynomial C)
    (hp : p.isConsistent = true) (hne : p.mCoefficients ≠ []) :
    ∃ q, p.reverseCoefficients = some q ∧ q.mMainVar = p.mMainVar ∧
      q.mCoefficients = p.mCoefficients.reverse.rdropWhile (fun c => decide (c = 0)) ∧
      q.isConsistent = true ∧ q.mCoefficients ≠ [] ∧
      (p.mCoefficients.head hne ≠ 0 → q.reverseCoefficients = some p) := by
  obtain ⟨init, lcoeff, hl, hl0⟩ := coefficients_of_consistent p hp hne
  have hrev : p.mCoefficients.reverse = lcoeff :: init.reverse := by
    rw [hl, List.reverse_append, List.reverse_singleton, List.singleton_append]
  have hloop : reverseCoefficientsLoop p.mCoefficients.reverse =
      some (p.mCoefficients.reverse.rdropWhile (fun c => decide (c = 0))) := by
    rw [hrev]
    exact reverseCoefficientsLoop_of_ne_zero lcoeff hl0 _
  have hq : p.reverseCoefficients =
      some ⟨p.mMainVar, p.mCoefficients.reverse.rdropWhile (fun c => decide (c = 0))⟩ := by
    unfold reverseCoefficients
    rw [hloop]
    rfl
  have hnonempty : p.mCoefficients.reverse.rdropWhile (fun c => decide (c = 0)) ≠ [] := by
    rw [hrev]
    induction init.reverse using List.reverseRecOn with
    | nil => simp [List.rdropWhile, hl0]
    | append_singleton t c ih =>
      rw [← List.cons_append, List.rdropWhile_concat]
      split
      · exact ih
      · simp
  refine ⟨_, hq, rfl, rfl, ?_, hnonempty, ?_⟩
  · unfold isConsistent
    cases hg : (p.mCoefficients.reverse.rdropWhile (fun c => decide (c = 0))).getLast? with
    | none => rfl
    | some c =>
      have := getLast?_rdropWhile _ _ c hg
      simpa using this
  · intro hhead
    obtain ⟨a, t, hat⟩ : ∃ a t, p.mCoefficients = a :: t := by
      cases hc : p.mCoefficients with
      | nil => exact absurd hc hne
      | cons a t => exact ⟨a, t, rfl⟩
    have ha : a ≠ 0 := by
      have : p.mCoefficients.head hne = a := by simp [hat]
      rw [this] at hhead
      exact hhead
    have hrd : p.mCoefficients.reverse.rdropWhile (fun c => decide (c = 0)) =
        p.mCoefficients.reverse := by
      rw [hat, List.reverse_cons, List.rdropWhile_concat_neg _ _ _ (by simpa using ha)]
    unfold reverseCoefficients
    show Option.map _ (reverseCoefficientsLoop
      (p.mCoefficients.reverse.rdropWhile (fun c => decide (c = 0))).reverse) = some p
    rw [hrd, List.reverse_reverse, hat, reverseCoefficientsLoop_of_ne_zero a ha, ← hat, hl,
      List.rdropWhile_concat_neg _ _ _ (by simpa using hl0), ← hl]
    rfl

/-- C31 on `2 x^3 + x^2` over the integers: the result is `x + 2`. -/
theorem reverseCoefficients_spec_witness :
    ∃ q, (⟨0, [0, 0, 1, 2]⟩ : UnivariatePolynomial ℤ).reverseCoefficients = some q ∧
      q.mMainVar = 0 ∧ q.mCoefficients = [2, 1] ∧ q.isConsistent = true := by
  obtain ⟨q, h1, h2, h3, h4, _⟩ := reverseCoefficients_spec
    (⟨0, [0, 0, 1, 2]⟩ : UnivariatePolynomial ℤ) (by decide) (by decide)
  refine ⟨q, h1, h2, ?_, h4⟩
  rw [h3]
  simp [List.rdropWhile]

/-- C32 at a failing input: the zero polynomial `UnivariatePolynomial(x)`, with no
coefficient, is consistent, and `reverseCoefficients()` on it reads the last coefficient
of an empty vector, which does not exist. -/
theorem reverseCoefficients_zero [Zero C] [DecidableEq C] (x : Variable) :
    (zeroOf x : UnivariatePolynomial C).isConsistent = true ∧
      (zeroOf x : UnivariatePolynomial C).mCoefficients = [] ∧
      (zeroOf x : UnivariatePolynomial C).reverseCoefficients = none := by
  refine ⟨rfl, rfl, ?_⟩
  simp [zeroOf, reverseCoefficients, reverseCoefficientsLoop]

end UnivariatePolynomial

/-! The two overloads of the division -/

theorem dividedByVarLoop_of_above {v : Nat} {l : List (Nat × Nat)} (h : Above v l) :
    dividedByVarLoop v l = none := by
  induction l with
  | nil => rfl
  | cons it rest ih =>
    rw [above_cons] at h
    rw [dividedByVarLoop, if_neg (by omega), ih h.2]
    rfl

theorem dividedByLoop_nil (l : List (Nat × Nat)) : dividedByLoop l [] = some l := by
  cases l with
  | nil => rw [dividedByLoop_nil_left]; rfl
  | cons p t => exact dividedByLoop_nil_right p t

/-- The loop of the division by the monomial `v^1` does what the division by the
variable `v` does. -/
theorem dividedByLoop_single (v : Nat) :
    ∀ l : List (Nat × Nat), SortedVars l → PosExp l → sumExp l < expMod →
      dividedByLoop l [(v, 1)] = dividedByVarLoop v l
  | [], _, _, _ => by
    rw [dividedByLoop_nil_left]
    rfl
  | it :: rest, hs, hp, hb => by
    obtain ⟨hal, hsl⟩ := (sortedVars_cons it rest).1 hs
    obtain ⟨h0, hpl⟩ := (posExp_cons it rest).1 hp
    rw [sumExp_cons] at hb
    rw [dividedByLoop_cons_cons, dividedByVarLoop]
    by_cases h : it.1 = v
    · have hu : usub it.2 1 = it.2 - 1 := usub_of_le (by omega) (by omega)
      rw [if_pos h, if_pos h, hu, if_neg (by omega), dividedByLoop_nil]
      by_cases h1 : it.2 = 1
      · rw [if_pos h1, if_neg (by omega)]
      · rw [if_neg h1, if_pos (by omega)]
        rfl
    · rw [if_neg h, if_neg h]
      by_cases hgt : it.1 > v
      · rw [if_pos hgt, dividedByVarLoop_of_above (above_mono (le_of_lt hgt) hal)]
        rfl
      · rw [if_neg hgt, dividedByLoop_single v rest hsl hpl (by omega)]

namespace Monomial

/-- The division by a variable is the division by the monomial of that variable. -/
theorem dividedByVar_eq {m : Monomial} (hm : m.Consistent) (v : Nat) :
    m.dividedByVar v = m.dividedBy (fromVariable v 1) := by
  obtain ⟨h1, h2, h3, h4⟩ := hm
  unfold dividedByVar dividedBy fromVariable
  cases hl : m.mExponents with
  | nil =>
    have h0 : m.mTotalDegree = 0 := by rw [h3, hl, sumExp_nil]
    simp [dividedByVarLoop, h0]
  | cons p t =>
    have hpos : 1 ≤ m.mTotalDegree := by
      rw [h3, hl, sumExp_cons]
      have := ((posExp_cons p t).1 (hl ▸ h2)).1
      omega
    rw [if_neg (by simp; omega), ← hl, dividedByLoop_single v m.mExponents h1 h2 (by omega)]

/-- C33: for consistent monomials `a` and `b`, `a.dividableBy(b)` returns true if and
only if `a.dividedBy(b)` returns a monomial and not null. -/
theorem dividableBy_iff_dividedBy (a b : Monomial) (ha : a.Consistent) (hb : b.Consistent) :
    a.dividableBy b = true ↔ ∃ q, a.dividedBy b = some q := by
  rw [dividableBy_eq ha hb, Option.isSome_iff_exists]

/-- C33 on `x^2 * y` and `x`, and on `x` and `y`. -/
theorem dividableBy_iff_dividedBy_witness :
    ((⟨[(0, 2), (1, 1)], 3⟩ : Monomial).dividableBy ⟨[(0, 1)], 1⟩ = true ↔
        ∃ q, (⟨[(0, 2), (1, 1)], 3⟩ : Monomial).dividedBy ⟨[(0, 1)], 1⟩ = some q) ∧
      ((⟨[(0, 1)], 1⟩ : Monomial).dividableBy ⟨[(1, 1)], 1⟩ = true ↔
        ∃ q, (⟨[(0, 1)], 1⟩ : Monomial).dividedBy ⟨[(1, 1)], 1⟩ = some q) :=
  ⟨dividableBy_iff_dividedBy _ _ (by decide) (by decide),
    dividableBy_iff_dividedBy _ _ (by decide) (by decide)⟩

/-- C34: for a consistent monomial `m` and a variable `v`, `m.dividedBy(v)` is null if
and only if `m.dividedBy(Monomial(v, 1))` is null, and a monomial that the one returns
is equal to the monomial that the other returns. -/
theorem dividedByVar_agrees (m : Monomial) (hm : m.Consistent) (v : Variable) :
    (m.dividedByVar v = none ↔ m.dividedBy (fromVariable v 1) = none) ∧
      ∀ q, m.dividedByVar v = some q →
        ∃ q', m.dividedBy (fromVariable v 1) = some q' ∧ q.eq q' = true ∧
          q.mExponents = q'.mExponents ∧ q.mTotalDegree = q'.mTotalDegree := by
  rw [dividedByVar_eq hm v]
  exact ⟨Iff.rfl, fun q hq => ⟨q, hq, (eq_iff q q).2 rfl, rfl, rfl⟩⟩

/-- C34 on `x^2 * y` and `x`: both calls return `x * y`. -/
theorem dividedByVar_agrees_witness :
    ∃ q', (⟨[(0, 2), (1, 1)], 3⟩ : Monomial).dividedBy (fromVariable 0 1) = some q' ∧
      (⟨[(0, 1), (1, 1)], 2⟩ : Monomial).eq q' = true ∧
      (⟨[(0, 1), (1, 1)], 2⟩ : Monomial).mExponents = q'.mExponents ∧
      (⟨[(0, 1), (1, 1)], 2⟩ : Monomial).mTotalDegree = q'.mTotalDegree :=
  (dividedByVar_agrees ⟨[(0, 2), (1, 1)], 3⟩ (by decide) 0).2 ⟨[(0, 1), (1, 1)], 2⟩
    (by decide)

end Monomial

namespace Monomial

/-! Claims on the comparison with a variable and on the least monomial -/

/-- Where the two overloads of `compareLexical` agree on a monomial with a first pair:
only where the first variable is `v` and its exponent is larger than one. -/
theorem compareLexicalVar_agrees_iff (p : Nat × Nat) (t : List (Nat × Nat)) (d v : Nat)
    (hp : 0 < p.2) :
    compareLexicalVar ⟨p :: t, d⟩ v = some (compareLexical ⟨p :: t, d⟩ (fromVariable v 1)) ↔
      p.1 = v ∧ 1 < p.2 := by
  unfold compareLexicalVar compareLexical lexicalCompare fromVariable
  simp only [List.head?_cons, lexLoop_cons_cons]
  rcases Nat.lt_trichotomy p.1 v with h | h | h
  · have h1 : ¬ p.1 > v := by omega
    have h2 : p.1 ≠ v := by omega
    simp [h, h2]
  · have h1 : ¬ p.1 < v := by omega
    have h2 : ¬ p.1 > v := by omega
    have h3 : ¬ p.2 < 1 := by omega
    by_cases h4 : p.2 > 1
    · simp [h, h1, h2, h3, h4]
    · have h5 : ¬ 1 < p.2 := by omega
      cases t with
      | nil => simp [h, h1, h2, h3, h4, h5, lexicalCompareLoop]
      | cons q t' => simp [h, h1, h2, h3, h4, h5, lexicalCompareLoop]
  · have h1 : ¬ p.1 < v := by omega
    have h2 : p.1 ≠ v := by omega
    simp [h, h1, h2]

/-- C35 at failing inputs: for the monomial `x` and the variable `x`, the overload for
a variable returns `LESS` and the overload for monomials `EQUAL`; for the monomial `x`
and the variable `y` with `x < y`, the one returns `LESS` and the other `GREATER`. The
overload of `compareGradedLexical` for a variable returns `EQUAL` and `GREATER` there,
as the order of the monomials does. -/
theorem compareLexicalVar_disagrees :
    (⟨[(0, 1)], 1⟩ : Monomial).Consistent ∧
      compareLexicalVar ⟨[(0, 1)], 1⟩ 0 = some CompareResult.LESS ∧
      compareLexical ⟨[(0, 1)], 1⟩ (fromVariable 0 1) = CompareResult.EQUAL ∧
      compareLexicalVar ⟨[(0, 1)], 1⟩ 1 = some CompareResult.LESS ∧
      compareLexical ⟨[(0, 1)], 1⟩ (fromVariable 1 1) = CompareResult.GREATER ∧
      compareGradedLexicalVar ⟨[(0, 1)], 1⟩ 0 = some CompareResult.EQUAL ∧
      compareGradedLexicalVar ⟨[(0, 1)], 1⟩ 1 = some CompareResult.GREATER ∧
      compareGradedLexical ⟨[(0, 1)], 1⟩ (fromVariable 1 1) = CompareResult.GREATER := by
  decide

end Monomial

namespace Monomial

/-- A monomial whose exponents are at most those of another one is not greater than it
in the lexicographic comparison. -/
theorem lexicalCompare_of_le {a b : Monomial} (ha : a.Consistent) (hb : b.Consistent)
    (h : ∀ v, b.exponentOfVariable v ≤ a.exponentOfVariable v) :
    lexicalCompareLoop b.mExponents a.mExponents = CompareResult.LESS ∨
      lexicalCompareLoop b.mExponents a.mExponents = CompareResult.EQUAL := by
  cases hc : lexicalCompareLoop b.mExponents a.mExponents with
  | LESS => exact Or.inl rfl
  | EQUAL => exact Or.inr rfl
  | GREATER =>
    exfalso
    have hless := (lexLoop_less_iff_greater a.mExponents b.mExponents).2 hc
    obtain ⟨v, _, hv⟩ := lexLess_of_less _ _ ha.1 hb.1 hb.2.1 hless
    have := h v
    unfold exponentOfVariable at this
    omega

/-- C36: for a consistent monomial `m` that is not constant, the comparison of the
constant monomial without variables with `m` yields `LESS` under `compareLexical` and
under `compareGradedLexical`; and for consistent monomials `a` and `b`, whenever
`a.dividedBy(b)` is not null, the comparison of `b` with `a` yields `LESS` or `EQUAL`
under both. -/
theorem constant_least (m a b : Monomial) (hm : m.Consistent) (ha : a.Consistent)
    (hb : b.Consistent) :
    (m.isConstant = false →
        compareLexical ⟨[], 0⟩ m = CompareResult.LESS ∧
          compareGradedLexical ⟨[], 0⟩ m = CompareResult.LESS) ∧
      ((a.dividedBy b).isSome = true →
        (compareLexical b a = CompareResult.LESS ∨
            compareLexical b a = CompareResult.EQUAL) ∧
          (compareGradedLexical b a = CompareResult.LESS ∨
            compareGradedLexical b a = CompareResult.EQUAL)) := by
  constructor
  · intro hc
    have hdeg : m.mTotalDegree ≠ 0 := by simpa [isConstant] using hc
    constructor
    · show lexicalCompareLoop [] m.mExponents = CompareResult.LESS
      cases hl : m.mExponents with
      | nil =>
        have := hm.2.2.1
        rw [hl, sumExp_nil] at this
        exact absurd this hdeg
      | cons p t => rfl
    · unfold compareGradedLexical
      rw [if_pos (by show 0 < m.mTotalDegree; omega)]
  · intro hd
    obtain ⟨q, hq⟩ := Option.isSome_iff_exists.1 hd
    obtain ⟨_, hexp, hdeg⟩ := dividedBy_some ha hb hq
    have hlex := lexicalCompare_of_le ha hb (fun v => (hexp v).1)
    refine ⟨hlex, ?_⟩
    unfold compareGradedLexical
    by_cases h1 : b.mTotalDegree < a.mTotalDegree
    · rw [if_pos h1]
      exact Or.inl rfl
    · rw [if_neg h1, if_neg (by omega)]
      exact hlex

/-- C36 on `m = x * y`, and on `a = x^2 * y` with its divisor `b = x`. -/
theorem constant_least_witness :
    (compareLexical ⟨[], 0⟩ ⟨[(0, 1), (1, 1)], 2⟩ = CompareResult.LESS ∧
        compareGradedLexical ⟨[], 0⟩ ⟨[(0, 1), (1, 1)], 2⟩ = CompareResult.LESS) ∧
      ((compareLexical ⟨[(0, 1)], 1⟩ ⟨[(0, 2), (1, 1)], 3⟩ = CompareResult.LESS ∨
          compareLexical ⟨[(0, 1)], 1⟩ ⟨[(0, 2), (1, 1)], 3⟩ = CompareResult.EQUAL) ∧
        (compareGradedLexical ⟨[(0, 1)], 1⟩ ⟨[(0, 2), (1, 1)], 3⟩ = CompareResult.LESS ∨
          compareGradedLexical ⟨[(0, 1)], 1⟩ ⟨[(0, 2), (1, 1)], 3⟩ = CompareResult.EQUAL)) :=
  ⟨(constant_least ⟨[(0, 1), (1, 1)], 2⟩ ⟨[(0, 2), (1, 1)], 3⟩ ⟨[(0, 1)], 1⟩ (by decide)
      (by decide) (by decide)).1 (by decide),
    (constant_least ⟨[(0, 1), (1, 1)], 2⟩ ⟨[(0, 2), (1, 1)], 3⟩ ⟨[(0, 1)], 1⟩ (by decide)
      (by decide) (by decide)).2 (by decide)⟩

end Monomial

namespace Monomial

/-! Claims on the least common multiple as the least one -/

theorem lcmDegree_comm (a b : Monomial) : lcmDegree a b = lcmDegree b a := by
  unfold lcmDegree
  rw [Finset.union_comm]
  exact Finset.sum_congr rfl (fun v _ => Nat.max_comm _ _)

/-- The degree of the least common multiple is at most the degree of a common
multiple. -/
theorem lcmDegree_le {a b c : Monomial} (hc : c.Consistent)
    (hac : ∀ v, a.exponentOfVariable v ≤ c.exponentOfVariable v)
    (hbc : ∀ v, b.exponentOfVariable v ≤ c.exponentOfVariable v) :
    lcmDegree a b ≤ c.mTotalDegree := by
  have hsum : sumExp c.mExponents =
      ∑ v ∈ (a.gatherVariables ∪ b.gatherVariables) ∪ c.gatherVariables, expOf c.mExponents v :=
    sumExp_eq_sum hc.1 _ (fun p hp => by
      apply Finset.mem_union_right
      unfold gatherVariables
      rw [List.mem_toFinset]
      exact List.mem_map.2 ⟨p, hp, rfl⟩)
  rw [hc.2.2.1, hsum]
  unfold lcmDegree
  calc ∑ v ∈ a.gatherVariables ∪ b.gatherVariables,
        max (a.exponentOfVariable v) (b.exponentOfVariable v)
      ≤ ∑ v ∈ a.gatherVariables ∪ b.gatherVariables, expOf c.mExponents v :=
        Finset.sum_le_sum (fun v _ => Nat.max_le.2 ⟨hac v, hbc v⟩)
    _ ≤ ∑ v ∈ (a.gatherVariables ∪ b.gatherVariables) ∪ c.gatherVariables,
        expOf c.mExponents v :=
        Finset.sum_le_sum_of_subset Finset.subset_union_left

theorem lcm_comm {a b : Monomial} (ha : a.Consistent) (hb : b.Consistent) :
    a.lcm b = b.lcm a := by
  have he : (a.lcm b).mExponents = (b.lcm a).mExponents :=
    eq_of_expOf_eq _ _ (sortedVars_lcmLoop ha.1 hb.1) (posExp_lcmLoop ha.2.1 hb.2.1)
      (sortedVars_lcmLoop hb.1 ha.1) (posExp_lcmLoop hb.2.1 ha.2.1) (fun v => by
        have h1 := exponentOfVariable_lcm ha hb v
        have h2 := exponentOfVariable_lcm hb ha v
        unfold exponentOfVariable at h1 h2
        rw [h1, h2, Nat.max_comm])
  have hd : (a.lcm b).mTotalDegree = (b.lcm a).mTotalDegree := by
    rw [tdeg_lcm ha hb, tdeg_lcm hb ha, lcmDegree_comm]
  cases hx : a.lcm b with
  | mk e1 d1 =>
    cases hy : b.lcm a with
    | mk e2 d2 =>
      rw [hx, hy] at he hd
      simp only at he hd
      rw [he, hd]

theorem lcm_self {a : Monomial} (ha : a.Consistent) : a.lcm a = a := by
  have he : (a.lcm a).mExponents = a.mExponents :=
    eq_of_expOf_eq _ _ (sortedVars_lcmLoop ha.1 ha.1) (posExp_lcmLoop ha.2.1 ha.2.1)
      ha.1 ha.2.1 (fun v => by
        have h1 := exponentOfVariable_lcm ha ha v
        unfold exponentOfVariable at h1
        rw [h1, Nat.max_self])
  have hs := sumExp_lcm ha ha
  rw [he] at hs
  have hd : (a.lcm a).mTotalDegree = a.mTotalDegree := by
    rw [tdeg_lcm ha ha, ← hs, ← ha.2.2.1]
    exact Nat.mod_eq_of_lt ha.2.2.2
  cases hx : a.lcm a with
  | mk e1 d1 =>
    rw [hx] at he hd
    simp only at he hd
    rw [he, hd]

/-- C37: for consistent monomials `a`, `b` and `c`, if `c.dividableBy(a)` and
`c.dividableBy(b)` then `c.dividableBy(lcm(a, b))`; and `lcm(a, b) == lcm(b, a)` and
`lcm(a, a) == a`. -/
theorem lcm_least (a b c : Monomial) (ha : a.Consistent) (hb : b.Consistent)
    (hc : c.Consistent) :
    (c.dividableBy a = true → c.dividableBy b = true → c.dividableBy (a.lcm b) = true) ∧
      (a.lcm b).eq (b.lcm a) = true ∧ (a.lcm a).eq a = true := by
  refine ⟨fun h1 h2 => ?_, (eq_iff _ _).2 (lcm_comm ha hb), (eq_iff _ _).2 (lcm_self ha)⟩
  rw [dividableBy_eq hc ha] at h1
  rw [dividableBy_eq hc hb] at h2
  obtain ⟨qa, hqa⟩ := Option.isSome_iff_exists.1 h1
  obtain ⟨qb, hqb⟩ := Option.isSome_iff_exists.1 h2
  obtain ⟨_, hea, _⟩ := dividedBy_some hc ha hqa
  obtain ⟨_, heb, _⟩ := dividedBy_some hc hb hqb
  have hdeg := lcmDegree_le hc (fun v => (hea v).1) (fun v => (heb v).1)
  have hl : (a.lcm b).Consistent := consistent_lcm ha hb (by have := hc.2.2.2; omega)
  rw [dividableBy_eq hc hl]
  obtain ⟨q, hq⟩ := dividedBy_isSome hc hl (fun v => by
    rw [exponentOfVariable_lcm ha hb v]
    exact Nat.max_le.2 ⟨(hea v).1, (heb v).1⟩)
  rw [hq]
  rfl

/-- C37 on `a = x^2 * y`, `b = y^3 * z` and their common multiple
`c = x^2 * y^3 * z^2`. -/
theorem lcm_least_witness :
    (⟨[(0, 2), (1, 3), (2, 2)], 7⟩ : Monomial).dividableBy
        ((⟨[(0, 2), (1, 1)], 3⟩ : Monomial).lcm ⟨[(1, 3), (2, 1)], 4⟩) = true ∧
      ((⟨[(0, 2), (1, 1)], 3⟩ : Monomial).lcm ⟨[(1, 3), (2, 1)], 4⟩).eq
        ((⟨[(1, 3), (2, 1)], 4⟩ : Monomial).lcm ⟨[(0, 2), (1, 1)], 3⟩) = true ∧
      ((⟨[(0, 2), (1, 1)], 3⟩ : Monomial).lcm ⟨[(0, 2), (1, 1)], 3⟩).eq
        ⟨[(0, 2), (1, 1)], 3⟩ = true :=
  ⟨(lcm_least ⟨[(0, 2), (1, 1)], 3⟩ ⟨[(1, 3), (2, 1)], 4⟩ ⟨[(0, 2), (1, 3), (2, 2)], 7⟩
      (by decide) (by decide) (by decide)).1 (by decide) (by decide),
    (lcm_least ⟨[(0, 2), (1, 1)], 3⟩ ⟨[(1, 3), (2, 1)], 4⟩ ⟨[(0, 2), (1, 3), (2, 2)], 7⟩
      (by decide) (by decide) (by decide)).2⟩

end Monomial

/-! The order of pointers to univariate polynomials -/

namespace UnivariatePolynomial

variable {C : Type}

/-- The overload for pointers is irreflexive when the comparison of the polynomials is,
and on two pointers that are not null it is the comparison of the polynomials. -/
theorem lessPointer_irrefl (less : UnivariatePolynomial C → UnivariatePolynomial C → Bool)
    (hirr : ∀ p, less p p = false) (a : Option (UnivariatePolynomial C)) :
    lessPointer less a a = false ∧
      ∀ p q, lessPointer less (some p) (some q) = less p q := by
  refine ⟨?_, fun _ _ => rfl⟩
  cases a with
  | none => rfl
  | some p => exact hirr p

/-- C38 at a failing input: for a pointer to a polynomial `p` and the null pointer,
whatever the comparison of the polynomials, `less(&p, nullptr)` is true and
`less(nullptr, &p)` is true. -/
theorem lessPointer_null (less : UnivariatePolynomial C → UnivariatePolynomial C → Bool)
    (p : UnivariatePolynomial C) :
    lessPointer less (some p) none = true ∧ lessPointer less none (some p) = true :=
  ⟨rfl, rfl⟩

end UnivariatePolynomial

/-! Sample sets reached by calls of `insert` and `remove` -/

namespace StdSet

variable {S : Type}

/-- The call `erase(key)` keeps every element that has not the key. -/
theorem mem_eraseKey_of_not_equivalent (lt : S → S → Bool) (x y : S) :
    ∀ l : List S, y ∈ l → ¬ Equivalent lt y x → y ∈ eraseKey lt x l
  | [], hy, _ => by cases hy
  | e :: rest, hy, hne => by
    rw [eraseKey]
    by_cases h1 : lt e x = true
    · rw [if_pos h1]
      rcases List.mem_cons.1 hy with hy | hy
      · rw [hy]; exact List.mem_cons_self _ _
      · exact List.mem_cons_of_mem _ (mem_eraseKey_of_not_equivalent lt x y rest hy hne)
    · rw [if_neg h1]
      by_cases h2 : lt x e = true
      · rw [if_pos h2]
        exact hy
      · rw [if_neg h2]
        rcases List.mem_cons.1 hy with hy | hy
        · exfalso
          apply hne
          rw [hy]
          exact ⟨by simpa using h1, by simpa using h2⟩
        · exact hy

/-- After `insert(x)` the set holds an element with the key of `x`, and every element
it held before. -/
theorem insert_covers (lt : S → S → Bool) (hirr : ∀ a, lt a a = false)
    (htrans : ∀ a b c, lt a b = true → lt b c = true → lt a c = true) (x : S)
    (l : List S) (hl : l.Pairwise (fun a b => lt a b = true)) :
    (∃ y ∈ (insert lt x l).1, Equivalent lt y x) ∧ ∀ e ∈ l, e ∈ (insert lt x l).1 := by
  obtain ⟨_, h2, h3, _⟩ := insert_spec lt htrans x l hl
  cases hb : (insert lt x l).2.2 with
  | false =>
    obtain ⟨heq, e, he, hex⟩ := h2 hb
    rw [heq]
    exact ⟨⟨e, List.getElem?_mem he, hex⟩, fun e he => he⟩
  | true =>
    obtain ⟨hx, hperm, _⟩ := h3 hb
    exact ⟨⟨x, List.getElem?_mem hx, hirr x, hirr x⟩,
      fun e he => hperm.symm.subset (List.mem_cons_of_mem _ he)⟩

end StdSet

namespace SampleSet

variable {S : Type}

/-- A call of `insert` or `remove` keeps the ordering, and keeps that the priority store
holds, for every sample of the value-order store, a sample that the comparator takes
for the same. -/
theorem step_covered (less : S → S → Bool) (comp : SampleOrdering → S → S → Bool)
    (hless : StrictWeakOrder less) (hcomp : ∀ o, StrictWeakOrder (comp o))
    (hce : ∀ o a b, Equivalent (comp o) a b → Equivalent less a b)
    (s s' : SampleSet S) (c : SampleSetCall S) (hc : ∀ o, c ≠ SampleSetCall.next o)
    (hs : s.mSamples.Pairwise (fun a b => less a b = true))
    (hq : s.mQueue.Pairwise (fun a b => comp s.ordering a b = true))
    (hcov : ∀ x ∈ s.mSamples, ∃ y ∈ s.mQueue, Equivalent (comp s.ordering) y x)
    (h : s.step less comp c = some s') :
    s'.ordering = s.ordering ∧
      ∀ x ∈ s'.mSamples, ∃ y ∈ s'.mQueue, Equivalent (comp s'.ordering) y x := by
  cases c with
  | insert r =>
    simp only [step, Option.some.injEq] at h
    subst h
    refine ⟨rfl, fun x hx => ?_⟩
    obtain ⟨⟨y, hy, hyr⟩, hkeep⟩ := StdSet.insert_covers (comp s.ordering)
      (hcomp s.ordering).irrefl (hcomp s.ordering).trans r s.mQueue hq
    obtain ⟨_, _, _, h4⟩ := StdSet.insert_spec less hless.trans r s.mSamples hs
    rcases h4 x hx with hxr | hxs
    · rw [hxr]
      exact ⟨y, hy, hyr⟩
    · obtain ⟨z, hz, hzx⟩ := hcov x hxs
      exact ⟨z, hkeep z hz, hzx⟩
  | remove position =>
    simp only [step, remove] at h
    cases hx0 : s.mSamples[position]? with
    | none => rw [hx0] at h; cases h
    | some x0 =>
      rw [hx0] at h
      simp only [Option.map_some', Option.some.injEq] at h
      subst h
      refine ⟨rfl, fun x hx => ?_⟩
      have hxs : x ∈ s.mSamples := (List.eraseIdx_sublist _ _).subset hx
      obtain ⟨y, hy, hyx⟩ := hcov x hxs
      refine ⟨y, StdSet.mem_eraseKey_of_not_equivalent _ _ _ _ hy (fun hyx0 => ?_), hyx⟩
      have hxx0 : Equivalent less x x0 :=
        hce s.ordering x x0 ((hcomp s.ordering).equivalent_trans hyx.symm hyx0)
      rcases StdSet.related_of_mem_eraseIdx hs hx0 hx with h1 | h1
      · rw [hxx0.1] at h1; cases h1
      · rw [hxx0.2] at h1; cases h1
  | next o => exact absurd rfl (hc o)

/-- After calls of `insert` and `remove` on a new sample set, both stores are sorted, the
ordering is the first one, and the priority store holds, for every sample of the
value-order store, a sample that the comparator takes for the same. -/
theorem run_covered (less : S → S → Bool) (comp : SampleOrdering → S → S → Bool)
    (hless : StrictWeakOrder less) (hcomp : ∀ o, StrictWeakOrder (comp o))
    (hce : ∀ o a b, Equivalent (comp o) a b → Equivalent less a b) :
    ∀ (calls : List (SampleSetCall S)) (s s' : SampleSet S),
      (∀ c ∈ calls, ∀ o, c ≠ SampleSetCall.next o) →
      s.mSamples.Pairwise (fun a b => less a b = true) →
      s.mQueue.Pairwise (fun a b => comp s.ordering a b = true) →
      (∀ x ∈ s.mSamples, ∃ y ∈ s.mQueue, Equivalent (comp s.ordering) y x) →
      s.run less comp calls = some s' →
      s'.ordering = s.ordering ∧
        s'.mQueue.Pairwise (fun a b => comp s'.ordering a b = true) ∧
        ∀ x ∈ s'.mSamples, ∃ y ∈ s'.mQueue, Equivalent (comp s'.ordering) y x
  | [], s, s', _, _, hq, hcov, h => by
    simp only [run, Option.some.injEq] at h
    subst h
    exact ⟨rfl, hq, hcov⟩
  | c :: cs, s, s', hcalls, hs, hq, hcov, h => by
    rw [run] at h
    cases hc : s.step less comp c with
    | none => rw [hc] at h; cases h
    | some s₁ =>
      rw [hc] at h
      obtain ⟨ho, hcov₁⟩ := step_covered less comp hless hcomp hce s s₁ c
        (hcalls c (List.mem_cons_self _ _)) hs hq hcov hc
      obtain ⟨ho', hq', hcov'⟩ := run_covered less comp hless hcomp hce cs s₁ s'
        (fun c' hc' => hcalls c' (List.mem_cons_of_mem _ hc'))
        (step_samples_sorted less comp hless s s₁ c hs hc)
        (step_queue_sorted less comp hcomp s s₁ c hq hc) hcov₁ h
      exact ⟨ho'.trans ho, hq', hcov'⟩

end SampleSet

/-- Under `IntRatRoot` the samples of the lowest classes are the numeric integers. -/
theorem SampleComparator.classKey_lt_four {S : Type} (ops : SampleOps S) (a : S) :
    classKey ops SampleOrdering.IntRatRoot a < 4 ↔
      (ops.isNumeric a = true ∧ ops.isInteger a = true) := by
  simp only [classKey]
  cases ops.isNumeric a <;> cases ops.isInteger a <;> cases ops.isRoot a <;> simp

/-! Claims on `next()`, `remove` and `simplify` -/

namespace SampleSet

variable {S : Type}

/-- C20: after any calls of `insert` and `remove` (at valid positions) on a new sample
set with the ordering `IntRatRoot` (a call of `next(ordering)` does not compile), if a
numeric sample with an integer value is in the value-order store or in the priority
store, `next()` returns a numeric sample with an integer value. In the scenario, after
`insert` of the two roots of `x^2 - 2` and of the numeric `1`, `next()` returns `1`. -/
theorem next_prefers_integers (ops : SampleOps S) (hless : StrictWeakOrder ops.less)
    (calls : List (SampleSetCall S)) (hcalls : ∀ c ∈ calls, ∀ o, c ≠ SampleSetCall.next o)
    (s : SampleSet S)
    (hrun : (init SampleOrdering.IntRatRoot).run ops.less (SampleComparator.call ops) calls =
      some s)
    (i : S) (hi : i ∈ s.mSamples ∨ i ∈ s.mQueue) (hnum : ops.isNumeric i = true)
    (hint : ops.isInteger i = true) :
    (∃ x, s.next = some x ∧ ops.isNumeric x = true ∧ ops.isInteger x = true) ∧
      (init SampleOrdering.IntRatRoot).run scenarioOps.less
          (SampleComparator.call scenarioOps)
          [SampleSetCall.insert ScenarioSample.negRootOfTwo,
            SampleSetCall.insert ScenarioSample.posRootOfTwo,
            SampleSetCall.insert ScenarioSample.one] =
        some ⟨[ScenarioSample.negRootOfTwo, ScenarioSample.one, ScenarioSample.posRootOfTwo],
          [ScenarioSample.one, ScenarioSample.negRootOfTwo, ScenarioSample.posRootOfTwo],
          SampleOrdering.IntRatRoot⟩ ∧
      (⟨[ScenarioSample.negRootOfTwo, ScenarioSample.one, ScenarioSample.posRootOfTwo],
          [ScenarioSample.one, ScenarioSample.negRootOfTwo, ScenarioSample.posRootOfTwo],
          SampleOrdering.IntRatRoot⟩ : SampleSet ScenarioSample).next =
        some ScenarioSample.one := by
  refine ⟨?_, rfl, rfl⟩
  obtain ⟨ho, hq, hcov⟩ := run_covered ops.less (SampleComparator.call ops) hless
    (SampleComparator.call_strictWeakOrder ops hless)
    (fun o a b h => ((SampleComparator.call_equivalent_iff ops o a b).1 h).2)
    calls (init SampleOrdering.IntRatRoot) s hcalls List.Pairwise.nil List.Pairwise.nil
    (fun x hx => by cases hx) hrun
  have ho' : s.ordering = SampleOrdering.IntRatRoot := ho
  rw [ho'] at hq hcov
  have hki : SampleComparator.classKey ops SampleOrdering.IntRatRoot i < 4 :=
    (SampleComparator.classKey_lt_four ops i).2 ⟨hnum, hint⟩
  obtain ⟨y, hy, hky⟩ : ∃ y ∈ s.mQueue,
      SampleComparator.classKey ops SampleOrdering.IntRatRoot y < 4 := by
    rcases hi with hi | hi
    · obtain ⟨y, hy, hyi⟩ := hcov i hi
      refine ⟨y, hy, ?_⟩
      rw [((SampleComparator.call_equivalent_iff ops _ y i).1 hyi).1]
      exact hki
    · exact ⟨i, hi, hki⟩
  unfold next
  cases hl : s.mQueue with
  | nil =>
    rw [hl] at hy
    cases hy
  | cons x rest =>
    refine ⟨x, rfl, (SampleComparator.classKey_lt_four ops x).1 ?_⟩
    rw [hl] at hy hq
    rcases List.mem_cons.1 hy with hyx | hyr
    · rw [← hyx]
      exact hky
    · have hxy := (List.pairwise_cons.1 hq).1 y hyr
      rw [SampleComparator.call_iff] at hxy
      rcases hxy with h | ⟨h, _⟩
      · omega
      · omega

/-- C20 on the scenario: after `insert` of the two roots of `x^2 - 2` and of the numeric
`1` under `IntRatRoot`, `next()` returns a numeric integer, which is `1`. -/
theorem next_prefers_integers_witness :
    (∃ x, (⟨[ScenarioSample.negRootOfTwo, ScenarioSample.one, ScenarioSample.posRootOfTwo],
          [ScenarioSample.one, ScenarioSample.negRootOfTwo, ScenarioSample.posRootOfTwo],
          SampleOrdering.IntRatRoot⟩ : SampleSet ScenarioSample).next = some x ∧
        scenarioOps.isNumeric x = true ∧ scenarioOps.isInteger x = true) ∧
      (⟨[ScenarioSample.negRootOfTwo, ScenarioSample.one, ScenarioSample.posRootOfTwo],
          [ScenarioSample.one, ScenarioSample.negRootOfTwo, ScenarioSample.posRootOfTwo],
          SampleOrdering.IntRatRoot⟩ : SampleSet ScenarioSample).next =
        some ScenarioSample.one :=
  ⟨(next_prefers_integers scenarioOps scenarioOps_strictWeakOrder
      [SampleSetCall.insert ScenarioSample.negRootOfTwo,
        SampleSetCall.insert ScenarioSample.posRootOfTwo,
        SampleSetCall.insert ScenarioSample.one]
      (fun c hc o h => by rw [h] at hc; simp at hc)
      ⟨[ScenarioSample.negRootOfTwo, ScenarioSample.one, ScenarioSample.posRootOfTwo],
        [ScenarioSample.one, ScenarioSample.negRootOfTwo, ScenarioSample.posRootOfTwo],
        SampleOrdering.IntRatRoot⟩ rfl ScenarioSample.one (by decide) rfl rfl).1, rfl⟩

/-- C19 at a failing input: after `insert` of the interval-represented root `2` of
`x^2 - 4`, `insert` of the numeric `2` and `remove(begin())`, the sample set is not empty
and `next()` returns the numeric `2`, which is not among the value-order contents: the
iteration from `begin()` to `end()` yields no sample and `contains` is false. -/
theorem next_not_member :
    (init SampleOrdering.IntRatRoot).run scenarioOps.less (SampleComparator.call scenarioOps)
        [SampleSetCall.insert ScenarioSample.twoIR, SampleSetCall.insert ScenarioSample.twoNR,
          SampleSetCall.remove 0] =
      some ⟨[], [ScenarioSample.twoNR], SampleOrdering.IntRatRoot⟩ ∧
    (⟨[], [ScenarioSample.twoNR], SampleOrdering.IntRatRoot⟩ :
      SampleSet ScenarioSample).empty = false ∧
    (⟨[], [ScenarioSample.twoNR], SampleOrdering.IntRatRoot⟩ :
      SampleSet ScenarioSample).next = some ScenarioSample.twoNR ∧
    ScenarioSample.twoNR ∉ (⟨[], [ScenarioSample.twoNR], SampleOrdering.IntRatRoot⟩ :
      SampleSet ScenarioSample).mSamples ∧
    (⟨[], [ScenarioSample.twoNR], SampleOrdering.IntRatRoot⟩ :
      SampleSet ScenarioSample).contains scenarioOps.less ScenarioSample.twoNR = false :=
  ⟨rfl, rfl, rfl, by decide, rfl⟩

/-- C22 at failing inputs. After `insert` of the interval-represented root `2` of
`x^2 - 4` and `insert` of the numeric `2`, `remove(begin())` removes the root, and the
priority store still holds a sample of the value removed, which `next()` returns while
`contains` is false for it. And with a second object for the numeric `2` inserted
afterwards, which enters the value-order store only, `remove(begin())` of that object
erases the first object from the priority store, a sample that is not the one
designated. -/
theorem remove_erases_other :
    (init SampleOrdering.IntRatRoot).run scenarioOps.less (SampleComparator.call scenarioOps)
        [SampleSetCall.insert ScenarioSample.twoIR, SampleSetCall.insert ScenarioSample.twoNR] =
      some ⟨[ScenarioSample.twoIR], [ScenarioSample.twoNR, ScenarioSample.twoIR],
        SampleOrdering.IntRatRoot⟩ ∧
    (⟨[ScenarioSample.twoIR], [ScenarioSample.twoNR, ScenarioSample.twoIR],
        SampleOrdering.IntRatRoot⟩ : SampleSet ScenarioSample).remove
        (SampleComparator.call scenarioOps) 0 =
      some (⟨[], [ScenarioSample.twoNR], SampleOrdering.IntRatRoot⟩, 0) ∧
    (⟨[], [ScenarioSample.twoNR], SampleOrdering.IntRatRoot⟩ :
      SampleSet ScenarioSample).next = some ScenarioSample.twoNR ∧
    Equivalent scenarioOps.less ScenarioSample.twoNR ScenarioSample.twoIR ∧
    (⟨[], [ScenarioSample.twoNR], SampleOrdering.IntRatRoot⟩ :
      SampleSet ScenarioSample).contains scenarioOps.less ScenarioSample.twoNR = false ∧
    (init SampleOrdering.IntRatRoot).run objectOps.less (SampleComparator.call objectOps)
        [SampleSetCall.insert ⟨ScenarioSample.twoIR, 0⟩,
          SampleSetCall.insert ⟨ScenarioSample.twoNR, 1⟩, SampleSetCall.remove 0,
          SampleSetCall.insert ⟨ScenarioSample.twoNR, 2⟩] =
      some ⟨[⟨ScenarioSample.twoNR, 2⟩], [⟨ScenarioSample.twoNR, 1⟩],
        SampleOrdering.IntRatRoot⟩ ∧
    (⟨[⟨ScenarioSample.twoNR, 2⟩], [⟨ScenarioSample.twoNR, 1⟩],
        SampleOrdering.IntRatRoot⟩ : SampleSet ScenarioObject).remove
        (SampleComparator.call objectOps) 0 =
      some (⟨[], [], SampleOrdering.IntRatRoot⟩, 0) ∧
    (⟨ScenarioSample.twoNR, 1⟩ : ScenarioObject) ≠ ⟨ScenarioSample.twoNR, 2⟩ :=
  ⟨rfl, rfl, rfl, by decide, rfl, rfl, rfl, by decide⟩

end SampleSet
